import Mathlib

/-! CART decision tree (`cart/cart.go`): embedding and verified properties.

The program is embedded twice.

* Namespace `Cart`: `float64` values are modelled by exact rationals `ℚ`; comparison and
  arithmetic are the mathematical ones (no rounding, no NaN, no infinities, no signed zero),
  and every map is read in insertion order except `featureValues`. This embedding carries
  the properties in which the values are only stored, routed or compared, and which the
  program has on every input all the same.
* Namespace `Cart64`: `float64` values are the IEEE 754 binary64 values `F64`, every operation
  rounded to nearest on its own (no fused multiply-add), a map finds a key by `==`, and
  every `range` over a map has an order of its own. This embedding carries the properties that
  depend on rounding, on NaN, or on the order of a map walk.

Conventions common to both.

* A `*DecisionNode` is a value of `DecisionNode`: `nil` is the nil pointer, `node` a pointer to
  a struct with the six fields of the Go struct, in the order of the source.
* A Go run-time panic is an `Except Fault` error; a recursion that does not come back
  within its fuel is `Fault.outOfFuel`.
* The order in which `range` walks a Go map is unspecified; where the result depends on it,
  the order is a parameter.
-/

namespace Cart

/-- Ways in which a run of the program ends without a result. -/
inductive Fault
  | nilDereference
  | indexOutOfRange
  | outOfFuel
  deriving DecidableEq

deriving instance DecidableEq for Except

/-- The Go type `*DecisionNode`; the fields of `node` are those of the struct, in order. -/
inductive DecisionNode
  | nil
  | node (FeatureIndex : Int) (Threshold : ℚ) (Left Right : DecisionNode) (Value : ℚ)
      (IsLeaf : Bool)
  deriving DecidableEq

/-- The Go struct `CART`. -/
structure CART where
  Root : DecisionNode
  deriving DecidableEq

/-- Go `NewCART`: the zero value, with a nil root. -/
def NewCART : CART := ⟨DecisionNode.nil⟩

/-- Slice indexing `xs[i]` with an `int` index: panics outside `0 <= i < len(xs)`. -/
def index {α : Type} (xs : List α) (i : Int) : Except Fault α :=
  if i < 0 then Except.error Fault.indexOutOfRange
  else
    match xs[i.toNat]? with
    | some v => Except.ok v
    | none => Except.error Fault.indexOutOfRange

/-- Go `predictSingle`: dereferencing a nil node panics. -/
def predictSingle (x : List ℚ) : DecisionNode → Except Fault ℚ
  | DecisionNode.nil => Except.error Fault.nilDereference
  | DecisionNode.node featureIndex threshold left right value isLeaf =>
    if isLeaf then Except.ok value
    else
      match index x featureIndex with
      | Except.error e => Except.error e
      | Except.ok xv =>
        if xv < threshold then predictSingle x left else predictSingle x right

/-- The loop of `Predict`: `predictions[i] = predictSingle(sample, Root)` for the samples
from position `i` on. -/
def predictLoop (root : DecisionNode) :
    Nat → List (List ℚ) → List ℚ → Except Fault (List ℚ)
  | _, [], predictions => Except.ok predictions
  | i, sample :: rest, predictions =>
    match predictSingle sample root with
    | Except.error e => Except.error e
    | Except.ok v => predictLoop root (i + 1) rest (predictions.set i v)

/-- Go `Predict`: `make([]float64, len(X))` followed by the loop. -/
def Predict (cart : CART) (X : List (List ℚ)) : Except Fault (List ℚ) :=
  predictLoop cart.Root 0 X (List.replicate X.length 0)

/-- The four slices built by `splitDataset`: `leftX, rightX, leftY, rightY`. -/
structure Split where
  leftX : List (List ℚ)
  rightX : List (List ℚ)
  leftY : List ℚ
  rightY : List ℚ
  deriving DecidableEq

/-- The loop of `splitDataset` from sample position `i` on, appending to the four slices. -/
def splitLoop (y : List ℚ) (featureIndex : Int) (threshold : ℚ) :
    Nat → List (List ℚ) → Split → Except Fault Split
  | _, [], acc => Except.ok acc
  | i, sample :: rest, acc =>
    match index sample featureIndex with
    | Except.error e => Except.error e
    | Except.ok xv =>
      if xv < threshold then
        match index y i with
        | Except.error e => Except.error e
        | Except.ok label =>
          splitLoop y featureIndex threshold (i + 1) rest
            { acc with leftX := acc.leftX ++ [sample], leftY := acc.leftY ++ [label] }
      else
        match index y i with
        | Except.error e => Except.error e
        | Except.ok label =>
          splitLoop y featureIndex threshold (i + 1) rest
            { acc with rightX := acc.rightX ++ [sample], rightY := acc.rightY ++ [label] }

/-- Go `splitDataset`: the four empty slices, then the loop. -/
def splitDataset (X : List (List ℚ)) (y : List ℚ) (featureIndex : Int) (threshold : ℚ) :
    Except Fault Split :=
  splitLoop y featureIndex threshold 0 X ⟨[], [], [], []⟩

/-- The statement `m[key]++` on a Go map held as the list of its entries, in order of first insertion:
an absent key starts from the zero value. -/
def increment {β : Type} [Add β] [One β] : List (ℚ × β) → ℚ → List (ℚ × β)
  | [], key => [(key, 1)]
  | (k, c) :: m, key =>
    if k = key then (k, c + 1) :: m else (k, c) :: increment m key

/-- The expression `m[key]` on a Go map: the zero value for an absent key. -/
def lookup {β : Type} [Zero β] : List (ℚ × β) → ℚ → β
  | [], _ => 0
  | (k, c) :: m, key => if k = key then c else lookup m key

/-- The map `labelCounts` of `Gini` after its first loop. -/
def labelCounts (y : List ℚ) : List (ℚ × ℚ) :=
  y.foldl increment []

/-- The second loop of `Gini` over the entries of `labelCounts`. -/
def giniLoop (total : ℚ) : List (ℚ × ℚ) → ℚ → ℚ
  | [], impurity => impurity
  | (_, count) :: entries, impurity =>
    let probOfLabel := count / total
    giniLoop total entries (impurity - probOfLabel * probOfLabel)

/-- Go `Gini`. The entries are walked in order of first insertion; `giniLoop_perm` shows that
any other order gives the same value. -/
def Gini (y : List ℚ) : ℚ :=
  let total : ℚ := (y.length : ℚ)
  if total = 0 then 0
  else giniLoop total (labelCounts y) 1

/-- The order in which one `range` over a map visits its keys: some rearrangement of the
keys present. -/
structure RangeOrder where
  visit : List ℚ → List ℚ
  visit_perm : ∀ keys, List.Perm (visit keys) keys

/-- The statement `featureValues[k] = true` on the key set of a `map[float64]bool`. -/
def insertKey (keys : List ℚ) (k : ℚ) : List ℚ :=
  if k ∈ keys then keys else keys ++ [k]

/-- First inner loop of `findBestSplit`: the keys of `featureValues`. -/
def featureValues (featureIndex : Int) : List (List ℚ) → List ℚ → Except Fault (List ℚ)
  | [], keys => Except.ok keys
  | sample :: rest, keys =>
    match index sample featureIndex with
    | Except.error e => Except.error e
    | Except.ok v => featureValues featureIndex rest (insertKey keys v)

/-- Innermost loop of `findBestSplit`: `leftY` and `rightY` for the candidate `value`. -/
def labelLoop (y : List ℚ) (featureIndex : Int) (value : ℚ) :
    Nat → List (List ℚ) → List ℚ × List ℚ → Except Fault (List ℚ × List ℚ)
  | _, [], acc => Except.ok acc
  | sampleIndex, sample :: rest, (leftY, rightY) =>
    match index sample featureIndex with
    | Except.error e => Except.error e
    | Except.ok xv =>
      if xv < value then
        match index y sampleIndex with
        | Except.error e => Except.error e
        | Except.ok label =>
          labelLoop y featureIndex value (sampleIndex + 1) rest (leftY ++ [label], rightY)
      else
        match index y sampleIndex with
        | Except.error e => Except.error e
        | Except.ok label =>
          labelLoop y featureIndex value (sampleIndex + 1) rest (leftY, rightY ++ [label])

/-- The expression assigned to `impurity` in `findBestSplit`. -/
def weightedImpurity (leftY rightY : List ℚ) (nSamples : Nat) : ℚ :=
  (Gini leftY * (leftY.length : ℚ) + Gini rightY * (rightY.length : ℚ)) / (nSamples : ℚ)

/-- The weighted impurity of the candidate `(featureIndex, value)`, as `findBestSplit`
computes it. -/
def candidateImpurity (X : List (List ℚ)) (y : List ℚ) (featureIndex : Int) (value : ℚ) :
    Except Fault ℚ :=
  match labelLoop y featureIndex value 0 X ([], []) with
  | Except.error e => Except.error e
  | Except.ok (leftY, rightY) => Except.ok (weightedImpurity leftY rightY X.length)

/-- The three `best...` variables of `findBestSplit`. -/
structure Best where
  bestImpurity : ℚ
  bestFeatureIndex : Int
  bestThreshold : ℚ
  deriving DecidableEq

/-- The loop of `findBestSplit` over the candidate values of one feature. -/
def valueLoop (X : List (List ℚ)) (y : List ℚ) (featureIndex : Int) :
    List ℚ → Best → Except Fault Best
  | [], best => Except.ok best
  | value :: values, best =>
    match candidateImpurity X y featureIndex value with
    | Except.error e => Except.error e
    | Except.ok impurity =>
      if impurity < best.bestImpurity then
        valueLoop X y featureIndex values ⟨impurity, featureIndex, value⟩
      else
        valueLoop X y featureIndex values best

/-- The outer loop of `findBestSplit` over the feature indices still to do. -/
def featureLoop (ord : Nat → RangeOrder) (X : List (List ℚ)) (y : List ℚ) :
    List Nat → Best → Except Fault Best
  | [], best => Except.ok best
  | featureIndex :: features, best =>
    match featureValues featureIndex X [] with
    | Except.error e => Except.error e
    | Except.ok keys =>
      match valueLoop X y featureIndex ((ord featureIndex).visit keys) best with
      | Except.error e => Except.error e
      | Except.ok best1 => featureLoop ord X y features best1

/-- Go `findBestSplit`; `ord f` is the order in which the values of feature `f` are visited.
`X[0]` panics on an empty `X`. -/
def findBestSplit (ord : Nat → RangeOrder) (X : List (List ℚ)) (y : List ℚ) :
    Except Fault (Int × ℚ) :=
  match X with
  | [] => Except.error Fault.indexOutOfRange
  | x0 :: _ =>
    match featureLoop ord X y (List.range x0.length) ⟨1, -1, 0⟩ with
    | Except.error e => Except.error e
    | Except.ok best => Except.ok (best.bestFeatureIndex, best.bestThreshold)

/-- The variables of `majorityValue`. -/
structure Majority where
  labelCounts : List (ℚ × Int)
  maxCount : Int
  majorityLabel : ℚ

/-- One iteration of the loop of `majorityValue`. -/
def majorityStep (s : Majority) (label : ℚ) : Majority :=
  let counts := increment s.labelCounts label
  if lookup counts label > s.maxCount then ⟨counts, lookup counts label, label⟩
  else ⟨counts, s.maxCount, s.majorityLabel⟩

/-- Go `majorityValue`: the final `majorityLabel`. -/
def majorityValue (y : List ℚ) : ℚ :=
  (y.foldl majorityStep ⟨[], 0, 0⟩).majorityLabel

/-- The loop of `isHomogeneous` over `y[1:]`. -/
def homogeneousLoop (firstLabel : ℚ) : List ℚ → Bool
  | [] => true
  | label :: rest => if label ≠ firstLabel then false else homogeneousLoop firstLabel rest

/-- Go `isHomogeneous`: `y[0]` panics on an empty `y`. -/
def isHomogeneous : List ℚ → Except Fault Bool
  | [] => Except.error Fault.indexOutOfRange
  | firstLabel :: rest => Except.ok (homogeneousLoop firstLabel rest)

/-- The visiting orders of one run of `buildTree`: for the call reached from the root by
the turns `path` (`false` left, `true` right) and for each feature index. -/
abbrev Schedule := List Bool → Nat → RangeOrder

/-- Go `buildTree`, with `fuel` bounding the depth of the recursion. The fields a composite
literal leaves out are the zero values. -/
def buildTree (sched : Schedule) :
    Nat → List (List ℚ) → List ℚ → Nat → Except Fault DecisionNode
  | 0, _, _, _ => Except.error Fault.outOfFuel
  | fuel + 1, X, y, depth =>
    if X.length = 0 then Except.ok DecisionNode.nil
    else
      match isHomogeneous y with
      | Except.error e => Except.error e
      | Except.ok true =>
        match index y 0 with
        | Except.error e => Except.error e
        | Except.ok y0 => Except.ok (DecisionNode.node 0 0 DecisionNode.nil DecisionNode.nil y0 true)
      | Except.ok false =>
        match findBestSplit (sched []) X y with
        | Except.error e => Except.error e
        | Except.ok (bestFeatureIndex, bestThreshold) =>
          if bestFeatureIndex = -1 then
            Except.ok (DecisionNode.node 0 0 DecisionNode.nil DecisionNode.nil
              (majorityValue y) true)
          else
            match splitDataset X y bestFeatureIndex bestThreshold with
            | Except.error e => Except.error e
            | Except.ok s =>
              match buildTree (fun path => sched (false :: path)) fuel s.leftX s.leftY
                  (depth + 1) with
              | Except.error e => Except.error e
              | Except.ok left =>
                match buildTree (fun path => sched (true :: path)) fuel s.rightX s.rightY
                    (depth + 1) with
                | Except.error e => Except.error e
                | Except.ok right =>
                  Except.ok (DecisionNode.node bestFeatureIndex bestThreshold left right 0 false)

/-- Go `Fit`: the root becomes the tree built from depth `0`. -/
def Fit (sched : Schedule) (fuel : Nat) (cart : CART) (X : List (List ℚ)) (y : List ℚ) :
    Except Fault CART :=
  match buildTree sched fuel X y 0 with
  | Except.error e => Except.error e
  | Except.ok root => Except.ok { cart with Root := root }

/-- The visiting order that keeps the order of first insertion. -/
def insertionOrder : RangeOrder := ⟨fun keys => keys, fun keys => List.Perm.refl keys⟩

/-- The visiting order that reverses the order of first insertion. -/
def reverseOrder : RangeOrder := ⟨fun keys => keys.reverse, fun keys => List.reverse_perm keys⟩

/-- Modelled from the spec: the serialisation itself is done by the `encoding/gob` package,
which is outside the repository. One item of the encoded stream, in the "self-describing
recursive form" of section 4.5: the leaf/internal flag with the leaf value (if leaf) or the
feature index and threshold (if internal), or the mark of an absent node. -/
inductive Item
  | absent
  | leaf (value : ℚ)
  | internal (featureIndex : Int) (threshold : ℚ)
  deriving DecidableEq

/-- Modelled from the spec: the encoder of section 4.5 (in the source, `encoder.Encode` of
`encoding/gob`). Per node: the flag, then the value of a leaf, or the feature index and
threshold of an internal node followed by the encodings of its left and right subtrees. -/
def encodeNode : DecisionNode → List Item
  | DecisionNode.nil => [Item.absent]
  | DecisionNode.node featureIndex threshold left right value isLeaf =>
    if isLeaf then [Item.leaf value]
    else Item.internal featureIndex threshold :: (encodeNode left ++ encodeNode right)

/-- How `SaveModel` and `LoadModel` fail. -/
inductive StoreError
  | createFailed
  | openFailed
  | malformed
  deriving DecidableEq

/-- Modelled from the spec: the decoder of section 4.5 (in the source, `decoder.Decode` of
`encoding/gob`), which reads one node from the front of the stream and gives back the rest;
a truncated stream "fails decoding with a descriptive error". It decodes into fresh structs,
so a field the stream does not carry is the zero value. `fuel` bounds the nesting. -/
def decodeNode : Nat → List Item → Except StoreError (DecisionNode × List Item)
  | 0, _ => Except.error StoreError.malformed
  | _ + 1, [] => Except.error StoreError.malformed
  | _ + 1, Item.absent :: rest => Except.ok (DecisionNode.nil, rest)
  | _ + 1, Item.leaf value :: rest =>
    Except.ok (DecisionNode.node 0 0 DecisionNode.nil DecisionNode.nil value true, rest)
  | fuel + 1, Item.internal featureIndex threshold :: rest =>
    match decodeNode fuel rest with
    | Except.error e => Except.error e
    | Except.ok (left, rest1) =>
      match decodeNode fuel rest1 with
      | Except.error e => Except.error e
      | Except.ok (right, rest2) =>
        Except.ok (DecisionNode.node featureIndex threshold left right 0 false, rest2)

/-- Modelled from the spec: the persistent storage behind `os.Create` and `os.Open`
(section 6): the content of each path, and the paths that cannot be created or opened. -/
structure Storage where
  files : String → Option (List Item)
  denied : String → Bool

/-- Go `SaveModel`: create the file (overwriting it), encode the model into it; an error of
`os.Create` is returned as it is. -/
def SaveModel (cart : CART) (st : Storage) (filename : String) : Except StoreError Storage :=
  if st.denied filename then Except.error StoreError.createFailed
  else
    Except.ok
      { st with files := fun name => if name = filename then some (encodeNode cart.Root)
                                      else st.files name }

/-- Go `LoadModel`: open the file, decode a `CART` from it; errors of `os.Open` and of the
decoder are returned as they are. -/
def LoadModel (st : Storage) (filename : String) : Except StoreError CART :=
  if st.denied filename then Except.error StoreError.openFailed
  else
    match st.files filename with
    | none => Except.error StoreError.openFailed
    | some items =>
      match decodeNode items.length items with
      | Except.error e => Except.error e
      | Except.ok (root, _) => Except.ok ⟨root⟩

/-- The reference definition of the Gini impurity in the words of the specification:
`0` for no labels, else `1 - Σ_c p_c²` over the distinct values `c` of `labels`, with `p_c`
the empirical frequency of `c`. -/
def giniSpec (labels : List ℚ) : ℚ :=
  if labels = [] then 0
  else 1 - (labels.dedup.map fun c => ((labels.count c : ℚ) / (labels.length : ℚ)) ^ 2).sum

/-- The value `row[featureIndex]` of a row that is wide enough (zero otherwise). -/
def feature (featureIndex : Int) (row : List ℚ) : ℚ :=
  row.getD featureIndex.toNat 0

/-- The root is present and every internal node has both children present. -/
def wellFormed : DecisionNode → Bool
  | DecisionNode.nil => false
  | DecisionNode.node _ _ left right _ isLeaf =>
    isLeaf || (wellFormed left && wellFormed right)

/-- The sample `x` has a position for the feature index of every internal node. -/
def wideEnough (x : List ℚ) : DecisionNode → Bool
  | DecisionNode.nil => true
  | DecisionNode.node featureIndex _ left right _ isLeaf =>
    isLeaf ||
      (decide (0 ≤ featureIndex) && decide (featureIndex < (x.length : Int)) &&
        wideEnough x left && wideEnough x right)

/-- The test of `splitDataset` on a (row, label) pair: the row goes left. -/
def goesLeft (featureIndex : Int) (threshold : ℚ) (p : List ℚ × ℚ) : Bool :=
  decide (feature featureIndex p.1 < threshold)

/-- The weighted impurity of the candidate `(featureIndex, value)` in the words of the
specification: with `left` the samples whose feature is below `value` and `right` the
others, `(gini(y_left)*|left| + gini(y_right)*|right|) / n`. -/
def splitImpurity (X : List (List ℚ)) (y : List ℚ) (featureIndex : Int) (value : ℚ) : ℚ :=
  let yLeft := ((X.zip y).filter fun p => decide (feature featureIndex p.1 < value)).map Prod.snd
  let yRight := ((X.zip y).filter fun p => decide (feature featureIndex p.1 ≥ value)).map Prod.snd
  (Gini yLeft * (yLeft.length : ℚ) + Gini yRight * (yRight.length : ℚ)) / (X.length : ℚ)

/-- The shape of the nodes `buildTree` makes: a leaf literal sets only `Value` and `IsLeaf`,
an internal literal only `FeatureIndex`, `Threshold`, `Left` and `Right`; every other field
is its zero value. -/
def canonical : DecisionNode → Bool
  | DecisionNode.nil => true
  | DecisionNode.node featureIndex threshold left right value isLeaf =>
    if isLeaf then
      decide (featureIndex = 0) && decide (threshold = 0) && decide (left = DecisionNode.nil) &&
        decide (right = DecisionNode.nil)
    else
      decide (value = 0) && canonical left && canonical right

/-- A storage with no file, in which every path can be created. -/
def emptyStorage : Storage := ⟨fun _ => none, fun _ => false⟩

/-- The `Value`s of the leaves of a tree; a node with `IsLeaf` set counts as a leaf whatever
its child pointers hold. -/
def leafValues : DecisionNode → List ℚ
  | DecisionNode.nil => []
  | DecisionNode.node _ _ left right value isLeaf =>
    if isLeaf then [value] else leafValues left ++ leafValues right

/-- The shape of a tree in which a leaf has no children and an internal node has its `Right`
child present, while its `Left` child may be absent. -/
def rightPresent : DecisionNode → Bool
  | DecisionNode.nil => true
  | DecisionNode.node _ _ left right _ isLeaf =>
    if isLeaf then decide (left = DecisionNode.nil) && decide (right = DecisionNode.nil)
    else decide (right ≠ DecisionNode.nil) && rightPresent left && rightPresent right

/-- A run of `buildTree` in which the map of a feature is walked in insertion order by the
root call and in the reverse order by every later call. -/
def mixedSchedule : Schedule :=
  fun path _ => if path = [] then insertionOrder else reverseOrder

/-- The four samples of the exclusive-or dataset and their labels. -/
def xorX : List (List ℚ) := [[1, 1], [2, 1], [1, 2], [2, 2]]

/-- The labels of `xorX`. -/
def xorY : List ℚ := [0, 1, 1, 0]

/-- The tree that `buildTree` returns on the exclusive-or dataset under `mixedSchedule`. -/
def xorTree : DecisionNode :=
  DecisionNode.node 0 1 DecisionNode.nil
    (DecisionNode.node 0 2
      (DecisionNode.node 1 2
        (DecisionNode.node 0 0 DecisionNode.nil DecisionNode.nil 0 true)
        (DecisionNode.node 0 0 DecisionNode.nil DecisionNode.nil 1 true) 0 false)
      (DecisionNode.node 1 2
        (DecisionNode.node 0 0 DecisionNode.nil DecisionNode.nil 1 true)
        (DecisionNode.node 0 0 DecisionNode.nil DecisionNode.nil 0 true) 0 false) 0 false)
    0 false

/-- The depth-1 tree of `TestPredictSingle`. -/
def testTree1 : DecisionNode :=
  DecisionNode.node 0 (3 / 2)
    (DecisionNode.node 0 0 DecisionNode.nil DecisionNode.nil 0 true)
    (DecisionNode.node 0 0 DecisionNode.nil DecisionNode.nil 1 true) 0 false

/-- The two-level tree of `TestPredictComplexTree`. -/
def testTree2 : DecisionNode :=
  DecisionNode.node 1 (7 / 2)
    (DecisionNode.node 0 (5 / 2)
      (DecisionNode.node 0 0 DecisionNode.nil DecisionNode.nil 0 true)
      (DecisionNode.node 0 0 DecisionNode.nil DecisionNode.nil 1 true) 0 false)
    (DecisionNode.node 0 0 DecisionNode.nil DecisionNode.nil 2 true) 0 false

end Cart

/-! ## The type `float64` -/

/-- A value of the Go type `float64` (IEEE 754 binary64): not-a-number, an infinity, a signed
zero, or a finite non-zero number held as the rational it stands for. -/
inductive F64
  | nan
  | inf (neg : Bool)
  | zero (neg : Bool)
  | num (q : ℚ)
  deriving DecidableEq

namespace F64

/-- The power `2 ^ e` for an integer exponent. -/
def pow2 (e : Int) : ℚ :=
  if 0 ≤ e then ((2 ^ e.toNat : Nat) : ℚ) else 1 / ((2 ^ (-e).toNat : Nat) : ℚ)

/-- The number of halvings that bring `n` below `2`, at most `fuel` of them: the binary
logarithm of `n`, rounded down, when `fuel` is at least that. -/
def log2Fuel : Nat → Nat → Nat
  | 0, _ => 0
  | fuel + 1, n => if n < 2 then 0 else log2Fuel fuel (n / 2) + 1

/-- The exponent `e` with `2 ^ e <= a < 2 ^ (e + 1)`, for a positive rational `a` whose
numerator and denominator are below `2 ^ 4096`. -/
def ilog2 (a : ℚ) : Int :=
  let e : Int := (log2Fuel 4096 a.num.toNat : Int) - (log2Fuel 4096 a.den : Int)
  if pow2 e ≤ a then e else e - 1

/-- The integer nearest to a non-negative rational, a tie going to the even one. -/
def roundHalfEven (x : ℚ) : Nat :=
  let n := x.num.toNat
  let d := x.den
  let f := n / d
  let r2 := 2 * (n % d)
  if r2 < d then f else if d < r2 then f + 1 else if f % 2 = 0 then f else f + 1

/-- Rounding of a positive rational to binary64, to nearest and ties to even: 53 significant
bits, exponents from `-1022` (below it the spacing stays `2 ^ -1074`), overflow to infinity;
`neg` is the sign to give the result. -/
def roundPos (a : ℚ) (neg : Bool) : F64 :=
  let e := max (ilog2 a) (-1022)
  let quantum := pow2 (e - 52)
  let m := roundHalfEven (a / quantum)
  let r := (m : ℚ) * quantum
  if pow2 1024 ≤ r then inf neg
  else if m = 0 then zero neg
  else num (if neg then -r else r)

/-- Rounding of a non-zero rational to binary64. -/
def round (q : ℚ) : F64 :=
  if 0 < q then roundPos q false else roundPos (-q) true

/-- The sign bit of a value (`false` for NaN). -/
def sign : F64 → Bool
  | nan => false
  | inf neg => neg
  | zero neg => neg
  | num q => decide (q < 0)

/-- Negation: the sign is flipped. -/
def neg : F64 → F64
  | nan => nan
  | inf s => inf (!s)
  | zero s => zero (!s)
  | num q => num (-q)

/-- IEEE addition, rounded to nearest. -/
def add : F64 → F64 → F64
  | nan, _ => nan
  | _, nan => nan
  | inf s, inf s1 => if s = s1 then inf s else nan
  | inf s, _ => inf s
  | _, inf s => inf s
  | zero s, zero s1 => zero (s && s1)
  | zero _, num q => round q
  | num p, zero _ => round p
  | num p, num q => if p + q = 0 then zero false else round (p + q)

/-- IEEE subtraction. -/
def sub (a b : F64) : F64 := add a (neg b)

/-- IEEE multiplication, rounded to nearest. -/
def mul : F64 → F64 → F64
  | nan, _ => nan
  | _, nan => nan
  | inf _, zero _ => nan
  | zero _, inf _ => nan
  | inf s, b => inf (xor s (sign b))
  | a, inf s => inf (xor (sign a) s)
  | zero s, b => zero (xor s (sign b))
  | a, zero s => zero (xor (sign a) s)
  | num p, num q => if p * q = 0 then zero (xor (decide (p < 0)) (decide (q < 0))) else round (p * q)

/-- IEEE division, rounded to nearest. -/
def div : F64 → F64 → F64
  | nan, _ => nan
  | _, nan => nan
  | inf _, inf _ => nan
  | zero _, zero _ => nan
  | inf s, b => inf (xor s (sign b))
  | a, inf s => zero (xor (sign a) s)
  | zero s, b => zero (xor s (sign b))
  | a, zero s => inf (xor (sign a) s)
  | num p, num q => if p / q = 0 then nan else round (p / q)

/-- The conversion `float64(n)` of a non-negative integer. -/
def ofNat (n : Nat) : F64 :=
  if n = 0 then zero false else round (n : ℚ)

/-- The place of a value in the order of the extended reals; NaN has none. -/
def rank : F64 → Option (Int × ℚ)
  | nan => none
  | inf true => some (-1, 0)
  | inf false => some (1, 0)
  | zero _ => some (0, 0)
  | num q => some (0, q)

/-- The comparison `a < b` of Go: false as soon as one side is NaN. -/
def lt (a b : F64) : Bool :=
  match rank a, rank b with
  | some (i, p), some (j, q) => decide (i < j) || (decide (i = j) && decide (p < q))
  | _, _ => false

/-- The comparison `a == b` of Go: NaN equals nothing, the two zeros are equal. -/
def eq (a b : F64) : Bool :=
  match rank a, rank b with
  | some x, some y => decide (x = y)
  | _, _ => false

/-- Whether a value is a NaN. -/
def isNaN : F64 → Bool
  | nan => true
  | _ => false

/-- The Go comparison `a >= b` of `float64`. -/
def ge (a b : F64) : Bool := lt b a || eq a b

end F64

/-! ## The program over `float64` -/

namespace Cart64

open Cart (Fault index)

/-- The Go literal `1.0`. -/
def one : F64 := F64.num 1

/-- The Go literal `0.0`, also the zero value of a `float64` variable. -/
def zero : F64 := F64.zero false

/-- The Go type `*DecisionNode` over `float64`; the fields of `node` are those of the
struct, in order. -/
inductive DecisionNode
  | nil
  | node (FeatureIndex : Int) (Threshold : F64) (Left Right : DecisionNode) (Value : F64)
      (IsLeaf : Bool)
  deriving DecidableEq

/-- The Go struct `CART`. -/
structure CART where
  Root : DecisionNode
  deriving DecidableEq

/-- Go `NewCART`: a model with no tree. -/
def NewCART : CART := ⟨DecisionNode.nil⟩

/-- Go `predictSingle`: dereferencing a nil node panics; the test is the `<` of `float64`. -/
def predictSingle (x : List F64) : DecisionNode → Except Fault F64
  | DecisionNode.nil => Except.error Fault.nilDereference
  | DecisionNode.node featureIndex threshold left right value isLeaf =>
    if isLeaf then Except.ok value
    else
      match index x featureIndex with
      | Except.error e => Except.error e
      | Except.ok xv =>
        if F64.lt xv threshold then predictSingle x left else predictSingle x right

/-- The loop of `Predict`: `predictions[i] = predictSingle(sample, Root)` for the samples
from position `i` on. -/
def predictLoop (root : DecisionNode) :
    Nat → List (List F64) → List F64 → Except Fault (List F64)
  | _, [], predictions => Except.ok predictions
  | i, sample :: rest, predictions =>
    match predictSingle sample root with
    | Except.error e => Except.error e
    | Except.ok v => predictLoop root (i + 1) rest (predictions.set i v)

/-- Go `Predict`: `make([]float64, len(X))` followed by the loop. -/
def Predict (cart : CART) (X : List (List F64)) : Except Fault (List F64) :=
  predictLoop cart.Root 0 X (List.replicate X.length zero)

/-- The four slices built by `splitDataset`: `leftX, rightX, leftY, rightY`. -/
structure Split where
  leftX : List (List F64)
  rightX : List (List F64)
  leftY : List F64
  rightY : List F64
  deriving DecidableEq

/-- The loop of `splitDataset` from sample position `i` on, appending to the four slices;
the else branch takes every sample for which `<` is false. -/
def splitLoop (y : List F64) (featureIndex : Int) (threshold : F64) :
    Nat → List (List F64) → Split → Except Fault Split
  | _, [], acc => Except.ok acc
  | i, sample :: rest, acc =>
    match index sample featureIndex with
    | Except.error e => Except.error e
    | Except.ok xv =>
      if F64.lt xv threshold then
        match index y i with
        | Except.error e => Except.error e
        | Except.ok label =>
          splitLoop y featureIndex threshold (i + 1) rest
            { acc with leftX := acc.leftX ++ [sample], leftY := acc.leftY ++ [label] }
      else
        match index y i with
        | Except.error e => Except.error e
        | Except.ok label =>
          splitLoop y featureIndex threshold (i + 1) rest
            { acc with rightX := acc.rightX ++ [sample], rightY := acc.rightY ++ [label] }

/-- Go `splitDataset`: the four empty slices, then the loop. -/
def splitDataset (X : List (List F64)) (y : List F64) (featureIndex : Int) (threshold : F64) :
    Except Fault Split :=
  splitLoop y featureIndex threshold 0 X ⟨[], [], [], []⟩

/-- The statement `m[key]++` on a Go map with `float64` keys, held as the list of its
entries in order of insertion; `bump` is the `++` of the value type and `init` its zero
value. A key is found when it is `==` to a stored key, and the assignment then overwrites the
stored key (so `-0` replaces `0`); a NaN key is never found and makes a new entry each
time. -/
def increment {β : Type} (bump : β → β) (init : β) : List (F64 × β) → F64 → List (F64 × β)
  | [], key => [(key, bump init)]
  | (k, c) :: m, key =>
    if F64.eq k key then (key, bump c) :: m else (k, c) :: increment bump init m key

/-- The expression `m[key]` on a Go map with `float64` keys: the zero value `init` for a key
that is not found. -/
def lookup {β : Type} (init : β) : List (F64 × β) → F64 → β
  | [], _ => init
  | (k, c) :: m, key => if F64.eq k key then c else lookup init m key

/-- The `++` of a `float64` count. -/
def bumpFloat (c : F64) : F64 := F64.add c one

/-- The map `labelCounts` of `Gini` after its first loop. -/
def labelCounts (y : List F64) : List (F64 × F64) :=
  y.foldl (increment bumpFloat zero) []

/-- The second loop of `Gini` over the entries of `labelCounts`, in the order given. -/
def giniLoop (total : F64) : List (F64 × F64) → F64 → F64
  | [], impurity => impurity
  | (_, count) :: entries, impurity =>
    let probOfLabel := F64.div count total
    giniLoop total entries (F64.sub impurity (F64.mul probOfLabel probOfLabel))

/-- The order in which one `range` over a Go map visits its entries: some rearrangement of
the entries present. -/
structure RangeOrd (α : Type) where
  visit : List α → List α
  visit_perm : ∀ entries, List.Perm (visit entries) entries

/-- Go `Gini`; `ord` is the order in which the range over `labelCounts` runs. -/
def Gini (ord : RangeOrd (F64 × F64)) (y : List F64) : F64 :=
  let total := F64.ofNat y.length
  if F64.eq total zero then zero
  else giniLoop total (ord.visit (labelCounts y)) one

/-- The statement `featureValues[k] = true` on the key set of a `map[float64]bool`, held in
order of insertion: a stored key that is `==` to `k` is overwritten by `k`, otherwise `k` is
added; a NaN is never found and is added each time. -/
def insertKey : List F64 → F64 → List F64
  | [], k => [k]
  | key :: keys, k => if F64.eq key k then k :: keys else key :: insertKey keys k

/-- First inner loop of `findBestSplit`: the keys of `featureValues`. -/
def featureValues (featureIndex : Int) : List (List F64) → List F64 → Except Fault (List F64)
  | [], keys => Except.ok keys
  | sample :: rest, keys =>
    match index sample featureIndex with
    | Except.error e => Except.error e
    | Except.ok v => featureValues featureIndex rest (insertKey keys v)

/-- Innermost loop of `findBestSplit`: `leftY` and `rightY` for the candidate `value`. -/
def labelLoop (y : List F64) (featureIndex : Int) (value : F64) :
    Nat → List (List F64) → List F64 × List F64 → Except Fault (List F64 × List F64)
  | _, [], acc => Except.ok acc
  | sampleIndex, sample :: rest, (leftY, rightY) =>
    match index sample featureIndex with
    | Except.error e => Except.error e
    | Except.ok xv =>
      if F64.lt xv value then
        match index y sampleIndex with
        | Except.error e => Except.error e
        | Except.ok label =>
          labelLoop y featureIndex value (sampleIndex + 1) rest (leftY ++ [label], rightY)
      else
        match index y sampleIndex with
        | Except.error e => Except.error e
        | Except.ok label =>
          labelLoop y featureIndex value (sampleIndex + 1) rest (leftY, rightY ++ [label])

/-- The expression assigned to `impurity` in `findBestSplit`; `ordL` and `ordR` are the
orders of the ranges inside the two calls of `Gini`. -/
def weightedImpurity (ordL ordR : RangeOrd (F64 × F64)) (leftY rightY : List F64)
    (nSamples : Nat) : F64 :=
  F64.div
    (F64.add (F64.mul (Gini ordL leftY) (F64.ofNat leftY.length))
      (F64.mul (Gini ordR rightY) (F64.ofNat rightY.length)))
    (F64.ofNat nSamples)

/-- The weighted impurity of the candidate `(featureIndex, value)`, as `findBestSplit`
computes it. -/
def candidateImpurity (ordL ordR : RangeOrd (F64 × F64)) (X : List (List F64)) (y : List F64)
    (featureIndex : Int) (value : F64) : Except Fault F64 :=
  match labelLoop y featureIndex value 0 X ([], []) with
  | Except.error e => Except.error e
  | Except.ok (leftY, rightY) => Except.ok (weightedImpurity ordL ordR leftY rightY X.length)

/-- The three `best...` variables of `findBestSplit`. -/
structure Best where
  bestImpurity : F64
  bestFeatureIndex : Int
  bestThreshold : F64
  deriving DecidableEq

/-- The orders of all the ranges that one call of `findBestSplit` runs: `values f` for the
range over `featureValues` of feature `f`, and `counts f k side` for the range inside the
call of `Gini` on the left (`false`) or right (`true`) labels of the `k`-th candidate
visited for feature `f`. -/
structure SplitOrders where
  values : Nat → RangeOrd F64
  counts : Nat → Nat → Bool → RangeOrd (F64 × F64)

/-- The loop of `findBestSplit` over the candidate values of one feature, from the `k`-th
candidate on. -/
def valueLoop (counts : Nat → Bool → RangeOrd (F64 × F64)) (X : List (List F64))
    (y : List F64) (featureIndex : Int) : Nat → List F64 → Best → Except Fault Best
  | _, [], best => Except.ok best
  | k, value :: values, best =>
    match candidateImpurity (counts k false) (counts k true) X y featureIndex value with
    | Except.error e => Except.error e
    | Except.ok impurity =>
      if F64.lt impurity best.bestImpurity then
        valueLoop counts X y featureIndex (k + 1) values ⟨impurity, featureIndex, value⟩
      else
        valueLoop counts X y featureIndex (k + 1) values best

/-- The outer loop of `findBestSplit` over the feature indices still to do. -/
def featureLoop (ords : SplitOrders) (X : List (List F64)) (y : List F64) :
    List Nat → Best → Except Fault Best
  | [], best => Except.ok best
  | featureIndex :: features, best =>
    match featureValues featureIndex X [] with
    | Except.error e => Except.error e
    | Except.ok keys =>
      match valueLoop (ords.counts featureIndex) X y featureIndex 0
          ((ords.values featureIndex).visit keys) best with
      | Except.error e => Except.error e
      | Except.ok best1 => featureLoop ords X y features best1

/-- Go `findBestSplit`; `X[0]` panics on an empty `X`. -/
def findBestSplit (ords : SplitOrders) (X : List (List F64)) (y : List F64) :
    Except Fault (Int × F64) :=
  match X with
  | [] => Except.error Fault.indexOutOfRange
  | x0 :: _ =>
    match featureLoop ords X y (List.range x0.length) ⟨one, -1, zero⟩ with
    | Except.error e => Except.error e
    | Except.ok best => Except.ok (best.bestFeatureIndex, best.bestThreshold)

/-- The variables of `majorityValue`. -/
structure Majority where
  labelCounts : List (F64 × Int)
  maxCount : Int
  majorityLabel : F64

/-- One iteration of the loop of `majorityValue`. -/
def majorityStep (s : Majority) (label : F64) : Majority :=
  let counts := increment (fun c => c + 1) 0 s.labelCounts label
  if lookup 0 counts label > s.maxCount then ⟨counts, lookup 0 counts label, label⟩
  else ⟨counts, s.maxCount, s.majorityLabel⟩

/-- Go `majorityValue`: the final `majorityLabel`. -/
def majorityValue (y : List F64) : F64 :=
  (y.foldl majorityStep ⟨[], 0, zero⟩).majorityLabel

/-- The loop of `isHomogeneous` over `y[1:]`, with the `!=` of `float64`. -/
def homogeneousLoop (firstLabel : F64) : List F64 → Bool
  | [] => true
  | label :: rest =>
    if !F64.eq label firstLabel then false else homogeneousLoop firstLabel rest

/-- Go `isHomogeneous`: `y[0]` panics on an empty `y`. -/
def isHomogeneous : List F64 → Except Fault Bool
  | [] => Except.error Fault.indexOutOfRange
  | firstLabel :: rest => Except.ok (homogeneousLoop firstLabel rest)

/-- The orders of the ranges of one run of `buildTree`: for the call reached from the root by
the turns `path` (`false` left, `true` right), those of its call of `findBestSplit`. -/
abbrev Schedule := List Bool → SplitOrders

/-- Go `buildTree`, with `fuel` bounding the depth of the recursion. The fields a composite
literal leaves out are the zero values. -/
def buildTree (sched : Schedule) :
    Nat → List (List F64) → List F64 → Nat → Except Fault DecisionNode
  | 0, _, _, _ => Except.error Fault.outOfFuel
  | fuel + 1, X, y, depth =>
    if X.length = 0 then Except.ok DecisionNode.nil
    else
      match isHomogeneous y with
      | Except.error e => Except.error e
      | Except.ok true =>
        match index y 0 with
        | Except.error e => Except.error e
        | Except.ok y0 =>
          Except.ok (DecisionNode.node 0 zero DecisionNode.nil DecisionNode.nil y0 true)
      | Except.ok false =>
        match findBestSplit (sched []) X y with
        | Except.error e => Except.error e
        | Except.ok (bestFeatureIndex, bestThreshold) =>
          if bestFeatureIndex = -1 then
            Except.ok (DecisionNode.node 0 zero DecisionNode.nil DecisionNode.nil
              (majorityValue y) true)
          else
            match splitDataset X y bestFeatureIndex bestThreshold with
            | Except.error e => Except.error e
            | Except.ok s =>
              match buildTree (fun path => sched (false :: path)) fuel s.leftX s.leftY
                  (depth + 1) with
              | Except.error e => Except.error e
              | Except.ok left =>
                match buildTree (fun path => sched (true :: path)) fuel s.rightX s.rightY
                    (depth + 1) with
                | Except.error e => Except.error e
                | Except.ok right =>
                  Except.ok
                    (DecisionNode.node bestFeatureIndex bestThreshold left right zero false)

/-- Go `Fit`: the root becomes the tree built from depth `0`. -/
def Fit (sched : Schedule) (fuel : Nat) (cart : CART) (X : List (List F64)) (y : List F64) :
    Except Fault CART :=
  match buildTree sched fuel X y 0 with
  | Except.error e => Except.error e
  | Except.ok root => Except.ok { cart with Root := root }

/-- The visiting order that keeps the order of insertion. -/
def insertionOrd (α : Type) : RangeOrd α := ⟨fun l => l, fun l => List.Perm.refl l⟩

/-- The visiting order that reverses the order of insertion. -/
def reverseOrd (α : Type) : RangeOrd α := ⟨fun l => l.reverse, fun l => List.reverse_perm l⟩

/-- All ranges of one call of `findBestSplit` in insertion order. -/
def insertionOrders : SplitOrders := ⟨fun _ => insertionOrd F64, fun _ _ _ => insertionOrd _⟩

/-- Entry `featureIndex` of a row. -/
def feature (featureIndex : Int) (row : List F64) : F64 := row.getD featureIndex.toNat zero

/-- The test of `splitDataset` and of the inner loop of `findBestSplit` on a (row, label)
pair: `row[featureIndex] < threshold`. -/
def goesLeft (featureIndex : Int) (threshold : F64) (p : List F64 × F64) : Bool :=
  F64.lt (feature featureIndex p.1) threshold

/-- The number of labels of `y` that are `==` to `c`; no label is `==` to a NaN. -/
def occ (c : F64) (y : List F64) : Nat := y.countP (fun x => F64.eq x c)

/-- The state of the loop of `majorityValue` after the labels `p` have been scanned: the map
reads the running counts, `maxCount` bounds them, and either no label has been counted yet
and `majorityLabel` still holds its zero value, or `majorityLabel` is a scanned label with
running count `maxCount`, which it reached at a position `k` where every other label was
still below. -/
def MajorityInv (p : List F64) (s : Majority) : Prop :=
  (∀ c, lookup 0 s.labelCounts c = (occ c p : Int)) ∧
  (∀ c, (occ c p : Int) ≤ s.maxCount) ∧
  ((s.maxCount = 0 ∧ s.majorityLabel = zero) ∨
    (s.majorityLabel ∈ p ∧ (occ s.majorityLabel p : Int) = s.maxCount ∧
      ∃ k, k ≤ p.length ∧ (occ s.majorityLabel (p.take k) : Int) = s.maxCount ∧
        ∀ c, F64.eq c s.majorityLabel = false → (occ c (p.take k) : Int) < s.maxCount))

/-- The labels of the (row, label) pairs that the candidate `(featureIndex, value)` sends
left, in input order. -/
def leftLabels (X : List (List F64)) (y : List F64) (featureIndex : Int) (value : F64) :
    List F64 :=
  ((X.zip y).filter (goesLeft featureIndex value)).map Prod.snd

/-- The labels of the (row, label) pairs that the candidate `(featureIndex, value)` sends
right, in input order. -/
def rightLabels (X : List (List F64)) (y : List F64) (featureIndex : Int) (value : F64) :
    List F64 :=
  ((X.zip y).filter (fun p => !goesLeft featureIndex value p)).map Prod.snd

/-- The weighted impurity of the candidate `(featureIndex, value)` in `float64` arithmetic,
with `ordL` and `ordR` the orders in which the two calls of `Gini` walk their maps. -/
def splitImpurity (ordL ordR : RangeOrd (F64 × F64)) (X : List (List F64)) (y : List F64)
    (featureIndex : Int) (value : F64) : F64 :=
  weightedImpurity ordL ordR (leftLabels X y featureIndex value)
    (rightLabels X y featureIndex value) X.length

/-- The keys of the map `featureValues` of a feature, in order of insertion: the first of
each group of `==` values of the column. -/
def columnKeys (featureIndex : Int) (X : List (List F64)) : List F64 :=
  (X.map (feature featureIndex)).foldl insertKey []

/-- A candidate split together with the impurity that one run of `findBestSplit` computes
for it. -/
structure Candidate where
  featureIndex : Nat
  threshold : F64
  impurity : F64
  deriving DecidableEq

/-- The candidates of one feature from the `k`-th visited value on, each with the impurity
computed under the orders `counts k false` and `counts k true` of the two maps of `Gini`. -/
def candidatesFrom (counts : Nat → Bool → RangeOrd (F64 × F64)) (X : List (List F64))
    (y : List F64) (featureIndex : Nat) : Nat → List F64 → List Candidate
  | _, [] => []
  | k, value :: values =>
    ⟨featureIndex, value,
      splitImpurity (counts k false) (counts k true) X y featureIndex value⟩ ::
      candidatesFrom counts X y featureIndex (k + 1) values

/-- The candidates of one feature in the order in which the run `ords` visits them. -/
def candidatesOf (ords : SplitOrders) (X : List (List F64)) (y : List F64)
    (featureIndex : Nat) : List Candidate :=
  candidatesFrom (ords.counts featureIndex) X y featureIndex 0
    ((ords.values featureIndex).visit (columnKeys featureIndex X))

/-- All candidates of a dataset of width `w` in the order in which the run `ords` of
`findBestSplit` visits them: feature by feature, ascending. -/
def candidates (ords : SplitOrders) (X : List (List F64)) (y : List F64) (w : Nat) :
    List Candidate :=
  (List.range w).flatMap (candidatesOf ords X y)

/-- The update of the `best...` variables by one candidate: replaced only on a strictly
smaller impurity. -/
def scanStep (best : Best) (c : Candidate) : Best :=
  if F64.lt c.impurity best.bestImpurity then ⟨c.impurity, c.featureIndex, c.threshold⟩
  else best

/-- The `best...` variables after the candidates `cs` have been visited. -/
def scan (cs : List Candidate) (best : Best) : Best := cs.foldl scanStep best

/-- The `n` labels `i, i + 1, ..., i + n - 1`, pairwise distinct. -/
def distinctLabels : Nat → Nat → List F64
  | 0, _ => []
  | n + 1, i => F64.num i :: distinctLabels n (i + 1)

/-- A dataset of `2^27` equal rows `[1]`. -/
def manyX : List (List F64) := List.replicate (2 ^ 27) [one]

/-- The labels `1, 2, ..., 2^27` for the rows of `manyX`, pairwise distinct. -/
def manyY : List F64 := distinctLabels (2 ^ 27) 1

/-- The dataset of two equal rows `[1]` with the labels `0` and `1`. -/
def twinX : List (List F64) := [[one], [one]]

/-- The labels of `twinX`. -/
def twinY : List F64 := [zero, one]

/-- The dataset of `TestSaveLoadModel`. -/
def testX : List (List F64) := [[F64.num 1, F64.num 2], [F64.num 3, F64.num 4]]

/-- The labels of `testX`. -/
def testY : List F64 := [zero, one]

/-- Three equal rows `[2, 3]`. -/
def tieX : List (List F64) :=
  [[F64.num 2, F64.num 3], [F64.num 2, F64.num 3], [F64.num 2, F64.num 3]]

/-- The labels of `tieX`. -/
def tieY : List F64 := [one, zero, one]

/-- A run of `findBestSplit` in which the calls of `Gini` for feature `0` walk their maps in
insertion order and those for the other features in the reverse order. -/
def tieOrders : SplitOrders :=
  ⟨fun _ => insertionOrd F64,
    fun featureIndex _ _ => if featureIndex = 0 then insertionOrd _ else reverseOrd _⟩

/-- The classes of a label list, as the keys of the map `labelCounts`: one label of each
group of `==` labels (the last one scanned), the groups in order of first occurrence. A NaN
label is `==` to nothing and is a class of its own each time. -/
def classes (y : List F64) : List F64 := y.foldl insertKey []

/-- The `float64` that a count holds after `k` increments from `0`. -/
def floatCount : Nat → F64
  | 0 => zero
  | k + 1 => bumpFloat (floatCount k)

/-- The count of the class of `c` in `y`, as the `float64` it is counted in: the number of
labels `==` to `c`, and `1` for a NaN. -/
def classCount (c : F64) (y : List F64) : F64 :=
  if F64.isNaN c then one else floatCount (occ c y)

/-- The reference definition of the Gini impurity in the words of the specification, read in
`float64`: `0` for no labels, else `1 - Σ_c (count_c / len)^2` over the classes `c` of `y`,
evaluated by subtracting the squares from `1.0` one class at a time, the classes taken in the
order `ord`. -/
def giniRef (ord : RangeOrd (F64 × F64)) (y : List F64) : F64 :=
  if y = [] then zero
  else
    (ord.visit ((classes y).map fun c => (c, classCount c y))).foldl
      (fun acc e =>
        F64.sub acc
          (F64.mul (F64.div e.2 (F64.ofNat y.length)) (F64.div e.2 (F64.ofNat y.length))))
      one

end Cart64

namespace Cart

/-! ## Indexing -/

theorem index_ok {α : Type} (xs : List α) (i : Int) (h0 : 0 ≤ i) (h1 : i < (xs.length : Int))
    (d : α) : index xs i = Except.ok (xs.getD i.toNat d) := by
  have hlt : i.toNat < xs.length := by omega
  unfold index
  rw [if_neg (by omega)]
  simp [List.getElem?_eq_getElem hlt, List.getD_eq_getElem?_getD]

theorem index_nat {α : Type} (xs : List α) (n : Nat) (h : n < xs.length) :
    index xs (n : Int) = Except.ok (xs.get ⟨n, h⟩) := by
  unfold index
  rw [if_neg (by omega)]
  simp [List.getElem?_eq_getElem h]

theorem index_feature (row : List ℚ) (f : Int) (h0 : 0 ≤ f) (h1 : f < (row.length : Int)) :
    index row f = Except.ok (feature f row) :=
  index_ok row f h0 h1 0

/-! ## Prediction -/

theorem predictSingle_leaf (x : List ℚ) (f : Int) (t : ℚ) (l r : DecisionNode) (v : ℚ) :
    predictSingle x (DecisionNode.node f t l r v true) = Except.ok v := by
  simp [predictSingle]

theorem predictSingle_internal (x : List ℚ) (f : Int) (t : ℚ) (l r : DecisionNode) (v : ℚ)
    (h0 : 0 ≤ f) (h1 : f < (x.length : Int)) :
    predictSingle x (DecisionNode.node f t l r v false) =
      if feature f x < t then predictSingle x l else predictSingle x r := by
  simp [predictSingle, index_feature x f h0 h1]

theorem predictSingle_total (x : List ℚ) (t : DecisionNode) (hwf : wellFormed t = true)
    (hw : wideEnough x t = true) : ∃ v, predictSingle x t = Except.ok v := by
  induction t with
  | nil => simp [wellFormed] at hwf
  | node f th l r v isLeaf ihl ihr =>
    cases isLeaf with
    | true => exact ⟨v, predictSingle_leaf x f th l r v⟩
    | false =>
      simp [wellFormed] at hwf
      simp [wideEnough] at hw
      obtain ⟨⟨⟨h0, h1⟩, hwl⟩, hwr⟩ := hw
      rw [predictSingle_internal x f th l r v h0 h1]
      split
      · exact ihl hwf.1 hwl
      · exact ihr hwf.2 hwr

theorem predictLoop_ok (root : DecisionNode) (g : List ℚ → ℚ) (X : List (List ℚ))
    (hg : ∀ x ∈ X, predictSingle x root = Except.ok (g x)) (i : Nat) (preds : List ℚ)
    (hlen : i + X.length ≤ preds.length) :
    predictLoop root i X preds =
      Except.ok (preds.take i ++ X.map g ++ preds.drop (i + X.length)) := by
  induction X generalizing i preds with
  | nil => simp [predictLoop]
  | cons x X ih =>
    have hx := hg x (List.mem_cons_self x X)
    have hX : ∀ z ∈ X, predictSingle z root = Except.ok (g z) :=
      fun z hz => hg z (List.mem_cons_of_mem x hz)
    simp only [List.length_cons] at hlen
    have hi : i < preds.length := by omega
    simp only [predictLoop, hx]
    rw [ih hX (i + 1) (preds.set i (g x)) (by simp; omega)]
    congr 1
    have h1 : (preds.set i (g x)).take (i + 1) = preds.take i ++ [g x] := by
      rw [List.set_eq_take_append_cons_drop, if_pos hi, List.take_append_eq_append_take]
      simp [List.length_take, Nat.min_eq_left (Nat.le_of_lt hi)]
    have h2 : (preds.set i (g x)).drop (i + 1 + X.length) = preds.drop (i + (X.length + 1)) := by
      rw [List.drop_set_of_lt (g x) preds (by omega)]
      congr 1
      omega
    rw [h1, h2]
    simp

/-- C8: for a model whose tree is well formed and samples wide enough for it, `Predict`
returns a vector with one entry per sample, the entry at position `i` being
`predictSingle(X[i], Root)`; and `Predict` of the empty matrix is the empty vector. -/
theorem Predict_pointwise (cart : CART) (X : List (List ℚ))
    (hwf : wellFormed cart.Root = true) (hw : ∀ x ∈ X, wideEnough x cart.Root = true) :
    Predict cart [] = Except.ok [] ∧
    ∃ out : List ℚ, Predict cart X = Except.ok out ∧ out.length = X.length ∧
      (∀ (i : Nat) (x : List ℚ), X[i]? = some x → ∃ v, out[i]? = some v ∧
        predictSingle x cart.Root = Except.ok v) ∧
      X.map (fun x => predictSingle x cart.Root) = out.map Except.ok := by
  refine ⟨by simp [Predict, predictLoop], ?_⟩
  let g : List ℚ → ℚ := fun x =>
    match predictSingle x cart.Root with
    | Except.ok v => v
    | Except.error _ => 0
  have hg : ∀ x ∈ X, predictSingle x cart.Root = Except.ok (g x) := by
    intro x hx
    obtain ⟨v, hv⟩ := predictSingle_total x cart.Root hwf (hw x hx)
    simp [g, hv]
  refine ⟨X.map g, ?_, by simp, ?_, ?_⟩
  · have h := predictLoop_ok cart.Root g X hg 0 (List.replicate X.length 0) (by simp)
    simpa [Predict] using h
  · intro i x hix
    refine ⟨g x, by simp [List.getElem?_map, hix], hg x (List.getElem?_mem hix)⟩
  · rw [List.map_map]
    exact List.map_congr_left fun x hx => hg x hx

/-- Witness of C8 on the tree and the samples of `TestPredictSingle`. -/
theorem Predict_pointwise_witness :
    wellFormed (CART.mk testTree1).Root = true ∧
    (∀ x ∈ [[(1 : ℚ)], [2]], wideEnough x (CART.mk testTree1).Root = true) ∧
    Predict (CART.mk testTree1) [[1], [2]] = Except.ok [0, 1] ∧
    (Predict (CART.mk testTree1) [] = Except.ok [] ∧
      ∃ out : List ℚ, Predict (CART.mk testTree1) [[1], [2]] = Except.ok out ∧
        out.length = [[(1 : ℚ)], [2]].length ∧
        (∀ (i : Nat) (x : List ℚ), [[(1 : ℚ)], [2]][i]? = some x → ∃ v, out[i]? = some v ∧
          predictSingle x (CART.mk testTree1).Root = Except.ok v) ∧
        [[(1 : ℚ)], [2]].map (fun x => predictSingle x (CART.mk testTree1).Root) =
          out.map Except.ok) :=
  ⟨by decide, by decide!, by decide!,
    Predict_pointwise (CART.mk testTree1) [[1], [2]] (by decide) (by decide!)⟩

/-- C9: `predictSingle` returns the `Value` of a leaf; at an internal node whose feature
index is a position of the sample it continues in `Left` when `x[FeatureIndex] < Threshold`
and in `Right` otherwise, so a value equal to the threshold goes right. -/
theorem predictSingle_rule (x : List ℚ) (f : Int) (t : ℚ) (l r : DecisionNode) (v : ℚ) :
    predictSingle x (DecisionNode.node f t l r v true) = Except.ok v ∧
    (0 ≤ f → f < (x.length : Int) →
      predictSingle x (DecisionNode.node f t l r v false) =
        (if feature f x < t then predictSingle x l else predictSingle x r) ∧
      (feature f x = t →
        predictSingle x (DecisionNode.node f t l r v false) = predictSingle x r)) := by
  refine ⟨predictSingle_leaf x f t l r v, fun h0 h1 => ?_⟩
  refine ⟨predictSingle_internal x f t l r v h0 h1, fun heq => ?_⟩
  rw [predictSingle_internal x f t l r v h0 h1, if_neg (by rw [heq]; exact lt_irrefl t)]

/-- Witness of C9 on the trees of `TestPredictSingle` and `TestPredictComplexTree`, and on a
sample whose value equals the threshold. -/
theorem predictSingle_rule_witness :
    Predict (CART.mk testTree1) [[1], [2]] = Except.ok [0, 1] ∧
    Predict (CART.mk testTree2) [[1, 4], [3, 2]] = Except.ok [2, 1] ∧
    (0 : Int) ≤ 0 ∧ (0 : Int) < (([3 / 2] : List ℚ).length : Int) ∧
    feature 0 [3 / 2] = 3 / 2 ∧
    predictSingle [3 / 2] testTree1 =
      predictSingle [3 / 2] (DecisionNode.node 0 0 DecisionNode.nil DecisionNode.nil 1 true) :=
  ⟨by decide!, by decide!, by decide, by decide, by decide!,
    ((predictSingle_rule [3 / 2] 0 (3 / 2)
      (DecisionNode.node 0 0 DecisionNode.nil DecisionNode.nil 0 true)
      (DecisionNode.node 0 0 DecisionNode.nil DecisionNode.nil 1 true) 0).2
      (by decide) (by decide)).2 (by decide!)⟩

/-- C10, as the code has it: with an absent root `Predict` ends in a nil dereference for
every matrix with at least one sample, and returns the empty vector for the empty matrix. -/
theorem Predict_absent_root (cart : CART) (X : List (List ℚ))
    (hroot : cart.Root = DecisionNode.nil) :
    (X ≠ [] → Predict cart X = Except.error Fault.nilDereference) ∧
    (X = [] → Predict cart X = Except.ok []) := by
  constructor
  · intro hX
    cases X with
    | nil => exact absurd rfl hX
    | cons x X => simp [Predict, hroot, predictLoop, predictSingle]
  · intro hX
    subst hX
    simp [Predict, predictLoop]

/-- Witness of the amended C10 on the untrained model and one sample. -/
theorem Predict_absent_root_witness :
    NewCART.Root = DecisionNode.nil ∧
    ([[(1 : ℚ)]] ≠ [] → Predict NewCART [[1]] = Except.error Fault.nilDereference) ∧
    ([[(1 : ℚ)]] = [] → Predict NewCART [[1]] = Except.ok []) :=
  ⟨rfl, Predict_absent_root NewCART [[1]] rfl⟩

/-- Counterexample to C10 as stated: on the untrained model and the empty matrix `Predict`
returns the empty vector and no error. -/
theorem Predict_absent_root_empty :
    NewCART.Root = DecisionNode.nil ∧ Predict NewCART [] = Except.ok [] ∧
    ¬ ∃ e, Predict NewCART [] = Except.error e := by
  refine ⟨rfl, by decide, ?_⟩
  rintro ⟨e, he⟩
  simp [Predict, predictLoop] at he

/-! ## Splitting -/

/-- The (row, label) pairs of a split that went left. -/
theorem splitLoop_ok (y : List ℚ) (f : Int) (t : ℚ) (X : List (List ℚ))
    (hidx : ∀ row ∈ X, 0 ≤ f ∧ f < (row.length : Int)) (i : Nat) (acc : Split)
    (hlen : i + X.length ≤ y.length) :
    splitLoop y f t i X acc = Except.ok
      ⟨acc.leftX ++ ((X.zip (y.drop i)).filter (goesLeft f t)).map Prod.fst,
       acc.rightX ++ ((X.zip (y.drop i)).filter (fun p => !goesLeft f t p)).map Prod.fst,
       acc.leftY ++ ((X.zip (y.drop i)).filter (goesLeft f t)).map Prod.snd,
       acc.rightY ++ ((X.zip (y.drop i)).filter (fun p => !goesLeft f t p)).map Prod.snd⟩ := by
  induction X generalizing i acc with
  | nil => simp [splitLoop]
  | cons x X ih =>
    have hx := hidx x (List.mem_cons_self x X)
    have hX : ∀ row ∈ X, 0 ≤ f ∧ f < (row.length : Int) :=
      fun row hrow => hidx row (List.mem_cons_of_mem x hrow)
    simp only [List.length_cons] at hlen
    have hi : i < y.length := by omega
    have hdrop : (x :: X).zip (y.drop i) = (x, y.get ⟨i, hi⟩) :: X.zip (y.drop (i + 1)) := by
      rw [List.drop_eq_getElem_cons hi]
      rfl
    simp only [splitLoop, index_feature x f hx.1 hx.2, index_nat y i hi]
    by_cases hlt : feature f x < t
    · rw [if_pos hlt, ih hX (i + 1) _ (by omega), hdrop]
      simp [List.filter_cons, goesLeft, hlt]
    · rw [if_neg hlt, ih hX (i + 1) _ (by omega), hdrop]
      simp [List.filter_cons, goesLeft, hlt]

theorem splitDataset_ok (X : List (List ℚ)) (y : List ℚ) (f : Int) (t : ℚ)
    (hidx : ∀ row ∈ X, 0 ≤ f ∧ f < (row.length : Int)) (hlen : X.length ≤ y.length) :
    splitDataset X y f t = Except.ok
      ⟨((X.zip y).filter (goesLeft f t)).map Prod.fst,
       ((X.zip y).filter (fun p => !goesLeft f t p)).map Prod.fst,
       ((X.zip y).filter (goesLeft f t)).map Prod.snd,
       ((X.zip y).filter (fun p => !goesLeft f t p)).map Prod.snd⟩ := by
  have h := splitLoop_ok y f t X hidx 0 ⟨[], [], [], []⟩ (by omega)
  simpa [splitDataset] using h

theorem zip_map_fst_snd {α β : Type} (l : List (α × β)) :
    (l.map Prod.fst).zip (l.map Prod.snd) = l := by
  induction l with
  | nil => rfl
  | cons p l ih => simp [ih]

/-- C5: `splitDataset` loses and duplicates nothing. With as many labels as rows and a
feature index that is a position of every row, it returns; the left rows and labels have one
length, so have the right ones, the lengths add up to `len(X)`, the label at position `k` of
a side is the label of the row at position `k` of that side, and the (row, label) pairs of
left followed by right are a permutation of the input pairs. -/
theorem splitDataset_partition (X : List (List ℚ)) (y : List ℚ) (f : Int) (t : ℚ)
    (hlen : X.length = y.length) (hidx : ∀ row ∈ X, 0 ≤ f ∧ f < (row.length : Int)) :
    ∃ s, splitDataset X y f t = Except.ok s ∧
      s.leftX.length = s.leftY.length ∧ s.rightX.length = s.rightY.length ∧
      s.leftX.length + s.rightX.length = X.length ∧
      (∀ (k : Nat) (row : List ℚ) (label : ℚ), s.leftX[k]? = some row →
        s.leftY[k]? = some label → (row, label) ∈ X.zip y) ∧
      (∀ (k : Nat) (row : List ℚ) (label : ℚ), s.rightX[k]? = some row →
        s.rightY[k]? = some label → (row, label) ∈ X.zip y) ∧
      List.Perm (s.leftX.zip s.leftY ++ s.rightX.zip s.rightY) (X.zip y) := by
  refine ⟨_, splitDataset_ok X y f t hidx (le_of_eq hlen), by simp, by simp, ?_, ?_, ?_, ?_⟩
  · have hp := (List.filter_append_perm (goesLeft f t) (X.zip y)).length_eq
    simp only [List.length_append, List.length_zip, ← hlen, Nat.min_self] at hp
    simpa using hp
  · intro k row label hr hl
    have hz : (((X.zip y).filter (goesLeft f t)).map Prod.fst).zip
        (((X.zip y).filter (goesLeft f t)).map Prod.snd) = (X.zip y).filter (goesLeft f t) :=
      zip_map_fst_snd _
    have hk : ((X.zip y).filter (goesLeft f t))[k]? = some (row, label) := by
      rw [← hz, List.getElem?_zip_eq_some]
      exact ⟨hr, hl⟩
    exact (List.mem_filter.mp (List.getElem?_mem hk)).1
  · intro k row label hr hl
    have hz : (((X.zip y).filter (fun p => !goesLeft f t p)).map Prod.fst).zip
        (((X.zip y).filter (fun p => !goesLeft f t p)).map Prod.snd) =
          (X.zip y).filter (fun p => !goesLeft f t p) :=
      zip_map_fst_snd _
    have hk : ((X.zip y).filter (fun p => !goesLeft f t p))[k]? = some (row, label) := by
      rw [← hz, List.getElem?_zip_eq_some]
      exact ⟨hr, hl⟩
    exact (List.mem_filter.mp (List.getElem?_mem hk)).1
  · simp only [zip_map_fst_snd]
    exact List.filter_append_perm (goesLeft f t) (X.zip y)

/-- Witness of C5 on the data of `TestSplitDataset`. -/
theorem splitDataset_partition_witness :
    ([[1, 2], [3, 4], [5, 6]] : List (List ℚ)).length = ([0, 1, 0] : List ℚ).length ∧
    (∀ row ∈ ([[1, 2], [3, 4], [5, 6]] : List (List ℚ)),
      (0 : Int) ≤ 0 ∧ (0 : Int) < (row.length : Int)) ∧
    ∃ s, splitDataset [[1, 2], [3, 4], [5, 6]] [0, 1, 0] 0 4 = Except.ok s ∧
      s.leftX.length = s.leftY.length ∧ s.rightX.length = s.rightY.length ∧
      s.leftX.length + s.rightX.length = ([[1, 2], [3, 4], [5, 6]] : List (List ℚ)).length ∧
      (∀ (k : Nat) (row : List ℚ) (label : ℚ), s.leftX[k]? = some row →
        s.leftY[k]? = some label → (row, label) ∈ [[1, 2], [3, 4], [5, 6]].zip [0, 1, 0]) ∧
      (∀ (k : Nat) (row : List ℚ) (label : ℚ), s.rightX[k]? = some row →
        s.rightY[k]? = some label → (row, label) ∈ [[1, 2], [3, 4], [5, 6]].zip [0, 1, 0]) ∧
      List.Perm (s.leftX.zip s.leftY ++ s.rightX.zip s.rightY)
        ([[1, 2], [3, 4], [5, 6]].zip [0, 1, 0]) :=
  ⟨by decide, by decide,
    splitDataset_partition [[1, 2], [3, 4], [5, 6]] [0, 1, 0] 0 4 (by decide) (by decide)⟩

/-! ## Maps held as entry lists -/

theorem increment_keys {β : Type} [Ring β] (m : List (ℚ × β)) (key : ℚ) :
    (increment m key).map Prod.fst =
      if key ∈ m.map Prod.fst then m.map Prod.fst else m.map Prod.fst ++ [key] := by
  induction m with
  | nil => simp [increment]
  | cons e m ih =>
    obtain ⟨k, c⟩ := e
    by_cases hk : k = key
    · simp [increment, hk]
    · have hk2 : ¬ key = k := fun h => hk h.symm
      by_cases hm : key ∈ m.map Prod.fst
      · simp only [increment, if_neg hk, List.map_cons, ih, if_pos hm, List.mem_cons, hm,
          or_true, if_true]
      · simp only [increment, if_neg hk, List.map_cons, ih, if_neg hm, List.mem_cons, hm,
          hk2, or_self, if_false, List.cons_append]

theorem lookup_increment {β : Type} [Ring β] (m : List (ℚ × β)) (key k : ℚ) :
    lookup (increment m key) k = if k = key then lookup m k + 1 else lookup m k := by
  induction m with
  | nil =>
    by_cases h : k = key
    · simp [increment, lookup, h]
    · have h2 : ¬ key = k := fun e => h e.symm
      simp [increment, lookup, h, h2]
  | cons e m ih =>
    obtain ⟨k0, c⟩ := e
    by_cases hk : k0 = key
    · by_cases h : k = key
      · simp [increment, lookup, hk, h]
      · have h2 : ¬ key = k := fun e => h e.symm
        simp [increment, lookup, hk, h, h2]
    · by_cases h0 : k0 = k
      · have h : ¬ k = key := fun e => hk (h0.trans e)
        simp [increment, lookup, hk, h0, h]
      · simp [increment, lookup, hk, h0, ih]

theorem increment_nodup {β : Type} [Ring β] (m : List (ℚ × β)) (key : ℚ)
    (h : (m.map Prod.fst).Nodup) : ((increment m key).map Prod.fst).Nodup := by
  rw [increment_keys]
  split
  · exact h
  · rename_i hk
    rw [List.nodup_append]
    refine ⟨h, List.nodup_singleton key, ?_⟩
    intro a ha hb
    simp only [List.mem_singleton] at hb
    exact hk (hb ▸ ha)

theorem mem_entries_iff {β : Type} [Ring β] (m : List (ℚ × β)) (h : (m.map Prod.fst).Nodup)
    (k : ℚ) (c : β) : (k, c) ∈ m ↔ k ∈ m.map Prod.fst ∧ lookup m k = c := by
  induction m with
  | nil => simp
  | cons e m ih =>
    obtain ⟨k0, c0⟩ := e
    simp only [List.map_cons, List.nodup_cons] at h
    by_cases h0 : k0 = k
    · subst h0
      have hnot : (k0, c) ∉ m := fun hm => h.1 (List.mem_map_of_mem Prod.fst hm)
      simp [lookup, hnot]
      exact eq_comm
    · have h1 : ¬ k = k0 := fun e => h0 e.symm
      simp only [List.mem_cons, Prod.mk.injEq, h1, false_and, false_or, List.map_cons, lookup,
        if_neg h0]
      exact ih h.2

theorem foldl_increment {β : Type} [Ring β] (y : List ℚ) (m : List (ℚ × β))
    (h : (m.map Prod.fst).Nodup) :
    ((y.foldl increment m).map Prod.fst).Nodup ∧
    (∀ k, k ∈ (y.foldl increment m).map Prod.fst ↔ k ∈ m.map Prod.fst ∨ k ∈ y) ∧
    (∀ k, lookup (y.foldl increment m) k = lookup m k + (y.count k : β)) := by
  induction y generalizing m with
  | nil => simp [h]
  | cons a y ih =>
    obtain ⟨h1, h2, h3⟩ := ih (increment m a) (increment_nodup m a h)
    refine ⟨h1, ?_, ?_⟩
    · intro k
      rw [List.foldl_cons, h2 k, increment_keys]
      by_cases ha : a ∈ m.map Prod.fst
      · rw [if_pos ha]
        constructor
        · rintro (hk | hk)
          · exact Or.inl hk
          · exact Or.inr (List.mem_cons_of_mem a hk)
        · rintro (hk | hk)
          · exact Or.inl hk
          · rcases List.mem_cons.mp hk with hk | hk
            · exact Or.inl (hk ▸ ha)
            · exact Or.inr hk
      · rw [if_neg ha]
        simp only [List.mem_append, List.mem_singleton, List.mem_cons]
        tauto
    · intro k
      rw [List.foldl_cons, h3 k, lookup_increment, List.count_cons]
      by_cases hk : k = a
      · subst hk
        simp only [if_true, beq_self_eq_true, Nat.cast_add, Nat.cast_one]
        abel
      · have hk2 : ¬ a = k := fun e => hk e.symm
        simp [hk, hk2]

/-! ## Gini impurity -/

theorem giniLoop_eq (total : ℚ) (entries : List (ℚ × ℚ)) (impurity : ℚ) :
    giniLoop total entries impurity =
      impurity - (entries.map fun e => (e.2 / total) ^ 2).sum := by
  induction entries generalizing impurity with
  | nil => simp [giniLoop]
  | cons e entries ih =>
    obtain ⟨k, c⟩ := e
    simp only [giniLoop, ih, List.map_cons, List.sum_cons]
    ring

theorem labelCounts_perm (y : List ℚ) :
    List.Perm (labelCounts y) (y.dedup.map fun c => (c, (y.count c : ℚ))) := by
  obtain ⟨h1, h2, h3⟩ := foldl_increment (β := ℚ) y [] (by simp)
  have hr : ((y.dedup.map fun c => (c, (y.count c : ℚ))).map Prod.fst) = y.dedup := by
    rw [List.map_map]
    exact List.map_id _
  unfold labelCounts
  rw [List.perm_ext_iff_of_nodup (List.Nodup.of_map Prod.fst h1)
    (List.Nodup.of_map Prod.fst (hr.symm ▸ List.nodup_dedup y))]
  rintro ⟨k, c⟩
  rw [mem_entries_iff _ h1, h2 k, h3 k]
  simp only [List.map_nil, List.not_mem_nil, false_or, lookup, zero_add, List.mem_map,
    List.mem_dedup, Prod.mk.injEq]
  constructor
  · rintro ⟨hk, hc⟩
    exact ⟨k, hk, rfl, hc⟩
  · rintro ⟨a, ha, rfl, hc⟩
    exact ⟨ha, hc⟩

theorem length_cast_eq_zero (y : List ℚ) : ((y.length : ℚ) = 0) ↔ y = [] := by
  rw [Nat.cast_eq_zero, List.length_eq_zero]

theorem Gini_spec (y : List ℚ) : Gini y = giniSpec y := by
  unfold Gini giniSpec
  simp only [length_cast_eq_zero]
  split
  · rfl
  · rw [giniLoop_eq, ((labelCounts_perm y).map _).sum_eq, List.map_map]
    rfl

theorem Gini_nil : Gini [] = 0 := by
  simp [Gini]

theorem labelCounts_replicate (c : ℚ) (n : Nat) (k : ℚ) :
    (List.replicate n c).foldl increment [(c, k)] = [(c, k + (n : ℚ))] := by
  induction n generalizing k with
  | zero => simp
  | succ n ih =>
    simp only [List.replicate_succ, List.foldl_cons, increment, if_true, ih]
    push_cast
    ring_nf

theorem Gini_replicate (c : ℚ) (n : Nat) : Gini (List.replicate (n + 1) c) = 0 := by
  have hne : ((n : ℚ) + 1) ≠ 0 := by positivity
  have hlen : (((List.replicate (n + 1) c).length : ℕ) : ℚ) = (n : ℚ) + 1 := by
    simp
  unfold Gini labelCounts
  simp only [hlen, if_neg hne]
  simp only [List.replicate_succ, List.foldl_cons, increment, labelCounts_replicate, giniLoop]
  field_simp
  ring

/-- C4: for a non-empty label list whose labels are all equal, `Gini` is exactly `0`. -/
theorem Gini_all_equal (y : List ℚ) (hne : y ≠ []) (hall : ∀ a ∈ y, ∀ b ∈ y, a = b) :
    Gini y = 0 := by
  cases y with
  | nil => exact absurd rfl hne
  | cons c y =>
    have h : c :: y = List.replicate (y.length + 1) c := by
      rw [List.eq_replicate_iff]
      exact ⟨rfl, fun b hb => hall b hb c (List.mem_cons_self c y)⟩
    rw [h]
    exact Gini_replicate c y.length

/-- Witness of C4 on the first label list of `TestGini`. -/
theorem Gini_all_equal_witness :
    ([1, 1, 1, 1] : List ℚ) ≠ [] ∧
    (∀ a ∈ ([1, 1, 1, 1] : List ℚ), ∀ b ∈ ([1, 1, 1, 1] : List ℚ), a = b) ∧
    Gini [1, 1, 1, 1] = 0 :=
  ⟨by decide, by decide!, Gini_all_equal [1, 1, 1, 1] (by decide) (by decide!)⟩

/-! ## Search for the best split -/

theorem filter_not_goesLeft (f : Int) (t : ℚ) (l : List (List ℚ × ℚ)) :
    l.filter (fun p => !goesLeft f t p) = l.filter fun p => decide (feature f p.1 ≥ t) := by
  refine List.filter_congr fun p _ => ?_
  by_cases h : feature f p.1 < t
  · simp [goesLeft, h, not_le.mpr h]
  · simp [goesLeft, h, not_lt.mp h]

theorem labelLoop_ok (y : List ℚ) (f : Int) (v : ℚ) (X : List (List ℚ))
    (hidx : ∀ row ∈ X, 0 ≤ f ∧ f < (row.length : Int)) (i : Nat) (acc : List ℚ × List ℚ)
    (hlen : i + X.length ≤ y.length) :
    labelLoop y f v i X acc = Except.ok
      (acc.1 ++ ((X.zip (y.drop i)).filter (goesLeft f v)).map Prod.snd,
       acc.2 ++ ((X.zip (y.drop i)).filter (fun p => !goesLeft f v p)).map Prod.snd) := by
  induction X generalizing i acc with
  | nil => simp [labelLoop]
  | cons x X ih =>
    obtain ⟨leftY, rightY⟩ := acc
    have hx := hidx x (List.mem_cons_self x X)
    have hX : ∀ row ∈ X, 0 ≤ f ∧ f < (row.length : Int) :=
      fun row hrow => hidx row (List.mem_cons_of_mem x hrow)
    simp only [List.length_cons] at hlen
    have hi : i < y.length := by omega
    have hdrop : (x :: X).zip (y.drop i) = (x, y.get ⟨i, hi⟩) :: X.zip (y.drop (i + 1)) := by
      rw [List.drop_eq_getElem_cons hi]
      rfl
    simp only [labelLoop, index_feature x f hx.1 hx.2, index_nat y i hi]
    by_cases hlt : feature f x < v
    · rw [if_pos hlt, ih hX (i + 1) _ (by omega), hdrop]
      simp [List.filter_cons, goesLeft, hlt]
    · rw [if_neg hlt, ih hX (i + 1) _ (by omega), hdrop]
      simp [List.filter_cons, goesLeft, hlt]

theorem candidateImpurity_ok (X : List (List ℚ)) (y : List ℚ) (f : Int) (v : ℚ)
    (hidx : ∀ row ∈ X, 0 ≤ f ∧ f < (row.length : Int)) (hlen : X.length ≤ y.length) :
    candidateImpurity X y f v = Except.ok (splitImpurity X y f v) := by
  unfold candidateImpurity
  rw [labelLoop_ok y f v X hidx 0 ([], []) (by omega)]
  simp only [List.drop_zero, List.nil_append, filter_not_goesLeft]
  rfl

theorem mem_foldl_insertKey (l keys : List ℚ) (v : ℚ) :
    v ∈ l.foldl insertKey keys ↔ v ∈ keys ∨ v ∈ l := by
  induction l generalizing keys with
  | nil => simp
  | cons a l ih =>
    rw [List.foldl_cons, ih]
    unfold insertKey
    by_cases ha : a ∈ keys
    · rw [if_pos ha]
      constructor
      · rintro (h | h)
        · exact Or.inl h
        · exact Or.inr (List.mem_cons_of_mem a h)
      · rintro (h | h)
        · exact Or.inl h
        · rcases List.mem_cons.mp h with h | h
          · exact Or.inl (h ▸ ha)
          · exact Or.inr h
    · rw [if_neg ha]
      simp only [List.mem_append, List.mem_singleton, List.mem_cons]
      tauto

theorem featureValues_ok (f : Int) (X : List (List ℚ))
    (hidx : ∀ row ∈ X, 0 ≤ f ∧ f < (row.length : Int)) (keys : List ℚ) :
    featureValues f X keys = Except.ok ((X.map (feature f)).foldl insertKey keys) := by
  induction X generalizing keys with
  | nil => simp [featureValues]
  | cons x X ih =>
    have hx := hidx x (List.mem_cons_self x X)
    simp only [featureValues, index_feature x f hx.1 hx.2, List.map_cons, List.foldl_cons]
    exact ih (fun row hrow => hidx row (List.mem_cons_of_mem x hrow)) _

theorem valueLoop_spec (X : List (List ℚ)) (y : List ℚ) (f : Int)
    (hc : ∀ v, candidateImpurity X y f v = Except.ok (splitImpurity X y f v))
    (vs : List ℚ) (b : Best) :
    ∃ b1, valueLoop X y f vs b = Except.ok b1 ∧ b1.bestImpurity ≤ b.bestImpurity ∧
      (∀ v ∈ vs, b1.bestImpurity ≤ splitImpurity X y f v) ∧
      (b1 = b ∨ (b1.bestFeatureIndex = f ∧ b1.bestThreshold ∈ vs ∧
        b1.bestImpurity = splitImpurity X y f b1.bestThreshold ∧
        b1.bestImpurity < b.bestImpurity)) := by
  induction vs generalizing b with
  | nil => exact ⟨b, by simp [valueLoop]⟩
  | cons v vs ih =>
    simp only [valueLoop, hc v]
    by_cases hlt : splitImpurity X y f v < b.bestImpurity
    · rw [if_pos hlt]
      obtain ⟨b1, h1, h2, h3, h4⟩ := ih ⟨splitImpurity X y f v, f, v⟩
      refine ⟨b1, h1, le_trans h2 (le_of_lt hlt), ?_, Or.inr ?_⟩
      · intro u hu
        rcases List.mem_cons.mp hu with hu | hu
        · exact hu ▸ h2
        · exact h3 u hu
      · rcases h4 with h4 | ⟨h4, h5, h6, h7⟩
        · subst h4
          exact ⟨rfl, List.mem_cons_self v vs, rfl, hlt⟩
        · exact ⟨h4, List.mem_cons_of_mem v h5, h6, lt_trans h7 hlt⟩
    · rw [if_neg hlt]
      obtain ⟨b1, h1, h2, h3, h4⟩ := ih b
      refine ⟨b1, h1, h2, ?_, ?_⟩
      · intro u hu
        rcases List.mem_cons.mp hu with hu | hu
        · exact hu ▸ le_trans h2 (not_lt.mp hlt)
        · exact h3 u hu
      · rcases h4 with h4 | ⟨h4, h5, h6, h7⟩
        · exact Or.inl h4
        · exact Or.inr ⟨h4, List.mem_cons_of_mem v h5, h6, h7⟩

theorem Gini_lt_one (l : List ℚ) (hne : l ≠ []) : Gini l < 1 := by
  rw [Gini_spec, giniSpec, if_neg hne]
  have hlen : (0 : ℚ) < (l.length : ℚ) := by
    exact_mod_cast List.length_pos.mpr hne
  have hpos : 0 < (l.dedup.map fun c => ((l.count c : ℚ) / (l.length : ℚ)) ^ 2).sum := by
    apply List.sum_pos
    · intro x hx
      obtain ⟨c, hc, rfl⟩ := List.mem_map.mp hx
      have hcount : (0 : ℚ) < (l.count c : ℚ) := by
        exact_mod_cast List.count_pos_iff.mpr (List.mem_dedup.mp hc)
      positivity
    · intro h
      rw [List.map_eq_nil_iff] at h
      exact hne (List.dedup_eq_nil l |>.mp h)
  linarith

theorem Gini_mul_length (l : List ℚ) :
    Gini l * (l.length : ℚ) ≤ (l.length : ℚ) ∧
      (l ≠ [] → Gini l * (l.length : ℚ) < (l.length : ℚ)) := by
  by_cases hne : l = []
  · subst hne
    simp [Gini_nil]
  · have hlen : (0 : ℚ) < (l.length : ℚ) := by
      exact_mod_cast List.length_pos.mpr hne
    have h := Gini_lt_one l hne
    have hlt : Gini l * (l.length : ℚ) < (l.length : ℚ) := by nlinarith
    exact ⟨le_of_lt hlt, fun _ => hlt⟩

theorem splitImpurity_lt_one (X : List (List ℚ)) (y : List ℚ) (f : Int) (v : ℚ)
    (hX : X ≠ []) (hlen : X.length ≤ y.length) : splitImpurity X y f v < 1 := by
  have hn : (0 : ℚ) < (X.length : ℚ) := by
    exact_mod_cast List.length_pos.mpr hX
  unfold splitImpurity
  rw [← filter_not_goesLeft]
  simp only []
  generalize hL : ((X.zip y).filter fun p => decide (feature f p.1 < v)).map Prod.snd = yL
  generalize hR : ((X.zip y).filter fun p => !goesLeft f v p).map Prod.snd = yR
  have hsum : (yL.length : ℚ) + (yR.length : ℚ) = (X.length : ℚ) := by
    have h := List.length_eq_length_filter_add (l := X.zip y) (goesLeft f v)
    rw [List.length_zip, Nat.min_eq_left hlen] at h
    rw [← hL, ← hR, List.length_map, List.length_map]
    have h2 : ((X.zip y).filter fun p => decide (feature f p.1 < v)) =
        (X.zip y).filter (goesLeft f v) := rfl
    rw [h2]
    exact_mod_cast h.symm
  rw [div_lt_one hn, ← hsum]
  by_cases hne : yL = []
  · have hR2 : yR ≠ [] := by
      intro h
      rw [hne, h] at hsum
      simp only [List.length_nil, Nat.cast_zero, add_zero] at hsum
      exact absurd hsum (ne_of_lt hn)
    have h1 := (Gini_mul_length yL).1
    have h2 := (Gini_mul_length yR).2 hR2
    linarith
  · have h1 := (Gini_mul_length yL).2 hne
    have h2 := (Gini_mul_length yR).1
    linarith

theorem featureLoop_spec (ord : Nat → RangeOrder) (X : List (List ℚ)) (y : List ℚ)
    (hlen : X.length ≤ y.length) (fs : List Nat)
    (hfs : ∀ f ∈ fs, ∀ row ∈ X, f < row.length) (b : Best) :
    ∃ b1, featureLoop ord X y fs b = Except.ok b1 ∧ b1.bestImpurity ≤ b.bestImpurity ∧
      (∀ f ∈ fs, ∀ v ∈ X.map (feature (f : Int)),
        b1.bestImpurity ≤ splitImpurity X y (f : Int) v) ∧
      (b1 = b ∨ ∃ f ∈ fs, b1.bestFeatureIndex = (f : Int) ∧
        b1.bestThreshold ∈ X.map (feature (f : Int)) ∧
        b1.bestImpurity = splitImpurity X y (f : Int) b1.bestThreshold ∧
        b1.bestImpurity < b.bestImpurity) := by
  induction fs generalizing b with
  | nil => exact ⟨b, by simp [featureLoop]⟩
  | cons f fs ih =>
    have hidx : ∀ row ∈ X, 0 ≤ (f : Int) ∧ (f : Int) < (row.length : Int) := by
      intro row hrow
      have := hfs f (List.mem_cons_self f fs) row hrow
      omega
    have hmem : ∀ v, v ∈ (ord f).visit ((X.map (feature (f : Int))).foldl insertKey []) ↔
        v ∈ X.map (feature (f : Int)) := by
      intro v
      rw [((ord f).visit_perm _).mem_iff, mem_foldl_insertKey]
      simp
    obtain ⟨b0, h1, h2, h3, h4⟩ := valueLoop_spec X y (f : Int)
      (fun v => candidateImpurity_ok X y (f : Int) v hidx hlen)
      ((ord f).visit ((X.map (feature (f : Int))).foldl insertKey [])) b
    obtain ⟨b1, k1, k2, k3, k4⟩ :=
      ih (fun g hg => hfs g (List.mem_cons_of_mem f hg)) b0
    simp only [featureLoop, featureValues_ok (f : Int) X hidx, h1]
    refine ⟨b1, k1, le_trans k2 h2, ?_, ?_⟩
    · intro g hg v hv
      rcases List.mem_cons.mp hg with hg | hg
      · subst hg
        exact le_trans k2 (h3 v ((hmem v).mpr hv))
      · exact k3 g hg v hv
    · rcases k4 with k4 | ⟨g, hg, k5, k6, k7, k8⟩
      · subst k4
        rcases h4 with h4 | ⟨h5, h6, h7, h8⟩
        · exact Or.inl h4
        · exact Or.inr ⟨f, List.mem_cons_self f fs, h5, (hmem _).mp h6, h7, h8⟩
      · exact Or.inr ⟨g, List.mem_cons_of_mem f hg, k5, k6, k7, lt_of_lt_of_le k8 h2⟩

theorem findBestSplit_spec (ord : Nat → RangeOrder) (X : List (List ℚ)) (y : List ℚ) (w : Nat)
    (hX : X ≠ []) (hw : 1 ≤ w) (hrows : ∀ row ∈ X, row.length = w)
    (hlen : X.length ≤ y.length) :
    ∃ f t, findBestSplit ord X y = Except.ok (f, t) ∧ 0 ≤ f ∧ f < (w : Int) ∧
      t ∈ X.map (feature f) ∧
      ∀ g : Int, 0 ≤ g → g < (w : Int) → ∀ v ∈ X.map (feature g),
        splitImpurity X y f t ≤ splitImpurity X y g v := by
  cases X with
  | nil => exact absurd rfl hX
  | cons x0 X0 =>
    have hx0 : x0.length = w := hrows x0 (List.mem_cons_self x0 X0)
    have hfs : ∀ f ∈ List.range w, ∀ row ∈ x0 :: X0, f < row.length := by
      intro f hf row hrow
      rw [hrows row hrow]
      exact List.mem_range.mp hf
    obtain ⟨b1, h1, _, h3, h4⟩ :=
      featureLoop_spec ord (x0 :: X0) y hlen (List.range w) hfs ⟨1, -1, 0⟩
    have hlt : b1.bestImpurity < 1 := by
      have h0 := h3 0 (List.mem_range.mpr hw) (feature ((0 : Nat) : Int) x0)
        (List.mem_map_of_mem _ (List.mem_cons_self x0 X0))
      exact lt_of_le_of_lt h0 (splitImpurity_lt_one _ y _ _ hX hlen)
    rcases h4 with h4 | ⟨f, hf, h5, h6, h7, _⟩
    · rw [h4] at hlt
      exact absurd hlt (lt_irrefl _)
    · refine ⟨b1.bestFeatureIndex, b1.bestThreshold, ?_, ?_, ?_, ?_, ?_⟩
      · simp only [findBestSplit, hx0, h1]
      · rw [h5]
        exact Int.natCast_nonneg f
      · rw [h5]
        exact_mod_cast List.mem_range.mp hf
      · rw [h5]
        exact h6
      · intro g hg0 hgw v hv
        have hg : g = ((g.toNat : Nat) : Int) := (Int.toNat_of_nonneg hg0).symm
        have hgr : g.toNat ∈ List.range w := by
          rw [List.mem_range]
          omega
        rw [hg] at hv ⊢
        rw [h5, ← h7]
        exact h3 g.toNat hgr v hv

/-! ## Saving and loading -/

theorem decode_encode (t : DecisionNode) :
    ∀ (fuel : Nat) (rest : List Item), (encodeNode t).length ≤ fuel →
      ∃ t1, decodeNode fuel (encodeNode t ++ rest) = Except.ok (t1, rest) ∧
        (∀ x, predictSingle x t1 = predictSingle x t) ∧
        (canonical t = true → t1 = t) := by
  induction t with
  | nil =>
    intro fuel rest hfuel
    cases fuel with
    | zero => simp [encodeNode] at hfuel
    | succ n => exact ⟨DecisionNode.nil, by simp [encodeNode, decodeNode], fun _ => rfl, fun _ => rfl⟩
  | node f th l r v isLeaf ihl ihr =>
    intro fuel rest hfuel
    cases isLeaf with
    | true =>
      cases fuel with
      | zero => simp [encodeNode] at hfuel
      | succ n =>
        refine ⟨DecisionNode.node 0 0 DecisionNode.nil DecisionNode.nil v true,
          by simp [encodeNode, decodeNode], fun x => by simp [predictSingle], ?_⟩
        intro hc
        simp only [canonical, if_true, Bool.and_eq_true, decide_eq_true_eq] at hc
        obtain ⟨⟨⟨h1, h2⟩, h3⟩, h4⟩ := hc
        rw [h1, h2, h3, h4]
    | false =>
      cases fuel with
      | zero => simp [encodeNode] at hfuel
      | succ n =>
        simp only [encodeNode, Bool.false_eq_true, if_false, List.length_cons,
          List.length_append] at hfuel
        obtain ⟨l1, hl1, pl, cl⟩ := ihl n (encodeNode r ++ rest) (by omega)
        obtain ⟨r1, hr1, pr, cr⟩ := ihr n rest (by omega)
        refine ⟨DecisionNode.node f th l1 r1 0 false, ?_, ?_, ?_⟩
        · have henc : encodeNode (DecisionNode.node f th l r v false) ++ rest =
              Item.internal f th :: (encodeNode l ++ (encodeNode r ++ rest)) := by
            simp [encodeNode]
          rw [henc]
          simp only [decodeNode, hl1, hr1]
        · intro x
          simp only [predictSingle, Bool.false_eq_true, if_false, pl x, pr x]
        · intro hc
          simp only [canonical, Bool.false_eq_true, if_false, Bool.and_eq_true,
            decide_eq_true_eq] at hc
          obtain ⟨⟨h1, h2⟩, h3⟩ := hc
          rw [cl h2, cr h3, h1]

theorem predictLoop_congr (t1 t : DecisionNode)
    (h : ∀ x, predictSingle x t1 = predictSingle x t) (X : List (List ℚ)) :
    ∀ (i : Nat) (preds : List ℚ), predictLoop t1 i X preds = predictLoop t i X preds := by
  induction X with
  | nil => intro i preds; rfl
  | cons x X ih =>
    intro i preds
    simp only [predictLoop, h x]
    cases predictSingle x t with
    | error e => rfl
    | ok v => exact ih (i + 1) _

theorem buildTree_canonical (fuel : Nat) :
    ∀ (sched : Schedule) (X : List (List ℚ)) (y : List ℚ) (depth : Nat) (root : DecisionNode),
      buildTree sched fuel X y depth = Except.ok root → canonical root = true := by
  induction fuel with
  | zero =>
    intro sched X y depth root h
    simp [buildTree] at h
  | succ fuel ih =>
    intro sched X y depth root h
    simp only [buildTree] at h
    split at h
    · cases h
      rfl
    · split at h
      · cases h
      · split at h
        · cases h
        · cases h
          simp [canonical]
      · split at h
        · cases h
        · split at h
          · cases h
            simp [canonical]
          · split at h
            · cases h
            · split at h
              · cases h
              · rename_i left hleft
                split at h
                · cases h
                · rename_i right hright
                  cases h
                  simp [canonical, ih _ _ _ _ _ hleft, ih _ _ _ _ _ hright]

/-- C1: save/load round trip. Where the file can be created, `SaveModel` succeeds and
`LoadModel` of the file it wrote succeeds with a model that gives the same `Predict` output
as the saved one on every input matrix; an absent root comes back absent, and a model that
`Fit` produced comes back structurally equal, field for field at every node. -/
theorem saveLoad_roundTrip (cart : CART) (st : Storage) (filename : String)
    (hfile : st.denied filename = false) :
    ∃ st1 loaded, SaveModel cart st filename = Except.ok st1 ∧
      LoadModel st1 filename = Except.ok loaded ∧
      (∀ X, Predict loaded X = Predict cart X) ∧
      (cart.Root = DecisionNode.nil → loaded.Root = DecisionNode.nil) ∧
      (∀ sched fuel c0 X y, Fit sched fuel c0 X y = Except.ok cart → loaded = cart) := by
  obtain ⟨t1, hdec, hpred, hcan⟩ :=
    decode_encode cart.Root (encodeNode cart.Root).length [] (le_refl _)
  rw [List.append_nil] at hdec
  refine ⟨{ st with files := fun name => if name = filename then some (encodeNode cart.Root)
                                          else st.files name },
    ⟨t1⟩, by simp [SaveModel, hfile], ?_, ?_, ?_, ?_⟩
  · simp [LoadModel, hfile, hdec]
  · intro X
    exact predictLoop_congr t1 cart.Root hpred X 0 _
  · intro hnil
    exact (hcan (by rw [hnil]; rfl)).trans hnil
  · intro sched fuel c0 X y hfit
    unfold Fit at hfit
    split at hfit
    · cases hfit
    · rename_i root hroot
      cases hfit
      have := hcan (buildTree_canonical fuel sched X y 0 root hroot)
      simp only at this
      rw [this]

/-- Witness of C1 on the model of `TestSaveLoadModel`, saved to an empty storage. -/
theorem saveLoad_roundTrip_witness :
    emptyStorage.denied "test_cart_model.gob" = false ∧
    Fit (fun _ _ => insertionOrder) 2 NewCART [[1, 2], [3, 4]] [0, 1] =
      Except.ok ⟨DecisionNode.node 0 3
        (DecisionNode.node 0 0 DecisionNode.nil DecisionNode.nil 0 true)
        (DecisionNode.node 0 0 DecisionNode.nil DecisionNode.nil 1 true) 0 false⟩ ∧
    ∃ st1 loaded,
      SaveModel ⟨DecisionNode.node 0 3
        (DecisionNode.node 0 0 DecisionNode.nil DecisionNode.nil 0 true)
        (DecisionNode.node 0 0 DecisionNode.nil DecisionNode.nil 1 true) 0 false⟩
        emptyStorage "test_cart_model.gob" = Except.ok st1 ∧
      LoadModel st1 "test_cart_model.gob" = Except.ok loaded ∧
      (∀ X, Predict loaded X = Predict ⟨DecisionNode.node 0 3
        (DecisionNode.node 0 0 DecisionNode.nil DecisionNode.nil 0 true)
        (DecisionNode.node 0 0 DecisionNode.nil DecisionNode.nil 1 true) 0 false⟩ X) ∧
      ((CART.mk (DecisionNode.node 0 3
        (DecisionNode.node 0 0 DecisionNode.nil DecisionNode.nil 0 true)
        (DecisionNode.node 0 0 DecisionNode.nil DecisionNode.nil 1 true) 0 false)).Root =
          DecisionNode.nil → loaded.Root = DecisionNode.nil) ∧
      (∀ sched fuel c0 X y, Fit sched fuel c0 X y = Except.ok ⟨DecisionNode.node 0 3
        (DecisionNode.node 0 0 DecisionNode.nil DecisionNode.nil 0 true)
        (DecisionNode.node 0 0 DecisionNode.nil DecisionNode.nil 1 true) 0 false⟩ →
        loaded = ⟨DecisionNode.node 0 3
          (DecisionNode.node 0 0 DecisionNode.nil DecisionNode.nil 0 true)
          (DecisionNode.node 0 0 DecisionNode.nil DecisionNode.nil 1 true) 0 false⟩) :=
  ⟨rfl, by decide!, saveLoad_roundTrip _ emptyStorage "test_cart_model.gob" rfl⟩

/-! ## Stopping rules of `buildTree` -/

/-- C11: `Fit` on an empty dataset is not an error and yields an absent tree. For `X = []`
and any `y`, the first call of `buildTree` returns nil and `Fit` sets `Root` to nil whatever
it held before; `isHomogeneous` and `findBestSplit`, which would panic on an empty `y` and
an empty `X`, are not evaluated. -/
theorem buildTree_empty (sched : Schedule) (fuel : Nat) (y : List ℚ) (depth : Nat)
    (cart : CART) :
    buildTree sched (fuel + 1) [] y depth = Except.ok DecisionNode.nil ∧
    Fit sched (fuel + 1) cart [] y = Except.ok ⟨DecisionNode.nil⟩ ∧
    Fit sched (fuel + 1) cart [] [] = Except.ok ⟨DecisionNode.nil⟩ ∧
    isHomogeneous [] = Except.error Fault.indexOutOfRange ∧
    findBestSplit (sched []) [] y = Except.error Fault.indexOutOfRange := by
  refine ⟨by simp [buildTree], by simp [Fit, buildTree], by simp [Fit, buildTree], rfl, rfl⟩

theorem homogeneousLoop_of_all (c : ℚ) (l : List ℚ) (h : ∀ a ∈ l, a = c) :
    homogeneousLoop c l = true := by
  induction l with
  | nil => rfl
  | cons b l ih =>
    have hb : b = c := h b (List.mem_cons_self b l)
    simp only [homogeneousLoop, hb, ne_eq, not_true_eq_false, if_false]
    exact ih fun a ha => h a (List.mem_cons_of_mem b ha)

theorem buildTree_pure (sched : Schedule) (fuel : Nat) (X : List (List ℚ)) (y0 : ℚ)
    (ys : List ℚ) (depth : Nat) (hX : X ≠ []) (hall : ∀ a ∈ ys, a = y0) :
    buildTree sched (fuel + 1) X (y0 :: ys) depth =
      Except.ok (DecisionNode.node 0 0 DecisionNode.nil DecisionNode.nil y0 true) := by
  have hX0 : ¬ X.length = 0 := fun h => hX (List.length_eq_zero.mp h)
  simp [buildTree, hX0, isHomogeneous, homogeneousLoop_of_all y0 ys hall, index]

theorem Predict_leaf (f : Int) (t : ℚ) (l r : DecisionNode) (v : ℚ) (X : List (List ℚ)) :
    Predict ⟨DecisionNode.node f t l r v true⟩ X = Except.ok (List.replicate X.length v) := by
  have h := predictLoop_ok (DecisionNode.node f t l r v true) (fun _ => v) X
    (fun x _ => predictSingle_leaf x f t l r v) 0 (List.replicate X.length 0) (by simp)
  have hmap : X.map (fun _ => v) = List.replicate X.length v := by
    induction X with
    | nil => rfl
    | cons x X ih => simp [List.replicate_succ]
  simpa [Predict, hmap] using h

/-- C19: `buildTree` stops on pure labels before searching for a split. On a non-empty `X`
with labels `y0 :: ys` all equal to `y0`, whatever the feature values and widths are, it
returns the single leaf with `Value = y[0]` and no children, and the model `Fit` produces
predicts `y[0]` for every sample of every input matrix. -/
theorem buildTree_pure_leaf (sched : Schedule) (fuel : Nat) (cart : CART)
    (X : List (List ℚ)) (y0 : ℚ) (ys : List ℚ) (depth : Nat) (hX : X ≠ [])
    (hall : ∀ a ∈ ys, a = y0) :
    buildTree sched (fuel + 1) X (y0 :: ys) depth =
      Except.ok (DecisionNode.node 0 0 DecisionNode.nil DecisionNode.nil y0 true) ∧
    ∃ model, Fit sched (fuel + 1) cart X (y0 :: ys) = Except.ok model ∧
      ∀ X1 : List (List ℚ), Predict model X1 = Except.ok (List.replicate X1.length y0) := by
  have h := buildTree_pure sched fuel X y0 ys 0 hX hall
  refine ⟨buildTree_pure sched fuel X y0 ys depth hX hall,
    ⟨DecisionNode.node 0 0 DecisionNode.nil DecisionNode.nil y0 true⟩, by simp [Fit, h], ?_⟩
  intro X1
  exact Predict_leaf 0 0 DecisionNode.nil DecisionNode.nil y0 X1

/-- Witness of C19 on two rows of different widths that share the label `3`. -/
theorem buildTree_pure_leaf_witness :
    ([[5], [7, 8]] : List (List ℚ)) ≠ [] ∧ (∀ a ∈ ([3] : List ℚ), a = 3) ∧
    (buildTree (fun _ _ => insertionOrder) (0 + 1) [[5], [7, 8]] (3 :: [3]) 0 =
      Except.ok (DecisionNode.node 0 0 DecisionNode.nil DecisionNode.nil 3 true) ∧
    ∃ model, Fit (fun _ _ => insertionOrder) (0 + 1) NewCART [[5], [7, 8]] (3 :: [3]) =
        Except.ok model ∧
      ∀ X1 : List (List ℚ), Predict model X1 = Except.ok (List.replicate X1.length 3)) :=
  ⟨by decide, by decide!,
    buildTree_pure_leaf (fun _ _ => insertionOrder) 0 NewCART [[5], [7, 8]] 3 [3] 0
      (by decide) (by decide!)⟩

/-- C18: `predictSingle` is safe under its two preconditions. On a tree whose internal nodes
all have both children present, and a sample with a position for the feature index of every
internal node, it returns a value, without an index or nil-dereference panic, and that value
is the `Value` of a leaf of the tree. -/
theorem predictSingle_safe (x : List ℚ) (t : DecisionNode) (hwf : wellFormed t = true)
    (hw : wideEnough x t = true) :
    ∃ v, predictSingle x t = Except.ok v ∧ v ∈ leafValues t := by
  induction t with
  | nil => simp [wellFormed] at hwf
  | node f th l r v isLeaf ihl ihr =>
    cases isLeaf with
    | true => exact ⟨v, predictSingle_leaf x f th l r v, by simp [leafValues]⟩
    | false =>
      simp [wellFormed] at hwf
      simp [wideEnough] at hw
      obtain ⟨⟨⟨h0, h1⟩, hwl⟩, hwr⟩ := hw
      rw [predictSingle_internal x f th l r v h0 h1]
      by_cases hlt : feature f x < th
      · rw [if_pos hlt]
        obtain ⟨u, hu, hmem⟩ := ihl hwf.1 hwl
        exact ⟨u, hu, by simp [leafValues, hmem]⟩
      · rw [if_neg hlt]
        obtain ⟨u, hu, hmem⟩ := ihr hwf.2 hwr
        exact ⟨u, hu, by simp [leafValues, hmem]⟩

/-- Witness of C18 on the tree of `TestPredictComplexTree` and its second sample. -/
theorem predictSingle_safe_witness :
    wellFormed testTree2 = true ∧ wideEnough [3, 2] testTree2 = true ∧
    predictSingle [3, 2] testTree2 = Except.ok 1 ∧
    ∃ v, predictSingle [3, 2] testTree2 = Except.ok v ∧ v ∈ leafValues testTree2 :=
  ⟨by decide, by decide!, by decide!, predictSingle_safe [3, 2] testTree2 (by decide) (by decide!)⟩

/-! ## The sentinel and the tie-break of `findBestSplit` -/

theorem findBestSplit_zero_width (ord : Nat → RangeOrder) (x0 : List ℚ) (X0 : List (List ℚ))
    (y : List ℚ) (h0 : x0.length = 0) :
    findBestSplit ord (x0 :: X0) y = Except.ok (-1, 0) := by
  simp [findBestSplit, h0, featureLoop]

/-! ## Splits with an empty side -/

theorem buildTree_step (sched : Schedule) (fuel : Nat) (X : List (List ℚ)) (y0 : ℚ)
    (ys : List ℚ) (depth : Nat) (f : Int) (t : ℚ) (s : Split) (hX : X ≠ [])
    (hhom : homogeneousLoop y0 ys = false)
    (hfind : findBestSplit (sched []) X (y0 :: ys) = Except.ok (f, t)) (hne : f ≠ -1)
    (hsplit : splitDataset X (y0 :: ys) f t = Except.ok s) :
    buildTree sched (fuel + 1) X (y0 :: ys) depth =
      match buildTree (fun path => sched (false :: path)) fuel s.leftX s.leftY (depth + 1) with
      | Except.error e => Except.error e
      | Except.ok left =>
        match buildTree (fun path => sched (true :: path)) fuel s.rightX s.rightY
            (depth + 1) with
        | Except.error e => Except.error e
        | Except.ok right => Except.ok (DecisionNode.node f t left right 0 false) := by
  have hX0 : ¬ X.length = 0 := fun h => hX (List.length_eq_zero.mp h)
  simp only [buildTree, hX0, isHomogeneous, hhom, hfind, hsplit, hne, if_false]

theorem map_fst_zip_eq {α β : Type} (X : List α) (y : List β) (h : X.length ≤ y.length) :
    (X.zip y).map Prod.fst = X := by
  induction X generalizing y with
  | nil => rfl
  | cons a X ih =>
    cases y with
    | nil => simp at h
    | cons b y =>
      simp only [List.length_cons, Nat.add_le_add_iff_right] at h
      simp [ih y h]

theorem right_nonempty (X : List (List ℚ)) (y : List ℚ) (f : Int) (t : ℚ)
    (hlen : X.length ≤ y.length) (ht : t ∈ X.map (feature f)) :
    ((X.zip y).filter (fun p => !goesLeft f t p)).map Prod.fst ≠ [] := by
  obtain ⟨row, hrow, hval⟩ := List.mem_map.mp ht
  have hmem : row ∈ (X.zip y).map Prod.fst := by
    rw [map_fst_zip_eq X y hlen]
    exact hrow
  obtain ⟨p, hp, hp1⟩ := List.mem_map.mp hmem
  intro hnil
  rw [List.map_eq_nil_iff] at hnil
  have hin : p ∈ (X.zip y).filter (fun p => !goesLeft f t p) := by
    rw [List.mem_filter]
    refine ⟨hp, ?_⟩
    simp [goesLeft, hp1, hval]
  rw [hnil] at hin
  exact absurd hin (List.not_mem_nil p)

theorem buildTree_rightPresent (w : Nat) (fuel : Nat) :
    ∀ (sched : Schedule) (X : List (List ℚ)) (y : List ℚ) (depth : Nat) (root : DecisionNode),
      X.length = y.length → (∀ row ∈ X, row.length = w) →
      buildTree sched fuel X y depth = Except.ok root →
      rightPresent root = true ∧ (X ≠ [] → root ≠ DecisionNode.nil) := by
  induction fuel with
  | zero =>
    intro sched X y depth root _ _ h
    simp [buildTree] at h
  | succ fuel ih =>
    intro sched X y depth root hlen hrows h
    by_cases hX : X = []
    · subst hX
      simp only [buildTree, List.length_nil, if_true] at h
      cases h
      exact ⟨rfl, fun hne => absurd rfl hne⟩
    · have hX0 : ¬ X.length = 0 := fun h0 => hX (List.length_eq_zero.mp h0)
      cases y with
      | nil => exact absurd hlen hX0
      | cons y0 ys =>
        cases hhom : homogeneousLoop y0 ys with
        | true =>
          simp only [buildTree, hX0, isHomogeneous, hhom, index, if_false] at h
          simp at h
          subst h
          exact ⟨by simp [rightPresent], fun _ => by simp⟩
        | false =>
          by_cases hw : w = 0
          · cases X with
            | nil => exact absurd rfl hX
            | cons x0 X0 =>
              have hx0 : x0.length = 0 := (hrows x0 (List.mem_cons_self x0 X0)).trans hw
              have hfind := findBestSplit_zero_width (sched []) x0 X0 (y0 :: ys) hx0
              simp only [buildTree, hX0, isHomogeneous, hhom, hfind, if_false, if_true] at h
              cases h
              exact ⟨by simp [rightPresent], fun _ => by simp⟩
          · obtain ⟨f, t, hfind, hf0, hfw, ht, _⟩ :=
              findBestSplit_spec (sched []) X (y0 :: ys) w hX (by omega) hrows (le_of_eq hlen)
            have hidx : ∀ row ∈ X, 0 ≤ f ∧ f < (row.length : Int) := by
              intro row hrow
              rw [hrows row hrow]
              exact ⟨hf0, hfw⟩
            have hsplit := splitDataset_ok X (y0 :: ys) f t hidx (le_of_eq hlen)
            have hrowsL : ∀ row ∈ ((X.zip (y0 :: ys)).filter (goesLeft f t)).map Prod.fst,
                row.length = w := by
              intro row hrow
              obtain ⟨p, hp, rfl⟩ := List.mem_map.mp hrow
              exact hrows p.1 (List.of_mem_zip (List.mem_filter.mp hp).1).1
            have hrowsR : ∀ row ∈
                ((X.zip (y0 :: ys)).filter (fun p => !goesLeft f t p)).map Prod.fst,
                row.length = w := by
              intro row hrow
              obtain ⟨p, hp, rfl⟩ := List.mem_map.mp hrow
              exact hrows p.1 (List.of_mem_zip (List.mem_filter.mp hp).1).1
            rw [buildTree_step sched fuel X y0 ys depth f t _ hX hhom hfind (by omega)
              hsplit] at h
            simp only [] at h
            split at h
            · cases h
            · rename_i left hL
              split at h
              · cases h
              · rename_i right hR
                cases h
                have iL := ih _ _ _ _ left (by simp) hrowsL hL
                have iR := ih _ _ _ _ right (by simp) hrowsR hR
                have hRne := iR.2 (right_nonempty X (y0 :: ys) f t (le_of_eq hlen) ht)
                exact ⟨by simp [rightPresent, hRne, iL.1, iR.1], fun _ => by simp⟩

/-- C17, as the code has it: on a non-empty dataset with one label per row and rows of one
common width, every tree `buildTree` returns has its root present, and each of its nodes is
either a leaf (`IsLeaf` true, no children) or an internal node (`IsLeaf` false) whose
`Right` child is present; the `Left` child of an internal node may be absent. -/
theorem buildTree_shape (sched : Schedule) (fuel : Nat) (X : List (List ℚ)) (y : List ℚ)
    (depth w : Nat) (root : DecisionNode) (hX : X ≠ []) (hlen : X.length = y.length)
    (hrows : ∀ row ∈ X, row.length = w)
    (h : buildTree sched fuel X y depth = Except.ok root) :
    root ≠ DecisionNode.nil ∧ rightPresent root = true := by
  have := buildTree_rightPresent w fuel sched X y depth root hlen hrows h
  exact ⟨this.2 hX, this.1⟩

/-- Witness of the amended C17 on the exclusive-or dataset under `mixedSchedule`. -/
theorem buildTree_shape_witness :
    xorX ≠ [] ∧ xorX.length = xorY.length ∧ (∀ row ∈ xorX, row.length = 2) ∧
    buildTree mixedSchedule 4 xorX xorY 0 = Except.ok xorTree ∧
    (xorTree ≠ DecisionNode.nil ∧ rightPresent xorTree = true) :=
  ⟨by decide, by decide, by decide, by decide!,
    buildTree_shape mixedSchedule 4 xorX xorY 0 2 xorTree (by decide) (by decide)
      (by decide) (by decide!)⟩

/-- Counterexample to C17 as stated: on the exclusive-or dataset, when the root call visits
the values in insertion order and the later calls in reverse order, `buildTree` returns a
tree whose root is an internal node with an absent `Left` child, on which `Predict` ends in
a nil dereference for a sample that goes left. -/
theorem buildTree_absent_child :
    buildTree mixedSchedule 4 xorX xorY 0 = Except.ok xorTree ∧
    (∃ r, xorTree = DecisionNode.node 0 1 DecisionNode.nil r 0 false) ∧
    wellFormed xorTree = false ∧
    Predict ⟨xorTree⟩ [[0, 0]] = Except.error Fault.nilDereference := by
  refine ⟨by decide!, ⟨_, rfl⟩, by decide, by decide!⟩

end Cart

namespace F64

/-! ## The comparisons of float64 -/

theorem lt_iff (a b : F64) :
    lt a b = true ↔ ∃ x y, rank a = some x ∧ rank b = some y ∧
      (x.1 < y.1 ∨ (x.1 = y.1 ∧ x.2 < y.2)) := by
  unfold lt
  cases ha : rank a with
  | none => simp
  | some x =>
    cases hb : rank b with
    | none => simp
    | some y =>
      obtain ⟨i, p⟩ := x
      obtain ⟨j, q⟩ := y
      simp

theorem eq_iff (a b : F64) :
    eq a b = true ↔ ∃ x, rank a = some x ∧ rank b = some x := by
  unfold eq
  cases ha : rank a with
  | none => simp
  | some x =>
    cases hb : rank b with
    | none => simp
    | some y => simp [eq_comm]

theorem lt_trans {a b c : F64} (h1 : lt a b = true) (h2 : lt b c = true) : lt a c = true := by
  rw [lt_iff] at *
  obtain ⟨x, y, hx, hy, h⟩ := h1
  obtain ⟨y1, z, hy1, hz, h1⟩ := h2
  rw [hy] at hy1
  cases hy1
  refine ⟨x, z, hx, hz, ?_⟩
  rcases h with h | ⟨h, h3⟩ <;> rcases h1 with h1 | ⟨h1, h4⟩
  · exact Or.inl (by omega)
  · exact Or.inl (by omega)
  · exact Or.inl (by omega)
  · exact Or.inr ⟨by omega, by linarith⟩

theorem lt_asymm {a b : F64} (h1 : lt a b = true) : lt b a = false := by
  cases h2 : lt b a with
  | false => rfl
  | true =>
    exfalso
    rw [lt_iff] at h1 h2
    obtain ⟨x, y, hx, hy, h⟩ := h1
    obtain ⟨y1, x1, hy1, hx1, h1⟩ := h2
    rw [hy] at hy1
    rw [hx] at hx1
    cases hy1
    cases hx1
    rcases h with h | ⟨h, h3⟩ <;> rcases h1 with h1 | ⟨h1, h4⟩
    · omega
    · omega
    · omega
    · linarith

theorem lt_irrefl (a : F64) : lt a a = false := by
  cases h : lt a a with
  | false => rfl
  | true => rw [lt_asymm h] at h; cases h

theorem eq_symm {a b : F64} (h : eq a b = true) : eq b a = true := by
  rw [eq_iff] at *
  obtain ⟨x, hx, hy⟩ := h
  exact ⟨x, hy, hx⟩

theorem eq_comm (a b : F64) : eq a b = eq b a := by
  cases h : eq a b with
  | true => exact (eq_symm h).symm
  | false =>
    cases h1 : eq b a with
    | false => rfl
    | true => rw [eq_symm h1] at h; cases h

theorem eq_trans {a b c : F64} (h1 : eq a b = true) (h2 : eq b c = true) : eq a c = true := by
  rw [eq_iff] at *
  obtain ⟨x, hx, hy⟩ := h1
  obtain ⟨y, hy1, hz⟩ := h2
  rw [hy] at hy1
  cases hy1
  exact ⟨x, hx, hz⟩

theorem lt_of_eq_of_lt {a b c : F64} (h1 : eq a b = true) (h2 : lt b c = true) :
    lt a c = true := by
  rw [eq_iff] at h1
  rw [lt_iff] at *
  obtain ⟨x, hx, hy⟩ := h1
  obtain ⟨y, z, hy1, hz, h⟩ := h2
  rw [hy] at hy1
  cases hy1
  exact ⟨x, z, hx, hz, h⟩

theorem lt_of_lt_of_eq {a b c : F64} (h1 : lt a b = true) (h2 : eq b c = true) :
    lt a c = true := by
  rw [eq_iff] at h2
  rw [lt_iff] at *
  obtain ⟨x, y, hx, hy, h⟩ := h1
  obtain ⟨y1, hy1, hz⟩ := h2
  rw [hy] at hy1
  cases hy1
  exact ⟨x, y, hx, hz, h⟩

theorem not_eq_of_lt {a b : F64} (h : lt a b = true) : eq b a = false := by
  cases h1 : eq b a with
  | false => rfl
  | true => exact absurd (lt_of_eq_of_lt h1 h) (by rw [lt_irrefl]; simp)

theorem eq_nan_left (a : F64) : eq nan a = false := by
  unfold eq; simp [rank]

theorem eq_nan_right (a : F64) : eq a nan = false := by
  rw [eq_comm, eq_nan_left]

theorem lt_nan_left (a : F64) : lt nan a = false := by
  unfold lt; simp [rank]

theorem lt_nan_right (a : F64) : lt a nan = false := by
  unfold lt; cases h : rank a <;> simp [rank]

theorem eq_self {a : F64} (h : a ≠ nan) : eq a a = true := by
  rw [eq_iff]
  cases a with
  | nan => exact absurd rfl h
  | inf s => cases s <;> exact ⟨_, rfl, rfl⟩
  | zero s => exact ⟨_, rfl, rfl⟩
  | num q => exact ⟨_, rfl, rfl⟩

theorem ne_nan_of_eq {a b : F64} (h : eq a b = true) : a ≠ nan := by
  rintro rfl
  rw [eq_nan_left] at h
  cases h

/-- For two numbers, one of `<`, `==`, `>` holds. -/
theorem lt_or_eq_or_gt {a b : F64} (ha : a ≠ nan) (hb : b ≠ nan) :
    lt a b = true ∨ eq a b = true ∨ lt b a = true := by
  have hra : ∃ x, rank a = some x := by
    cases a with
    | nan => exact absurd rfl ha
    | inf s => cases s <;> exact ⟨_, rfl⟩
    | zero s => exact ⟨_, rfl⟩
    | num q => exact ⟨_, rfl⟩
  have hrb : ∃ x, rank b = some x := by
    cases b with
    | nan => exact absurd rfl hb
    | inf s => cases s <;> exact ⟨_, rfl⟩
    | zero s => exact ⟨_, rfl⟩
    | num q => exact ⟨_, rfl⟩
  obtain ⟨⟨i, p⟩, hx⟩ := hra
  obtain ⟨⟨j, q⟩, hy⟩ := hrb
  rw [lt_iff, eq_iff, lt_iff]
  rcases lt_trichotomy i j with h | h | h
  · exact Or.inl ⟨_, _, hx, hy, Or.inl h⟩
  · rcases lt_trichotomy p q with h1 | h1 | h1
    · exact Or.inl ⟨_, _, hx, hy, Or.inr ⟨h, h1⟩⟩
    · subst h; subst h1; exact Or.inr (Or.inl ⟨_, hx, hy⟩)
    · exact Or.inr (Or.inr ⟨_, _, hy, hx, Or.inr ⟨h.symm, h1⟩⟩)
  · exact Or.inr (Or.inr ⟨_, _, hy, hx, Or.inl h⟩)

/-! ## Conversion of a length to float64 -/

theorem pow_log2Fuel_le (fuel n : Nat) (hn : 1 ≤ n) : 2 ^ log2Fuel fuel n ≤ n := by
  induction fuel generalizing n with
  | zero => simpa [log2Fuel] using hn
  | succ fuel ih =>
    unfold log2Fuel
    by_cases h : n < 2
    · rw [if_pos h]
      simpa using hn
    · rw [if_neg h]
      have h2 := ih (n / 2) (by omega)
      have h3 : 2 * (n / 2) ≤ n := Nat.mul_div_le n 2
      rw [pow_succ]
      omega

theorem pow2_pos (e : Int) : 0 < pow2 e := by
  unfold pow2
  split
  · positivity
  · positivity

theorem roundHalfEven_pos (x : ℚ) (hx : 1 ≤ x) : 1 ≤ roundHalfEven x := by
  have hden : (0 : ℚ) < x.den := by exact_mod_cast x.den_pos
  have hnum : (x.den : ℚ) ≤ x.num := by
    have h1 : x * x.den = x.num := Rat.mul_den_eq_num x
    nlinarith
  have hnum1 : (x.den : Int) ≤ x.num := by exact_mod_cast hnum
  have hq : 1 ≤ x.num.toNat / x.den := by
    rw [Nat.one_le_div_iff x.den_pos]
    omega
  unfold roundHalfEven
  simp only []
  split
  · exact hq
  · split
    · omega
    · split
      · exact hq
      · omega

theorem roundPos_ne_zero (a : ℚ) (s : Bool)
    (h : pow2 (max (ilog2 a) (-1022) - 52) ≤ a) :
    F64.eq (roundPos a s) (F64.zero false) = false := by
  have hq := pow2_pos (max (ilog2 a) (-1022) - 52)
  have hm : 1 ≤ roundHalfEven (a / pow2 (max (ilog2 a) (-1022) - 52)) :=
    roundHalfEven_pos _ (by rw [le_div_iff₀ hq]; linarith)
  have hr : (0 : ℚ) < (roundHalfEven (a / pow2 (max (ilog2 a) (-1022) - 52)) : ℚ) *
      pow2 (max (ilog2 a) (-1022) - 52) := by
    have : (1 : ℚ) ≤ (roundHalfEven (a / pow2 (max (ilog2 a) (-1022) - 52)) : ℚ) := by
      exact_mod_cast hm
    positivity
  unfold roundPos
  simp only []
  split
  · cases s <;> simp [F64.eq, rank]
  · rw [if_neg (by omega)]
    cases s
    · simp only [Bool.false_eq_true, if_false, F64.eq, rank]
      simp only [Option.some.injEq, Prod.mk.injEq, true_and, decide_eq_false_iff_not]
      exact ne_of_gt hr
    · simp only [if_true, F64.eq, rank]
      simp only [Option.some.injEq, Prod.mk.injEq, true_and, decide_eq_false_iff_not]
      intro h0
      linarith

theorem ilog2_natCast_le (n : Nat) :
    ilog2 (n : ℚ) ≤ (log2Fuel 4096 n : Int) := by
  have h1 : log2Fuel 4096 1 = 0 := by decide
  unfold ilog2
  simp only [Rat.num_natCast, Rat.den_natCast, Int.toNat_ofNat, h1, Nat.cast_zero, sub_zero]
  split <;> omega

/-- The conversion of a positive length is not zero. -/
theorem ofNat_ne_zero (n : Nat) (hn : 0 < n) : F64.eq (ofNat n) (F64.zero false) = false := by
  unfold ofNat
  rw [if_neg (by omega)]
  unfold F64.round
  have hpos : (0 : ℚ) < (n : ℚ) := by exact_mod_cast hn
  rw [if_pos hpos]
  refine roundPos_ne_zero _ _ ?_
  have h1 : (1 : ℚ) ≤ (n : ℚ) := by exact_mod_cast hn
  have hL := pow_log2Fuel_le 4096 n hn
  have hle := ilog2_natCast_le n
  generalize ilog2 (n : ℚ) = e at hle
  generalize log2Fuel 4096 n = L at hL hle
  unfold pow2
  split
  · rename_i h0
    have hto : (max e (-1022) - 52).toNat ≤ L := by omega
    have h2 : 2 ^ (max e (-1022) - 52).toNat ≤ n :=
      le_trans (Nat.pow_le_pow_right (by decide) hto) hL
    exact_mod_cast h2
  · have h3 : (1 : ℚ) ≤ ((2 ^ (-(max e (-1022) - 52)).toNat : Nat) : ℚ) := by
      exact_mod_cast Nat.one_le_two_pow
    have h4 : (1 : ℚ) / ((2 ^ (-(max e (-1022) - 52)).toNat : Nat) : ℚ) ≤ 1 := by
      rw [div_le_one (by linarith)]
      exact h3
    linarith

end F64

namespace Cart64

open Cart (Fault index index_ok index_nat zip_map_fst_snd)

/-! ## Splitting, over float64 -/

theorem index_feature_f64 (row : List F64) (f : Int) (h0 : 0 ≤ f)
    (h1 : f < (row.length : Int)) : index row f = Except.ok (feature f row) :=
  index_ok row f h0 h1 zero

theorem splitLoop_f64 (y : List F64) (f : Int) (t : F64) (X : List (List F64))
    (hidx : ∀ row ∈ X, 0 ≤ f ∧ f < (row.length : Int)) (i : Nat) (acc : Split)
    (hlen : i + X.length ≤ y.length) :
    splitLoop y f t i X acc = Except.ok
      ⟨acc.leftX ++ ((X.zip (y.drop i)).filter (goesLeft f t)).map Prod.fst,
       acc.rightX ++ ((X.zip (y.drop i)).filter (fun p => !goesLeft f t p)).map Prod.fst,
       acc.leftY ++ ((X.zip (y.drop i)).filter (goesLeft f t)).map Prod.snd,
       acc.rightY ++ ((X.zip (y.drop i)).filter (fun p => !goesLeft f t p)).map Prod.snd⟩ := by
  induction X generalizing i acc with
  | nil => simp [splitLoop]
  | cons x X ih =>
    have hx := hidx x (List.mem_cons_self x X)
    have hX : ∀ row ∈ X, 0 ≤ f ∧ f < (row.length : Int) :=
      fun row hrow => hidx row (List.mem_cons_of_mem x hrow)
    simp only [List.length_cons] at hlen
    have hi : i < y.length := by omega
    have hdrop : (x :: X).zip (y.drop i) = (x, y.get ⟨i, hi⟩) :: X.zip (y.drop (i + 1)) := by
      rw [List.drop_eq_getElem_cons hi]
      rfl
    simp only [splitLoop, index_feature_f64 x f hx.1 hx.2, index_nat y i hi]
    cases hlt : F64.lt (feature f x) t with
    | true =>
      rw [if_pos rfl, ih hX (i + 1) _ (by omega), hdrop]
      simp [List.filter_cons, goesLeft, hlt]
    | false =>
      rw [if_neg (by simp), ih hX (i + 1) _ (by omega), hdrop]
      simp [List.filter_cons, goesLeft, hlt]

theorem splitDataset_f64 (X : List (List F64)) (y : List F64) (f : Int) (t : F64)
    (hidx : ∀ row ∈ X, 0 ≤ f ∧ f < (row.length : Int)) (hlen : X.length ≤ y.length) :
    splitDataset X y f t = Except.ok
      ⟨((X.zip y).filter (goesLeft f t)).map Prod.fst,
       ((X.zip y).filter (fun p => !goesLeft f t p)).map Prod.fst,
       ((X.zip y).filter (goesLeft f t)).map Prod.snd,
       ((X.zip y).filter (fun p => !goesLeft f t p)).map Prod.snd⟩ := by
  have h := splitLoop_f64 y f t X hidx 0 ⟨[], [], [], []⟩ (by omega)
  simpa [splitDataset] using h

theorem ge_eq_not_lt {a b : F64} (ha : a ≠ F64.nan) (hb : b ≠ F64.nan) :
    F64.ge a b = !F64.lt a b := by
  unfold F64.ge
  rcases F64.lt_or_eq_or_gt ha hb with h | h | h
  · rw [h, F64.lt_asymm h, F64.eq_comm, F64.not_eq_of_lt h]
    rfl
  · have h1 : F64.lt a b = false := by
      cases h2 : F64.lt a b with
      | false => rfl
      | true => rw [F64.eq_comm, F64.not_eq_of_lt h2] at h; cases h
    have h3 : F64.lt b a = false := by
      cases h2 : F64.lt b a with
      | false => rfl
      | true => rw [F64.not_eq_of_lt h2] at h; cases h
    rw [h, h1, h3]
    rfl
  · rw [h, F64.lt_asymm h]
    rfl

/-- C6, the claim as stated fails on a NaN: the single row `[NaN]` with threshold `1` is put
on the right side by `splitDataset`, although `NaN >= 1` is false, so the right side is not
the subsequence of the pairs with `row[featureIndex] >= threshold` (which is empty here). -/
theorem split_nan_goes_right :
    splitDataset [[F64.nan]] [zero] 0 one = Except.ok ⟨[], [[F64.nan]], [], [zero]⟩ ∧
    ([[F64.nan]].zip [zero]).filter (fun p => F64.ge (feature 0 p.1) one) = [] ∧
    ([[F64.nan]] : List (List F64)).zip [zero] ≠ [] := by
  decide!

/-- C6, amended: `splitDataset` is the stable partition by the test `<` of `float64`. With at
least as many labels as rows and a feature index that is a position of every row, the left
(row, label) pairs are the pairs with `row[featureIndex] < threshold`, in their original
order, and the right pairs are the pairs for which `row[featureIndex] < threshold` is false,
in their original order. Where neither the threshold nor any `row[featureIndex]` is a NaN,
the right pairs are the pairs with `row[featureIndex] >= threshold`. -/
theorem splitDataset_stable_float (X : List (List F64)) (y : List F64) (f : Int) (t : F64)
    (hlen : X.length ≤ y.length) (hidx : ∀ row ∈ X, 0 ≤ f ∧ f < (row.length : Int)) :
    ∃ s, splitDataset X y f t = Except.ok s ∧
      s.leftX.length = s.leftY.length ∧ s.rightX.length = s.rightY.length ∧
      s.leftX.zip s.leftY = (X.zip y).filter (fun p => F64.lt (feature f p.1) t) ∧
      s.rightX.zip s.rightY = (X.zip y).filter (fun p => !F64.lt (feature f p.1) t) ∧
      (t ≠ F64.nan → (∀ row ∈ X, feature f row ≠ F64.nan) →
        s.rightX.zip s.rightY = (X.zip y).filter (fun p => F64.ge (feature f p.1) t)) := by
  refine ⟨_, splitDataset_f64 X y f t hidx hlen, by simp, by simp, ?_, ?_, ?_⟩
  · simp only [zip_map_fst_snd]
    rfl
  · simp only [zip_map_fst_snd]
    rfl
  · intro ht hrows
    simp only [zip_map_fst_snd]
    refine List.filter_congr fun p hp => ?_
    rw [ge_eq_not_lt (hrows p.1 (List.of_mem_zip hp).1) ht]
    rfl

/-- Witness of the amended C6 on the data of `TestSplitDataset`, with the four slices the test
expects; no value is a NaN there, so the right pairs are also those with
`row[featureIndex] >= threshold`. -/
theorem splitDataset_stable_float_witness :
    splitDataset [[F64.num 1, F64.num 2], [F64.num 3, F64.num 4], [F64.num 5, F64.num 6]]
        [zero, one, zero] 0 (F64.num 4) =
      Except.ok ⟨[[F64.num 1, F64.num 2], [F64.num 3, F64.num 4]], [[F64.num 5, F64.num 6]],
        [zero, one], [zero]⟩ ∧
    ([[F64.num 1, F64.num 2], [F64.num 3, F64.num 4], [F64.num 5, F64.num 6]] :
      List (List F64)).length ≤ ([zero, one, zero] : List F64).length ∧
    (∀ row ∈ ([[F64.num 1, F64.num 2], [F64.num 3, F64.num 4], [F64.num 5, F64.num 6]] :
      List (List F64)), (0 : Int) ≤ 0 ∧ (0 : Int) < (row.length : Int)) ∧
    ∃ s, splitDataset [[F64.num 1, F64.num 2], [F64.num 3, F64.num 4], [F64.num 5, F64.num 6]]
        [zero, one, zero] 0 (F64.num 4) = Except.ok s ∧
      s.leftX.length = s.leftY.length ∧ s.rightX.length = s.rightY.length ∧
      s.leftX.zip s.leftY =
        ([[F64.num 1, F64.num 2], [F64.num 3, F64.num 4], [F64.num 5, F64.num 6]].zip
          [zero, one, zero]).filter (fun p => F64.lt (feature 0 p.1) (F64.num 4)) ∧
      s.rightX.zip s.rightY =
        ([[F64.num 1, F64.num 2], [F64.num 3, F64.num 4], [F64.num 5, F64.num 6]].zip
          [zero, one, zero]).filter (fun p => !F64.lt (feature 0 p.1) (F64.num 4)) ∧
      s.rightX.zip s.rightY =
        ([[F64.num 1, F64.num 2], [F64.num 3, F64.num 4], [F64.num 5, F64.num 6]].zip
          [zero, one, zero]).filter (fun p => F64.ge (feature 0 p.1) (F64.num 4)) :=
  ⟨by decide!, by decide, by decide,
    (splitDataset_stable_float
      [[F64.num 1, F64.num 2], [F64.num 3, F64.num 4], [F64.num 5, F64.num 6]]
      [zero, one, zero] 0 (F64.num 4) (by decide) (by decide)).imp
      fun _ h => ⟨h.1, h.2.1, h.2.2.1, h.2.2.2.1, h.2.2.2.2.1,
        h.2.2.2.2.2 (by decide) (by decide!)⟩⟩

/-! ## Majority label, over float64 -/

theorem lookup_increment_f64 (m : List (F64 × Int)) (a c : F64) :
    lookup 0 (increment (fun v => v + 1) 0 m a) c =
      lookup 0 m c + if F64.eq a c then 1 else 0 := by
  induction m with
  | nil => simp [increment, lookup]
  | cons e m ih =>
    obtain ⟨k, v⟩ := e
    cases hka : F64.eq k a with
    | true =>
      cases hac : F64.eq a c with
      | true => simp [increment, lookup, hka, hac, F64.eq_trans hka hac]
      | false =>
        have hkc : F64.eq k c = false := by
          cases h : F64.eq k c with
          | false => rfl
          | true => rw [F64.eq_trans (F64.eq_symm hka) h] at hac; cases hac
        simp [increment, lookup, hka, hkc, hac]
    | false =>
      cases hkc : F64.eq k c with
      | true =>
        have hac : F64.eq a c = false := by
          cases h : F64.eq a c with
          | false => rfl
          | true => rw [F64.eq_trans hkc (F64.eq_symm h)] at hka; cases hka
        simp [increment, lookup, hka, hkc, hac]
      | false => simp [increment, lookup, hka, hkc, ih]

theorem occ_snoc (p : List F64) (a c : F64) :
    (occ c (p ++ [a]) : Int) = (occ c p : Int) + if F64.eq a c then 1 else 0 := by
  unfold occ
  rw [List.countP_append]
  cases h : F64.eq a c <;> simp [List.countP_cons, h]

theorem occ_congr {a c : F64} (h : F64.eq a c = true) (p : List F64) : occ a p = occ c p := by
  unfold occ
  refine List.countP_congr fun x _ => ?_
  constructor
  · intro hx
    exact F64.eq_trans hx h
  · intro hx
    exact F64.eq_trans hx (F64.eq_symm h)

theorem occ_pos_of_mem {a : F64} {p : List F64} (hmem : a ∈ p) (ha : a ≠ F64.nan) :
    0 < occ a p :=
  List.countP_pos_iff.mpr ⟨a, hmem, F64.eq_self ha⟩

theorem ne_nan_of_occ_pos {c : F64} {p : List F64} (h : 0 < occ c p) : c ≠ F64.nan := by
  obtain ⟨x, _, hx⟩ := List.countP_pos_iff.mp h
  rintro rfl
  rw [F64.eq_nan_right] at hx
  cases hx

theorem majorityStep_inv_f64 (p : List F64) (s : Majority) (a : F64) (h : MajorityInv p s) :
    MajorityInv (p ++ [a]) (majorityStep s a) := by
  obtain ⟨h2, h3, h4⟩ := h
  have hlook : ∀ c, lookup 0 (increment (fun v => v + 1) 0 s.labelCounts a) c =
      (occ c (p ++ [a]) : Int) := by
    intro c
    rw [lookup_increment_f64, h2 c, occ_snoc]
  have hsame : ∀ c, F64.eq a c = true → (occ c (p ++ [a]) : Int) = (occ a (p ++ [a]) : Int) := by
    intro c hc
    rw [occ_congr hc]
  have hother : ∀ c, F64.eq a c = false → (occ c (p ++ [a]) : Int) = (occ c p : Int) := by
    intro c hc
    rw [occ_snoc, hc]
    simp
  unfold majorityStep
  simp only []
  by_cases hgt : lookup 0 (increment (fun v => v + 1) 0 s.labelCounts a) a > s.maxCount
  · rw [if_pos hgt]
    rw [hlook a] at hgt
    refine ⟨hlook, ?_, Or.inr ⟨by simp, ?_, (p ++ [a]).length, le_refl _, ?_, ?_⟩⟩
    · intro c
      simp only [hlook a]
      cases hc : F64.eq a c with
      | true => rw [hsame c hc]
      | false =>
        rw [hother c hc]
        have := h3 c
        omega
    · simp only [hlook a]
    · simp only [List.take_length, hlook a]
    · intro c hc
      simp only [List.take_length, hlook a]
      simp only [] at hc
      rw [hother c (by rw [F64.eq_comm]; exact hc)]
      have := h3 c
      omega
  · rw [if_neg hgt]
    rw [hlook a] at hgt
    refine ⟨hlook, ?_, ?_⟩
    · intro c
      simp only []
      cases hc : F64.eq a c with
      | true =>
        rw [hsame c hc]
        omega
      | false =>
        rw [hother c hc]
        exact h3 c
    · rcases h4 with h4 | ⟨hmem, h5, k, hk, h6, h7⟩
      · exact Or.inl h4
      · have htake : (p ++ [a]).take k = p.take k := List.take_append_of_le_length hk
        have hne : F64.eq a s.majorityLabel = false := by
          cases hc : F64.eq a s.majorityLabel with
          | false => rfl
          | true =>
            exfalso
            have e1 := hsame _ hc
            have e2 := occ_snoc p a s.majorityLabel
            rw [hc] at e2
            simp only [if_true] at e2
            omega
        refine Or.inr ⟨by simp [hmem], ?_, k, ?_, ?_, ?_⟩
        · simp only []
          rw [hother _ hne]
          exact h5
        · rw [List.length_append]
          omega
        · simp only [htake]
          exact h6
        · intro c hc
          simp only [htake]
          exact h7 c hc

theorem foldl_majorityStep_inv_f64 (rest p : List F64) (s : Majority) (h : MajorityInv p s) :
    MajorityInv (p ++ rest) (rest.foldl majorityStep s) := by
  induction rest generalizing p s with
  | nil => simpa using h
  | cons a rest ih =>
    have := ih (p ++ [a]) (majorityStep s a) (majorityStep_inv_f64 p s a h)
    simpa using this

theorem majorityValue_inv_f64 (y : List F64) :
    MajorityInv y (y.foldl majorityStep ⟨[], 0, zero⟩) := by
  have h0 : MajorityInv [] ⟨[], 0, zero⟩ :=
    ⟨fun c => by simp [lookup, occ], fun c => by simp [occ], Or.inl ⟨rfl, rfl⟩⟩
  simpa using foldl_majorityStep_inv_f64 y [] _ h0

/-- C12, the claim as stated fails on a NaN label: the list `[NaN]` is not empty, yet
`majorityValue` returns `0.0`, the zero value of `majorityLabel`, which does not occur in the
list. A NaN key is never found again in the map, so its count reads `0` and never exceeds
`maxCount`. -/
theorem majorityValue_nan :
    ([F64.nan] : List F64) ≠ [] ∧ majorityValue [F64.nan] = zero ∧
    zero ∉ ([F64.nan] : List F64) := by
  decide!

theorem majorityValue_all_nan (y : List F64) (hall : ∀ a ∈ y, a = F64.nan) :
    majorityValue y = zero := by
  obtain ⟨_, h3, h4⟩ := majorityValue_inv_f64 y
  unfold majorityValue
  generalize y.foldl majorityStep ⟨[], 0, zero⟩ = s at h3 h4
  rcases h4 with h4 | ⟨hmem, h5, k, hk, h6, h7⟩
  · exact h4.2
  · exfalso
    have hz : occ s.majorityLabel y = 0 := by
      unfold occ
      rw [List.countP_eq_zero]
      intro x hx
      rw [hall x hx, F64.eq_nan_left]
      simp
    have e2 := h7 F64.nan (F64.eq_nan_left _)
    omega

/-- C12, amended: `majorityValue` returns the first label to reach the maximum count, NaN
labels not counted. If `y` has a label that is not a NaN, the result `m` occurs in `y`, is
not a NaN, no label has more labels of `y` that are `==` to it than `m` has, and there is a
position `k` of the scan at which the running count of `m` has already reached its total
while the running count of every label not `==` to `m` is still below that total. -/
theorem majorityValue_first_max_float (y : List F64) (hne : ∃ a ∈ y, a ≠ F64.nan) :
    majorityValue y ∈ y ∧ majorityValue y ≠ F64.nan ∧
    (∀ c, occ c y ≤ occ (majorityValue y) y) ∧
    ∃ k, k ≤ y.length ∧ occ (majorityValue y) (y.take k) = occ (majorityValue y) y ∧
      ∀ c, F64.eq c (majorityValue y) = false →
        occ c (y.take k) < occ (majorityValue y) y := by
  obtain ⟨_, h3, h4⟩ := majorityValue_inv_f64 y
  unfold majorityValue
  generalize y.foldl majorityStep ⟨[], 0, zero⟩ = s at h3 h4
  obtain ⟨a, hmem, ha⟩ := hne
  have hpos := occ_pos_of_mem hmem ha
  have hmax := h3 a
  rcases h4 with h4 | ⟨hm, h5, k, hk, h6, h7⟩
  · omega
  · have hp : 0 < occ s.majorityLabel y := by omega
    refine ⟨hm, ne_nan_of_occ_pos hp, ?_, k, hk, by omega, ?_⟩
    · intro c
      have := h3 c
      omega
    · intro c hc
      have := h7 c hc
      omega

/-- Witness of the amended C12 on `[1, 2, 2, 1]`, where both labels occur twice and `2` is the
first to occur twice. -/
theorem majorityValue_first_max_float_witness :
    majorityValue [F64.num 1, F64.num 2, F64.num 2, F64.num 1] = F64.num 2 ∧
    (∃ a ∈ [F64.num 1, F64.num 2, F64.num 2, F64.num 1], a ≠ F64.nan) ∧
    (majorityValue [F64.num 1, F64.num 2, F64.num 2, F64.num 1] ∈
        [F64.num 1, F64.num 2, F64.num 2, F64.num 1] ∧
      majorityValue [F64.num 1, F64.num 2, F64.num 2, F64.num 1] ≠ F64.nan ∧
      (∀ c, occ c [F64.num 1, F64.num 2, F64.num 2, F64.num 1] ≤
        occ (majorityValue [F64.num 1, F64.num 2, F64.num 2, F64.num 1])
          [F64.num 1, F64.num 2, F64.num 2, F64.num 1]) ∧
      ∃ k, k ≤ [F64.num 1, F64.num 2, F64.num 2, F64.num 1].length ∧
        occ (majorityValue [F64.num 1, F64.num 2, F64.num 2, F64.num 1])
            ([F64.num 1, F64.num 2, F64.num 2, F64.num 1].take k) =
          occ (majorityValue [F64.num 1, F64.num 2, F64.num 2, F64.num 1])
            [F64.num 1, F64.num 2, F64.num 2, F64.num 1] ∧
        ∀ c, F64.eq c (majorityValue [F64.num 1, F64.num 2, F64.num 2, F64.num 1]) = false →
          occ c ([F64.num 1, F64.num 2, F64.num 2, F64.num 1].take k) <
            occ (majorityValue [F64.num 1, F64.num 2, F64.num 2, F64.num 1])
              [F64.num 1, F64.num 2, F64.num 2, F64.num 1]) :=
  ⟨by decide!, ⟨F64.num 1, by decide, by decide⟩,
    majorityValue_first_max_float [F64.num 1, F64.num 2, F64.num 2, F64.num 1]
      ⟨F64.num 1, by decide, by decide⟩⟩

/-! ## Search for the best split, over float64 -/

theorem labelLoop_f64 (y : List F64) (f : Int) (v : F64) (X : List (List F64))
    (hidx : ∀ row ∈ X, 0 ≤ f ∧ f < (row.length : Int)) (i : Nat)
    (acc : List F64 × List F64) (hlen : i + X.length ≤ y.length) :
    labelLoop y f v i X acc = Except.ok
      (acc.1 ++ ((X.zip (y.drop i)).filter (goesLeft f v)).map Prod.snd,
       acc.2 ++ ((X.zip (y.drop i)).filter (fun p => !goesLeft f v p)).map Prod.snd) := by
  induction X generalizing i acc with
  | nil => simp [labelLoop]
  | cons x X ih =>
    obtain ⟨leftY, rightY⟩ := acc
    have hx := hidx x (List.mem_cons_self x X)
    have hX : ∀ row ∈ X, 0 ≤ f ∧ f < (row.length : Int) :=
      fun row hrow => hidx row (List.mem_cons_of_mem x hrow)
    simp only [List.length_cons] at hlen
    have hi : i < y.length := by omega
    have hdrop : (x :: X).zip (y.drop i) = (x, y.get ⟨i, hi⟩) :: X.zip (y.drop (i + 1)) := by
      rw [List.drop_eq_getElem_cons hi]
      rfl
    simp only [labelLoop, index_feature_f64 x f hx.1 hx.2, index_nat y i hi]
    cases hlt : F64.lt (feature f x) v with
    | true =>
      rw [if_pos rfl, ih hX (i + 1) _ (by omega), hdrop]
      simp [List.filter_cons, goesLeft, hlt]
    | false =>
      rw [if_neg (by simp), ih hX (i + 1) _ (by omega), hdrop]
      simp [List.filter_cons, goesLeft, hlt]

theorem candidateImpurity_f64 (ordL ordR : RangeOrd (F64 × F64)) (X : List (List F64))
    (y : List F64) (f : Int) (v : F64) (hidx : ∀ row ∈ X, 0 ≤ f ∧ f < (row.length : Int))
    (hlen : X.length ≤ y.length) :
    candidateImpurity ordL ordR X y f v = Except.ok (splitImpurity ordL ordR X y f v) := by
  unfold candidateImpurity
  rw [labelLoop_f64 y f v X hidx 0 ([], []) (by omega)]
  simp only [List.drop_zero, List.nil_append]
  rfl

theorem featureValues_f64 (f : Int) (X : List (List F64))
    (hidx : ∀ row ∈ X, 0 ≤ f ∧ f < (row.length : Int)) (keys : List F64) :
    featureValues f X keys = Except.ok ((X.map (feature f)).foldl insertKey keys) := by
  induction X generalizing keys with
  | nil => simp [featureValues]
  | cons x X ih =>
    have hx := hidx x (List.mem_cons_self x X)
    simp only [featureValues, index_feature_f64 x f hx.1 hx.2, List.map_cons, List.foldl_cons]
    exact ih (fun row hrow => hidx row (List.mem_cons_of_mem x hrow)) _

theorem mem_insertKey {keys : List F64} {a v : F64} (h : v ∈ insertKey keys a) :
    v ∈ keys ∨ v = a := by
  induction keys with
  | nil =>
    simp only [insertKey, List.mem_singleton] at h
    exact Or.inr h
  | cons k keys ih =>
    unfold insertKey at h
    split at h
    · rcases List.mem_cons.mp h with h | h
      · exact Or.inr h
      · exact Or.inl (List.mem_cons_of_mem _ h)
    · rcases List.mem_cons.mp h with h | h
      · exact Or.inl (h ▸ List.mem_cons_self _ _)
      · rcases ih h with h1 | h1
        · exact Or.inl (List.mem_cons_of_mem _ h1)
        · exact Or.inr h1

theorem mem_foldl_insertKey_f64 (l keys : List F64) (v : F64)
    (h : v ∈ l.foldl insertKey keys) : v ∈ keys ∨ v ∈ l := by
  induction l generalizing keys with
  | nil => exact Or.inl h
  | cons a l ih =>
    rw [List.foldl_cons] at h
    rcases ih _ h with h1 | h1
    · rcases mem_insertKey h1 with h2 | h2
      · exact Or.inl h2
      · exact Or.inr (h2 ▸ List.mem_cons_self a l)
    · exact Or.inr (List.mem_cons_of_mem a h1)

theorem mem_columnKeys {f : Int} {X : List (List F64)} {v : F64} (h : v ∈ columnKeys f X) :
    v ∈ X.map (feature f) := by
  rcases mem_foldl_insertKey_f64 _ _ _ h with h1 | h1
  · cases h1
  · exact h1

theorem valueLoop_scan (counts : Nat → Bool → RangeOrd (F64 × F64)) (X : List (List F64))
    (y : List F64) (f : Nat) (hidx : ∀ row ∈ X, f < row.length) (hlen : X.length ≤ y.length)
    (k : Nat) (vs : List F64) (best : Best) :
    valueLoop counts X y f k vs best =
      Except.ok (scan (candidatesFrom counts X y f k vs) best) := by
  have hidx1 : ∀ row ∈ X, 0 ≤ (f : Int) ∧ (f : Int) < (row.length : Int) := by
    intro row hrow
    have := hidx row hrow
    omega
  induction vs generalizing k best with
  | nil => rfl
  | cons v vs ih =>
    simp only [valueLoop, candidateImpurity_f64 _ _ X y f v hidx1 hlen, candidatesFrom, scan,
      List.foldl_cons]
    unfold scanStep
    simp only []
    split
    · rw [ih]
      rfl
    · rw [ih]
      rfl

theorem featureLoop_scan (ords : SplitOrders) (X : List (List F64)) (y : List F64) (w : Nat)
    (hw : ∀ row ∈ X, row.length = w) (hlen : X.length ≤ y.length) (fs : List Nat)
    (hfs : ∀ f ∈ fs, f < w) (best : Best) :
    featureLoop ords X y fs best =
      Except.ok (scan (fs.flatMap (candidatesOf ords X y)) best) := by
  induction fs generalizing best with
  | nil => rfl
  | cons f fs ih =>
    have hf := hfs f (List.mem_cons_self f fs)
    have hidx : ∀ row ∈ X, f < row.length := by
      intro row hrow
      rw [hw row hrow]
      exact hf
    have hidx1 : ∀ row ∈ X, 0 ≤ (f : Int) ∧ (f : Int) < (row.length : Int) := by
      intro row hrow
      have := hidx row hrow
      omega
    simp only [featureLoop, featureValues_f64 f X hidx1,
      valueLoop_scan (ords.counts f) X y f hidx hlen]
    rw [ih (fun g hg => hfs g (List.mem_cons_of_mem f hg))]
    simp only [List.flatMap_cons, scan, List.foldl_append]
    rfl

theorem findBestSplit_scan (ords : SplitOrders) (X : List (List F64)) (y : List F64) (w : Nat)
    (hne : X ≠ []) (hw : ∀ row ∈ X, row.length = w) (hlen : X.length ≤ y.length) :
    findBestSplit ords X y = Except.ok
      ((scan (candidates ords X y w) ⟨one, -1, zero⟩).bestFeatureIndex,
        (scan (candidates ords X y w) ⟨one, -1, zero⟩).bestThreshold) := by
  cases X with
  | nil => exact absurd rfl hne
  | cons x0 X0 =>
    have hx0 : x0.length = w := hw x0 (List.mem_cons_self x0 X0)
    unfold findBestSplit
    simp only [hx0]
    rw [featureLoop_scan ords (x0 :: X0) y w hw hlen (List.range w)
      (fun f hf => List.mem_range.mp hf)]
    rfl

/-- The strict-less scan from `best`: either nothing is below the starting impurity and the
variables are unchanged, or they hold a visited candidate that was below the starting
impurity, that no earlier candidate equals or undercuts, and that no candidate undercuts. -/
theorem scan_spec (cs : List Candidate) (best : Best) :
    (scan cs best = best ∧ ∀ c ∈ cs, F64.lt c.impurity best.bestImpurity = false) ∨
    ∃ pre c post, cs = pre ++ c :: post ∧
      scan cs best = ⟨c.impurity, c.featureIndex, c.threshold⟩ ∧
      F64.lt c.impurity best.bestImpurity = true ∧
      (∀ d ∈ pre, F64.lt d.impurity c.impurity = false ∧
        F64.eq d.impurity c.impurity = false) ∧
      ∀ d ∈ post, F64.lt d.impurity c.impurity = false := by
  induction cs generalizing best with
  | nil => exact Or.inl ⟨rfl, by simp⟩
  | cons d cs ih =>
    have hstep : scan (d :: cs) best = scan cs (scanStep best d) := rfl
    rw [hstep]
    cases hlt : F64.lt d.impurity best.bestImpurity with
    | true =>
      have hs : scanStep best d = ⟨d.impurity, d.featureIndex, d.threshold⟩ := by
        unfold scanStep
        rw [if_pos hlt]
      rw [hs]
      rcases ih ⟨d.impurity, d.featureIndex, d.threshold⟩ with
        ⟨h1, h2⟩ | ⟨pre, c, post, h1, h2, h3, h4, h5⟩
      · exact Or.inr ⟨[], d, cs, rfl, h1, hlt, by simp, h2⟩
      · refine Or.inr ⟨d :: pre, c, post, by rw [h1]; rfl, h2, F64.lt_trans h3 hlt, ?_, h5⟩
        intro e he
        rcases List.mem_cons.mp he with he | he
        · subst he
          exact ⟨F64.lt_asymm h3, F64.not_eq_of_lt h3⟩
        · exact h4 e he
    | false =>
      have hs : scanStep best d = best := by
        unfold scanStep
        rw [if_neg (by simp [hlt])]
      rw [hs]
      rcases ih best with ⟨h1, h2⟩ | ⟨pre, c, post, h1, h2, h3, h4, h5⟩
      · refine Or.inl ⟨h1, ?_⟩
        intro e he
        rcases List.mem_cons.mp he with he | he
        · subst he
          exact hlt
        · exact h2 e he
      · refine Or.inr ⟨d :: pre, c, post, by rw [h1]; rfl, h2, h3, ?_, h5⟩
        intro e he
        rcases List.mem_cons.mp he with he | he
        · subst he
          constructor
          · cases h : F64.lt e.impurity c.impurity with
            | false => rfl
            | true => rw [F64.lt_trans h h3] at hlt; cases hlt
          · cases h : F64.eq e.impurity c.impurity with
            | false => rfl
            | true => rw [F64.lt_of_eq_of_lt h h3] at hlt; cases hlt
        · exact h4 e he

theorem mem_candidatesFrom {counts : Nat → Bool → RangeOrd (F64 × F64)} {X : List (List F64)}
    {y : List F64} {f k : Nat} {vs : List F64} {c : Candidate}
    (h : c ∈ candidatesFrom counts X y f k vs) :
    c.featureIndex = f ∧ c.threshold ∈ vs ∧
      ∃ j, c.impurity = splitImpurity (counts j false) (counts j true) X y f c.threshold := by
  induction vs generalizing k with
  | nil => cases h
  | cons v vs ih =>
    rcases List.mem_cons.mp h with h | h
    · subst h
      exact ⟨rfl, List.mem_cons_self _ _, k, rfl⟩
    · obtain ⟨h1, h2, h3⟩ := ih h
      exact ⟨h1, List.mem_cons_of_mem _ h2, h3⟩

/-- What a visited candidate is: a feature index below the width, a threshold that is an
entry of that column, and the weighted impurity computed for them under some orders of the
two maps of `Gini`. -/
theorem mem_candidates {ords : SplitOrders} {X : List (List F64)} {y : List F64} {w : Nat}
    {c : Candidate} (h : c ∈ candidates ords X y w) :
    c.featureIndex < w ∧ c.threshold ∈ X.map (feature c.featureIndex) ∧
      ∃ j, c.impurity = splitImpurity (ords.counts c.featureIndex j false)
        (ords.counts c.featureIndex j true) X y c.featureIndex c.threshold := by
  unfold candidates at h
  obtain ⟨f, hf, hc⟩ := List.mem_flatMap.mp h
  obtain ⟨h1, h2, h3⟩ := mem_candidatesFrom hc
  subst h1
  refine ⟨List.mem_range.mp hf, ?_, h3⟩
  exact mem_columnKeys (((ords.values c.featureIndex).visit_perm _).mem_iff.mp h2)

theorem self_mem_insertKey (K : List F64) (a : F64) : a ∈ insertKey K a := by
  induction K with
  | nil => simp [insertKey]
  | cons k K ih =>
    unfold insertKey
    split
    · exact List.mem_cons_self _ _
    · exact List.mem_cons_of_mem _ ih

theorem insertKey_cover (K : List F64) (a k : F64) (hk : k ∈ K) (hkn : k ≠ F64.nan) :
    ∃ k1 ∈ insertKey K a, F64.eq k1 k = true := by
  induction K with
  | nil => cases hk
  | cons k0 K ih =>
    unfold insertKey
    cases h0 : F64.eq k0 a with
    | true =>
      simp only [if_true]
      rcases List.mem_cons.mp hk with hk1 | hk1
      · rw [hk1]
        exact ⟨a, List.mem_cons_self _ _, F64.eq_symm h0⟩
      · exact ⟨k, List.mem_cons_of_mem _ hk1, F64.eq_self hkn⟩
    | false =>
      simp only [Bool.false_eq_true, if_false]
      rcases List.mem_cons.mp hk with hk1 | hk1
      · rw [hk1]
        exact ⟨k0, List.mem_cons_self _ _, F64.eq_self (hk1 ▸ hkn)⟩
      · obtain ⟨k1, hk1m, hk1e⟩ := ih hk1
        exact ⟨k1, List.mem_cons_of_mem _ hk1m, hk1e⟩

theorem insertKey_pairwise (K : List F64) (a : F64)
    (hK : K.Pairwise (fun k1 k2 => F64.eq k1 k2 = false)) :
    (insertKey K a).Pairwise (fun k1 k2 => F64.eq k1 k2 = false) := by
  induction K with
  | nil => exact List.pairwise_singleton _ _
  | cons k K ih =>
    obtain ⟨hk1, hk2⟩ := List.pairwise_cons.mp hK
    unfold insertKey
    cases hka : F64.eq k a with
    | true =>
      simp only [if_true]
      refine List.Pairwise.cons ?_ hk2
      intro c hc
      cases h : F64.eq a c with
      | false => rfl
      | true =>
        have := F64.eq_trans hka h
        rw [hk1 c hc] at this
        cases this
    | false =>
      simp only [Bool.false_eq_true, if_false]
      refine List.Pairwise.cons ?_ (ih hk2)
      intro c hc
      rcases mem_insertKey hc with hc1 | hc1
      · exact hk1 c hc1
      · rw [hc1]
        exact hka

theorem insertKey_keep (K : List F64) (a k0 : F64) (hk : k0 ∈ K) :
    ∃ k1 ∈ insertKey K a, k1 = k0 ∨ F64.eq k1 k0 = true := by
  induction K with
  | nil => cases hk
  | cons k K ih =>
    unfold insertKey
    cases hka : F64.eq k a with
    | true =>
      simp only [if_true]
      rcases List.mem_cons.mp hk with h | h
      · rw [h]
        exact ⟨a, List.mem_cons_self _ _, Or.inr (F64.eq_symm hka)⟩
      · exact ⟨k0, List.mem_cons_of_mem _ h, Or.inl rfl⟩
    | false =>
      simp only [Bool.false_eq_true, if_false]
      rcases List.mem_cons.mp hk with h | h
      · rw [h]
        exact ⟨k, List.mem_cons_self _ _, Or.inl rfl⟩
      · obtain ⟨k1, hk1, hk1e⟩ := ih h
        exact ⟨k1, List.mem_cons_of_mem _ hk1, hk1e⟩

/-- Every value put into a key set, and every key it held before, is represented in it
afterwards by a key that is the value itself or `==` to it. -/
theorem foldl_insertKey_cover (l K : List F64) :
    (∀ x ∈ l, ∃ k ∈ l.foldl insertKey K, k = x ∨ F64.eq k x = true) ∧
    ∀ k0 ∈ K, ∃ k ∈ l.foldl insertKey K, k = k0 ∨ F64.eq k k0 = true := by
  induction l generalizing K with
  | nil => exact ⟨by simp, fun k0 hk0 => ⟨k0, hk0, Or.inl rfl⟩⟩
  | cons a l ih =>
    obtain ⟨h1, h2⟩ := ih (insertKey K a)
    rw [List.foldl_cons]
    constructor
    · intro x hx
      rcases List.mem_cons.mp hx with hx | hx
      · rw [hx]
        exact h2 a (self_mem_insertKey K a)
      · exact h1 x hx
    · intro k0 hk0
      obtain ⟨k1, hk1, hk1e⟩ := insertKey_keep K a k0 hk0
      obtain ⟨k, hk, hke⟩ := h2 k1 hk1
      refine ⟨k, hk, ?_⟩
      rcases hk1e with rfl | hk1e
      · exact hke
      · rcases hke with rfl | hke
        · exact Or.inr hk1e
        · exact Or.inr (F64.eq_trans hke hk1e)

theorem mem_candidatesFrom_of_mem (counts : Nat → Bool → RangeOrd (F64 × F64))
    (X : List (List F64)) (y : List F64) (f k : Nat) (vs : List F64) (v : F64) (hv : v ∈ vs) :
    ∃ c ∈ candidatesFrom counts X y f k vs, c.featureIndex = f ∧ c.threshold = v := by
  induction vs generalizing k with
  | nil => cases hv
  | cons v0 vs ih =>
    rcases List.mem_cons.mp hv with h | h
    · rw [h]
      exact ⟨_, List.mem_cons_self _ _, rfl, rfl⟩
    · obtain ⟨c, hc, h1, h2⟩ := ih (k + 1) h
      exact ⟨c, List.mem_cons_of_mem _ hc, h1, h2⟩

/-- Every entry of every column is the threshold of a visited candidate, itself or through a
key that is `==` to it. -/
theorem candidates_cover (ords : SplitOrders) (X : List (List F64)) (y : List F64) (w : Nat)
    (g : Nat) (hg : g < w) (row : List F64) (hrow : row ∈ X) :
    ∃ c ∈ candidates ords X y w, c.featureIndex = g ∧
      (c.threshold = feature g row ∨ F64.eq c.threshold (feature g row) = true) := by
  obtain ⟨k, hk, hke⟩ := (foldl_insertKey_cover (X.map (feature g)) []).1 (feature g row)
    (List.mem_map_of_mem _ hrow)
  have hv : k ∈ (ords.values g).visit (columnKeys g X) :=
    ((ords.values g).visit_perm _).mem_iff.mpr hk
  obtain ⟨c, hc, h1, h2⟩ := mem_candidatesFrom_of_mem (ords.counts g) X y g 0 _ k hv
  refine ⟨c, ?_, h1, by rw [h2]; exact hke⟩
  unfold candidates
  exact List.mem_flatMap.mpr ⟨g, List.mem_range.mpr hg, hc⟩

theorem candidates_sorted (ords : SplitOrders) (X : List (List F64)) (y : List F64) (w : Nat) :
    (candidates ords X y w).Pairwise (fun a b => a.featureIndex ≤ b.featureIndex) := by
  unfold candidates
  rw [List.pairwise_flatMap]
  constructor
  · intro f _
    have hall : ∀ (k : Nat) (vs : List F64),
        (candidatesFrom (ords.counts f) X y f k vs).Pairwise
          (fun a b => a.featureIndex ≤ b.featureIndex) := by
      intro k vs
      induction vs generalizing k with
      | nil => exact List.Pairwise.nil
      | cons v vs ih =>
        refine List.Pairwise.cons ?_ (ih (k + 1))
        intro b hb
        rw [(mem_candidatesFrom hb).1]
    exact hall 0 _
  · refine (List.pairwise_lt_range w).imp ?_
    intro f g hfg a ha b hb
    rw [(mem_candidatesFrom ha).1, (mem_candidatesFrom hb).1]
    exact le_of_lt hfg

/-- The impurity held by a visited candidate is the value that `candidateImpurity` returns
for it under the orders of its two calls of `Gini`. -/
theorem candidates_computed (ords : SplitOrders) (X : List (List F64)) (y : List F64) (w : Nat)
    (hw : ∀ row ∈ X, row.length = w) (hlen : X.length ≤ y.length) (c : Candidate)
    (hc : c ∈ candidates ords X y w) :
    ∃ j, candidateImpurity (ords.counts c.featureIndex j false)
      (ords.counts c.featureIndex j true) X y c.featureIndex c.threshold =
        Except.ok c.impurity := by
  obtain ⟨h1, _, j, h3⟩ := mem_candidates hc
  refine ⟨j, ?_⟩
  rw [h3]
  refine candidateImpurity_f64 _ _ X y _ _ ?_ hlen
  intro row hrow
  have := hw row hrow
  omega

/-- The result of `findBestSplit` on a dataset of one width: the sentinel with no candidate
below `1.0`, or a visited candidate below `1.0` that no earlier candidate equals or
undercuts and that no candidate undercuts. -/
theorem findBestSplit_cases (ords : SplitOrders) (X : List (List F64)) (y : List F64) (w : Nat)
    (hne : X ≠ []) (hw : ∀ row ∈ X, row.length = w) (hlen : X.length ≤ y.length) :
    (findBestSplit ords X y = Except.ok (-1, zero) ∧
      ∀ c ∈ candidates ords X y w, F64.lt c.impurity one = false) ∨
    ∃ pre c post, candidates ords X y w = pre ++ c :: post ∧
      findBestSplit ords X y = Except.ok ((c.featureIndex : Int), c.threshold) ∧
      F64.lt c.impurity one = true ∧
      (∀ d ∈ pre, F64.lt d.impurity c.impurity = false ∧
        F64.eq d.impurity c.impurity = false) ∧
      ∀ d ∈ post, F64.lt d.impurity c.impurity = false := by
  rw [findBestSplit_scan ords X y w hne hw hlen]
  rcases scan_spec (candidates ords X y w) ⟨one, -1, zero⟩ with
    ⟨h1, h2⟩ | ⟨pre, c, post, h1, h2, h3, h4, h5⟩
  · rw [h1]
    exact Or.inl ⟨rfl, h2⟩
  · rw [h2]
    exact Or.inr ⟨pre, c, post, h1, rfl, h3, h4, h5⟩

/-- C7, amended: `findBestSplit` returns the sentinel or a candidate that none undercuts. For
every non-empty `X` with rows of one width `w` and as many labels, and every order of the map
walks, `findBestSplit` returns a pair `(f, t)`. Every entry of every column is the threshold
of a visited candidate (itself or a value `==` to it), and the impurity of a candidate is the
`float64` that `candidateImpurity` computes for it in this run. Either `f = -1` and no
candidate has a computed impurity strictly below `1.0`; or `0 <= f < w`, `t` is an entry of
column `f` of `X`, the weighted impurity computed for `(f, t)` is strictly below `1.0`, and
no visited candidate has a computed weighted impurity strictly below it. -/
theorem findBestSplit_minimal_float (ords : SplitOrders) (X : List (List F64)) (y : List F64)
    (w : Nat) (hne : X ≠ []) (hw : ∀ row ∈ X, row.length = w) (hlen : y.length = X.length) :
    ∃ f t, findBestSplit ords X y = Except.ok (f, t) ∧
      (∀ g < w, ∀ row ∈ X, ∃ c ∈ candidates ords X y w, c.featureIndex = g ∧
        (c.threshold = feature g row ∨ F64.eq c.threshold (feature g row) = true)) ∧
      (∀ c ∈ candidates ords X y w, ∃ j,
        candidateImpurity (ords.counts c.featureIndex j false)
          (ords.counts c.featureIndex j true) X y c.featureIndex c.threshold =
            Except.ok c.impurity) ∧
      ((f = -1 ∧ ∀ c ∈ candidates ords X y w, F64.lt c.impurity one = false) ∨
        (0 ≤ f ∧ f < (w : Int) ∧ t ∈ X.map (feature f) ∧
          ∃ c ∈ candidates ords X y w, (c.featureIndex : Int) = f ∧ c.threshold = t ∧
            F64.lt c.impurity one = true ∧
            ∀ d ∈ candidates ords X y w, F64.lt d.impurity c.impurity = false)) := by
  have hcomp := candidates_computed ords X y w hw (le_of_eq hlen.symm)
  have hcover := fun g hg row hrow => candidates_cover ords X y w g hg row hrow
  rcases findBestSplit_cases ords X y w hne hw (le_of_eq hlen.symm) with
    ⟨h1, h2⟩ | ⟨pre, c, post, h1, h2, h3, h4, h5⟩
  · exact ⟨-1, zero, h1, hcover, hcomp, Or.inl ⟨rfl, h2⟩⟩
  · have hc : c ∈ candidates ords X y w := by
      rw [h1]
      simp
    obtain ⟨m1, m2, _⟩ := mem_candidates hc
    refine ⟨c.featureIndex, c.threshold, h2, hcover, hcomp, Or.inr ⟨by omega, by omega, ?_, c,
      hc, rfl, rfl, h3, ?_⟩⟩
    · simpa using m2
    · intro d hd
      rw [h1] at hd
      rcases List.mem_append.mp hd with hd | hd
      · exact (h4 d hd).1
      · rcases List.mem_cons.mp hd with hd | hd
        · rw [hd]
          exact F64.lt_irrefl _
        · exact h5 d hd

/-- C20, amended: ties between computed impurities go to the lowest feature index. For every
non-empty `X` with rows of one width `w` and as many labels, and every order of the map
walks, if `findBestSplit` returns `(f, t)` with `f` not the sentinel, then no visited
candidate `(f', v)` with `f' < f` has a computed weighted impurity that is less than or equal
to the one computed for `(f, t)`. The impurities compared are the `float64` values computed in
this run, which depend on the order of the walks inside `Gini`. -/
theorem findBestSplit_lowest_feature_float (ords : SplitOrders) (X : List (List F64))
    (y : List F64) (w : Nat) (hne : X ≠ []) (hw : ∀ row ∈ X, row.length = w)
    (hlen : y.length = X.length) :
    ∃ f t, findBestSplit ords X y = Except.ok (f, t) ∧
      (∀ c ∈ candidates ords X y w, ∃ j,
        candidateImpurity (ords.counts c.featureIndex j false)
          (ords.counts c.featureIndex j true) X y c.featureIndex c.threshold =
            Except.ok c.impurity) ∧
      (f = -1 ∨
        ∃ c ∈ candidates ords X y w, (c.featureIndex : Int) = f ∧ c.threshold = t ∧
          ∀ d ∈ candidates ords X y w, (d.featureIndex : Int) < f →
            F64.lt d.impurity c.impurity = false ∧
            F64.eq d.impurity c.impurity = false) := by
  have hcomp := candidates_computed ords X y w hw (le_of_eq hlen.symm)
  rcases findBestSplit_cases ords X y w hne hw (le_of_eq hlen.symm) with
    ⟨h1, _⟩ | ⟨pre, c, post, h1, h2, h3, h4, h5⟩
  · exact ⟨-1, zero, h1, hcomp, Or.inl rfl⟩
  · have hc : c ∈ candidates ords X y w := by
      rw [h1]
      simp
    refine ⟨c.featureIndex, c.threshold, h2, hcomp, Or.inr ⟨c, hc, rfl, rfl, ?_⟩⟩
    intro d hd hlt
    have hsorted := candidates_sorted ords X y w
    rw [h1, List.pairwise_append] at hsorted
    obtain ⟨_, hcp, _⟩ := hsorted
    have hpost := (List.pairwise_cons.mp hcp).1
    rw [h1] at hd
    rcases List.mem_append.mp hd with hd | hd
    · exact h4 d hd
    · rcases List.mem_cons.mp hd with hd | hd
      · rw [hd] at hlt
        omega
      · have := hpost d hd
        omega

/-- C15, amended: the split that `findBestSplit` returns leaves the right side non-empty. For
every non-empty `X` with rows of one width `w` and as many labels, and every order of the map
walks, `findBestSplit` returns a pair `(f, t)`, and if `f` is not the sentinel then
`splitDataset` with `(f, t)` returns slices with a non-empty `rightX` (the row that holds the
threshold is not below it); the sides have as many labels as rows and together all the rows.
Nothing is said of `leftX`. -/
theorem split_right_nonempty (ords : SplitOrders) (X : List (List F64)) (y : List F64)
    (w : Nat) (hne : X ≠ []) (hw : ∀ row ∈ X, row.length = w) (hlen : y.length = X.length) :
    ∃ f t, findBestSplit ords X y = Except.ok (f, t) ∧
      (f = -1 ∨
        ∃ s, splitDataset X y f t = Except.ok s ∧ s.rightX ≠ [] ∧
          s.leftX.length = s.leftY.length ∧ s.rightX.length = s.rightY.length ∧
          s.leftX.length + s.rightX.length = X.length) := by
  rcases findBestSplit_cases ords X y w hne hw (le_of_eq hlen.symm) with
    ⟨h1, _⟩ | ⟨pre, c, post, h1, h2, h3, h4, h5⟩
  · exact ⟨-1, zero, h1, Or.inl rfl⟩
  · have hc : c ∈ candidates ords X y w := by
      rw [h1]
      simp
    obtain ⟨m1, m2, _⟩ := mem_candidates hc
    have hidx : ∀ row ∈ X, 0 ≤ (c.featureIndex : Int) ∧
        (c.featureIndex : Int) < (row.length : Int) := by
      intro row hrow
      have := hw row hrow
      omega
    refine ⟨c.featureIndex, c.threshold, h2, Or.inr ⟨_,
      splitDataset_f64 X y c.featureIndex c.threshold hidx (le_of_eq hlen.symm), ?_, by simp,
      by simp, ?_⟩⟩
    · obtain ⟨row, hrow, hrt⟩ := List.mem_map.mp m2
      obtain ⟨i, hi, hget⟩ := List.getElem_of_mem hrow
      have hiy : i < y.length := by omega
      have hp : (row, y[i]) ∈ X.zip y := by
        have : (X.zip y)[i]? = some (row, y[i]) := by
          rw [List.getElem?_zip_eq_some]
          exact ⟨by rw [List.getElem?_eq_getElem hi, hget], List.getElem?_eq_getElem hiy⟩
        exact List.getElem?_mem this
      have hf : (row, y[i]) ∈ (X.zip y).filter (fun p => !goesLeft c.featureIndex c.threshold p) := by
        rw [List.mem_filter]
        refine ⟨hp, ?_⟩
        simp only [goesLeft, hrt, F64.lt_irrefl]
        rfl
      intro hnil
      simp only [List.map_eq_nil_iff] at hnil
      rw [hnil] at hf
      cases hf
    · have hp := (List.filter_append_perm (goesLeft c.featureIndex c.threshold)
        (X.zip y)).length_eq
      simp only [List.length_append, List.length_zip, hlen, Nat.min_self] at hp
      simpa using hp

/-! ## Prediction, over float64 -/

theorem eq_num_of_ne {a b : ℚ} (h : a ≠ b) : F64.eq (F64.num a) (F64.num b) = false := by
  unfold F64.eq
  simp [F64.rank, h]

theorem increment_fresh {β : Type} (bump : β → β) (init : β) (m : List (F64 × β)) (key : F64)
    (h : ∀ e ∈ m, F64.eq e.1 key = false) :
    increment bump init m key = m ++ [(key, bump init)] := by
  induction m with
  | nil => rfl
  | cons e m ih =>
    obtain ⟨k, c⟩ := e
    have hk : F64.eq k key = false := h (k, c) (List.mem_cons_self _ _)
    simp only [increment, hk, Bool.false_eq_true, if_false, List.cons_append]
    rw [ih (fun e he => h e (List.mem_cons_of_mem _ he))]

theorem bumpFloat_zero : bumpFloat zero = one := by decide!

theorem foldl_increment_distinct (n i : Nat) (acc : List (F64 × F64))
    (hacc : ∀ e ∈ acc, ∃ j : Nat, j < i ∧ e.1 = F64.num j) :
    (distinctLabels n i).foldl (increment bumpFloat zero) acc =
      acc ++ (distinctLabels n i).map (fun c => (c, one)) := by
  induction n generalizing i acc with
  | zero => simp [distinctLabels]
  | succ n ih =>
    have hfresh : ∀ e ∈ acc, F64.eq e.1 (F64.num i) = false := by
      intro e he
      obtain ⟨j, hj, hej⟩ := hacc e he
      rw [hej]
      refine eq_num_of_ne ?_
      intro h
      have : j = i := by exact_mod_cast h
      omega
    simp only [distinctLabels, List.foldl_cons, List.map_cons]
    rw [increment_fresh bumpFloat zero acc _ hfresh, bumpFloat_zero, ih (i + 1)]
    · simp
    · intro e he
      rcases List.mem_append.mp he with he | he
      · obtain ⟨j, hj, hej⟩ := hacc e he
        exact ⟨j, by omega, hej⟩
      · rw [List.mem_singleton] at he
        exact ⟨i, by omega, by rw [he]⟩

theorem labelCounts_distinct (n i : Nat) :
    labelCounts (distinctLabels n i) = (distinctLabels n i).map (fun c => (c, one)) := by
  have h := foldl_increment_distinct n i [] (by simp)
  simpa [labelCounts] using h

theorem length_distinctLabels (n i : Nat) : (distinctLabels n i).length = n := by
  induction n generalizing i with
  | zero => rfl
  | succ n ih => simp [distinctLabels, ih]

theorem giniLoop_ones (total : F64)
    (hstep : F64.sub one (F64.mul (F64.div one total) (F64.div one total)) = one)
    (entries : List (F64 × F64)) (h : ∀ e ∈ entries, e.2 = one) :
    giniLoop total entries one = one := by
  induction entries with
  | nil => rfl
  | cons e entries ih =>
    obtain ⟨k, c⟩ := e
    have hc : c = one := h (k, c) (List.mem_cons_self _ _)
    subst hc
    simp only [giniLoop]
    rw [hstep]
    exact ih (fun e he => h e (List.mem_cons_of_mem _ he))

/-- With `n` pairwise distinct labels, every class has probability `1/n`; once its square is
lost in the rounding of `1.0 - p*p`, the computed impurity is exactly `1.0`. -/
theorem Gini_distinct (ord : RangeOrd (F64 × F64)) (n i : Nat)
    (hn : F64.eq (F64.ofNat n) zero = false)
    (hstep : F64.sub one (F64.mul (F64.div one (F64.ofNat n)) (F64.div one (F64.ofNat n))) =
      one) :
    Gini ord (distinctLabels n i) = one := by
  unfold Gini
  simp only [length_distinctLabels, hn, Bool.false_eq_true, if_false]
  refine giniLoop_ones _ hstep _ ?_
  intro e he
  have he1 := (ord.visit_perm _).mem_iff.mp he
  rw [labelCounts_distinct] at he1
  obtain ⟨c, _, hc⟩ := List.mem_map.mp he1
  rw [← hc]

theorem Gini_nil_f64 (ord : RangeOrd (F64 × F64)) : Gini ord [] = zero := by
  unfold Gini
  rfl

theorem columnKeys_replicate (f : Int) (row : List F64) (n : Nat)
    (hrow : F64.eq (feature f row) (feature f row) = true) :
    columnKeys f (List.replicate (n + 1) row) = [feature f row] := by
  unfold columnKeys
  have h : ∀ m : Nat, (List.replicate m (feature f row)).foldl insertKey [feature f row] =
      [feature f row] := by
    intro m
    induction m with
    | zero => rfl
    | succ m ih =>
      rw [List.replicate_succ, List.foldl_cons]
      have : insertKey [feature f row] (feature f row) = [feature f row] := by
        simp [insertKey, hrow]
      rw [this, ih]
  rw [List.map_replicate, List.replicate_succ, List.foldl_cons]
  exact h n

theorem map_snd_zip_f64 {α β : Type} (X : List α) (y : List β) (h : y.length ≤ X.length) :
    (X.zip y).map Prod.snd = y := by
  induction X generalizing y with
  | nil =>
    cases y with
    | nil => rfl
    | cons b y => simp at h
  | cons a X ih =>
    cases y with
    | nil => rfl
    | cons b y =>
      simp only [List.zip_cons_cons, List.map_cons]
      rw [ih y (by simpa using h)]

/-- On rows that are all equal, a candidate taken from the column sends every sample right. -/
theorem filter_goesLeft_replicate (f : Int) (row : List F64) (n : Nat) (y : List F64) :
    ((List.replicate n row).zip y).filter (goesLeft f (feature f row)) = [] ∧
    ((List.replicate n row).zip y).filter (fun p => !goesLeft f (feature f row) p) =
      (List.replicate n row).zip y := by
  have hall : ∀ p ∈ (List.replicate n row).zip y, goesLeft f (feature f row) p = false := by
    intro p hp
    have h1 := (List.of_mem_zip hp).1
    rw [List.mem_replicate] at h1
    unfold goesLeft
    rw [h1.2, F64.lt_irrefl]
  constructor
  · rw [List.filter_eq_nil_iff]
    intro p hp
    rw [hall p hp]
    simp
  · rw [List.filter_eq_self]
    intro p hp
    rw [hall p hp]
    rfl

theorem labels_replicate (f : Int) (row : List F64) (n : Nat) (y : List F64)
    (hlen : y.length = n) :
    leftLabels (List.replicate n row) y f (feature f row) = [] ∧
    rightLabels (List.replicate n row) y f (feature f row) = y := by
  obtain ⟨h1, h2⟩ := filter_goesLeft_replicate f row n y
  unfold leftLabels rightLabels
  rw [h1, h2]
  exact ⟨rfl, map_snd_zip_f64 _ _ (by simp [hlen])⟩

theorem candidates_replicate (ords : SplitOrders) (x : F64) (n : Nat) (y : List F64)
    (hx : F64.eq x x = true) :
    candidates ords (List.replicate (n + 1) [x]) y 1 =
      [⟨0, x, splitImpurity (ords.counts 0 0 false) (ords.counts 0 0 true)
        (List.replicate (n + 1) [x]) y 0 x⟩] := by
  have hkeys : columnKeys ((0 : Nat) : Int) (List.replicate (n + 1) [x]) = [x] :=
    columnKeys_replicate 0 [x] n hx
  have hvisit : (ords.values 0).visit [x] = [x] :=
    List.perm_singleton.mp ((ords.values 0).visit_perm [x])
  have hr : List.range 1 = [0] := rfl
  simp only [candidates, hr, List.flatMap_cons, List.flatMap_nil, List.append_nil,
    candidatesOf, hkeys, hvisit, candidatesFrom]
  rfl

/-- The search on `n` equal one-entry rows under pairwise distinct labels, given the three
facts of `float64` arithmetic that make the only candidate's impurity exactly `1.0`. -/
theorem findBestSplit_distinct (ords : SplitOrders) (n i : Nat) (hpos : 1 ≤ n)
    (hn : F64.eq (F64.ofNat n) zero = false)
    (hstep : F64.sub one (F64.mul (F64.div one (F64.ofNat n)) (F64.div one (F64.ofNat n))) =
      one)
    (hdiv : F64.div (F64.add (F64.mul zero (F64.ofNat 0)) (F64.mul one (F64.ofNat n)))
      (F64.ofNat n) = one) :
    findBestSplit ords (List.replicate n [one]) (distinctLabels n i) =
      Except.ok (-1, zero) := by
  obtain ⟨m, rfl⟩ : ∃ m, n = m + 1 := ⟨n - 1, by omega⟩
  have hone : F64.eq one one = true := by decide!
  rw [findBestSplit_scan ords _ _ 1 (by simp) (by
    intro row hrow
    rw [(List.mem_replicate.mp hrow).2]
    rfl) (by simp [length_distinctLabels])]
  rw [candidates_replicate ords one m _ hone]
  have himp : splitImpurity (ords.counts 0 0 false) (ords.counts 0 0 true)
      (List.replicate (m + 1) [one]) (distinctLabels (m + 1) i) 0 one = one := by
    obtain ⟨h1, h2⟩ := labels_replicate 0 [one] (m + 1) (distinctLabels (m + 1) i)
      (length_distinctLabels _ _)
    have hf : feature 0 [one] = one := rfl
    rw [hf] at h1 h2
    unfold splitImpurity weightedImpurity
    rw [h1, h2, Gini_nil_f64, Gini_distinct _ _ _ hn hstep]
    simp only [List.length_nil, length_distinctLabels, List.length_replicate]
    exact hdiv
  rw [himp]
  have hlt : F64.lt one one = false := F64.lt_irrefl one
  simp [scan, scanStep, hlt]

theorem ofNat_many_ne_zero : F64.eq (F64.ofNat (2 ^ 27)) zero = false := by decide!

theorem sub_square_many :
    F64.sub one (F64.mul (F64.div one (F64.ofNat (2 ^ 27))) (F64.div one (F64.ofNat (2 ^ 27)))) =
      one := by
  decide!

theorem weighted_many :
    F64.div (F64.add (F64.mul zero (F64.ofNat 0)) (F64.mul one (F64.ofNat (2 ^ 27))))
      (F64.ofNat (2 ^ 27)) = one := by
  decide!

theorem findBestSplit_many (ords : SplitOrders) :
    findBestSplit ords manyX manyY = Except.ok (-1, zero) :=
  findBestSplit_distinct ords (2 ^ 27) 1 (by decide) ofNat_many_ne_zero sub_square_many
    weighted_many

/-! ## The runs on `2^27` distinct labels and on two equal rows -/

theorem shape_distinct (n i : Nat) (hpos : 1 ≤ n) :
    List.replicate n [one] ≠ [] ∧ (∀ row ∈ List.replicate n [one], row.length = 1) ∧
    (distinctLabels n i).length = (List.replicate n [one]).length := by
  refine ⟨?_, ?_, ?_⟩
  · intro h
    have := congrArg List.length h
    rw [List.length_replicate] at this
    simp only [List.length_nil] at this
    omega
  · intro row hrow
    rw [(List.mem_replicate.mp hrow).2]
    rfl
  · rw [length_distinctLabels, List.length_replicate]

/-- C7, the claim as stated fails on `2^27` equal rows `[1]` with pairwise distinct labels:
`X` is not empty, its rows have the common width `1` and `y` has as many labels, yet in every
order of the map walks `findBestSplit` returns a pair `(f, t)` with `f` negative, which is
not a feature index. -/
theorem findBestSplit_many_negative :
    (manyX ≠ [] ∧ (∀ row ∈ manyX, row.length = 1) ∧ manyY.length = manyX.length) ∧
    ∀ ords : SplitOrders, ∃ f t, findBestSplit ords manyX manyY = Except.ok (f, t) ∧ ¬ 0 ≤ f :=
  ⟨shape_distinct (2 ^ 27) 1 (by decide), fun ords =>
    ⟨-1, zero, findBestSplit_many ords, by decide⟩⟩

theorem perm_pair {α : Type} [DecidableEq α] {l : List α} {a b : α}
    (h : List.Perm l [a, b]) : l = [a, b] ∨ l = [b, a] := by
  have hlen := h.length_eq
  match l, hlen with
  | [x, y], _ =>
    have hx : x ∈ [a, b] := h.mem_iff.mp (List.mem_cons_self _ _)
    have hy : y ∈ [a, b] := h.mem_iff.mp (by simp)
    have ha : a ∈ [x, y] := h.mem_iff.mpr (List.mem_cons_self _ _)
    have hb : b ∈ [x, y] := h.mem_iff.mpr (by simp)
    simp only [List.mem_cons, List.mem_singleton, List.not_mem_nil, or_false] at hx hy ha hb
    by_cases hab : a = b
    · subst hab
      rcases hx with rfl | rfl <;> rcases hy with rfl | rfl <;> simp
    · rcases hx with rfl | rfl
      · rcases hy with rfl | rfl
        · rcases hb with rfl | rfl <;> simp at hab
        · exact Or.inl rfl
      · rcases hy with rfl | rfl
        · exact Or.inr rfl
        · rcases ha with rfl | rfl <;> simp at hab

/-- The impurity of the labels `[0, 1]` is computed as `0.5` in either order of the walk. -/
theorem Gini_twin (ord : RangeOrd (F64 × F64)) : Gini ord twinY = F64.num (1 / 2) := by
  have hc : labelCounts twinY = [(zero, one), (one, one)] := by decide!
  have hp := ord.visit_perm (labelCounts twinY)
  rw [hc] at hp
  have h2 : F64.eq (F64.ofNat twinY.length) zero = false := by decide!
  unfold Gini
  simp only [h2, Bool.false_eq_true, if_false, hc]
  rcases perm_pair hp with h | h
  · rw [h]
    decide!
  · rw [h]
    decide!

theorem findBestSplit_twin (ords : SplitOrders) :
    findBestSplit ords twinX twinY = Except.ok (0, one) := by
  have hone : F64.eq one one = true := by decide!
  rw [findBestSplit_scan ords twinX twinY 1 (by decide) (by decide) (by decide)]
  have hcand := candidates_replicate ords one 1 twinY hone
  have hX : List.replicate (1 + 1) [one] = twinX := rfl
  rw [hX] at hcand
  rw [hcand]
  have himp : splitImpurity (ords.counts 0 0 false) (ords.counts 0 0 true) twinX twinY 0 one =
      F64.num (1 / 2) := by
    have hl : leftLabels twinX twinY 0 one = [] := by decide!
    have hr : rightLabels twinX twinY 0 one = twinY := by decide!
    unfold splitImpurity weightedImpurity
    rw [hl, hr, Gini_nil_f64, Gini_twin]
    decide!
  rw [himp]
  decide!

theorem splitDataset_twin :
    splitDataset twinX twinY 0 one = Except.ok ⟨[], twinX, [], twinY⟩ := by
  decide!

theorem buildTree_twin (sched : Schedule) (fuel depth : Nat) :
    buildTree sched fuel twinX twinY depth = Except.error Fault.outOfFuel := by
  induction fuel generalizing sched depth with
  | zero => rfl
  | succ fuel ih =>
    have hlen : ¬ twinX.length = 0 := by decide
    have hh : isHomogeneous twinY = Except.ok false := by decide!
    have hne : ¬ (0 : Int) = -1 := by decide
    simp only [buildTree, if_neg hlen, hh, findBestSplit_twin, if_neg hne, splitDataset_twin]
    cases fuel with
    | zero => rfl
    | succ fuel =>
      have hl : buildTree (fun path => sched (false :: path)) (fuel + 1) [] [] (depth + 1) =
          Except.ok DecisionNode.nil := by
        simp [buildTree]
      rw [hl]
      simp only []
      rw [ih]

/-- C13 does not hold of the code at `X = [[1], [1]]`, `y = [0, 1]`: both rows are equal,
the width is `1` and the labels differ, yet in every order of the map walks `findBestSplit`
returns the split `(0, 1)`, not the sentinel; `splitDataset` with it sends both samples right;
and `buildTree` calls itself on the same data again and returns no leaf, whatever the depth
allowed to the recursion. -/
theorem twin_rows_recursion (ords : SplitOrders) (sched : Schedule) (fuel depth : Nat) :
    findBestSplit ords twinX twinY = Except.ok (0, one) ∧
    splitDataset twinX twinY 0 one = Except.ok ⟨[], twinX, [], twinY⟩ ∧
    buildTree sched fuel twinX twinY depth = Except.error Fault.outOfFuel :=
  ⟨findBestSplit_twin ords, splitDataset_twin, buildTree_twin sched fuel depth⟩

/-- C15, the claim as stated fails at `X = [[1], [1]]`, `y = [0, 1]`: the dataset is not
empty, has one feature and labels that differ, and in every order of the map walks the split
that `findBestSplit` returns leaves `leftX` empty. -/
theorem split_left_empty_float :
    twinX ≠ [] ∧ (∀ row ∈ twinX, row.length = 1) ∧ isHomogeneous twinY = Except.ok false ∧
    ∀ ords : SplitOrders, ∃ f t s, findBestSplit ords twinX twinY = Except.ok (f, t) ∧
      splitDataset twinX twinY f t = Except.ok s ∧ s.leftX = [] :=
  ⟨by decide, by decide, by decide!, fun ords =>
    ⟨0, one, _, findBestSplit_twin ords, splitDataset_twin, rfl⟩⟩

/-! ## The search on the test data and on tied candidates -/

/-- Witness of the amended C7 on the data of `TestSaveLoadModel`, where the split `(0, 3)` is
returned. -/
theorem findBestSplit_minimal_float_witness :
    findBestSplit insertionOrders testX testY = Except.ok (0, F64.num 3) ∧
    (testX ≠ [] ∧ (∀ row ∈ testX, row.length = 2) ∧ testY.length = testX.length) ∧
    ∃ f t, findBestSplit insertionOrders testX testY = Except.ok (f, t) ∧
      (∀ g < 2, ∀ row ∈ testX, ∃ c ∈ candidates insertionOrders testX testY 2,
        c.featureIndex = g ∧
        (c.threshold = feature g row ∨ F64.eq c.threshold (feature g row) = true)) ∧
      (∀ c ∈ candidates insertionOrders testX testY 2, ∃ j,
        candidateImpurity (insertionOrders.counts c.featureIndex j false)
          (insertionOrders.counts c.featureIndex j true) testX testY c.featureIndex
            c.threshold = Except.ok c.impurity) ∧
      ((f = -1 ∧ ∀ c ∈ candidates insertionOrders testX testY 2,
          F64.lt c.impurity one = false) ∨
        (0 ≤ f ∧ f < ((2 : Nat) : Int) ∧ t ∈ testX.map (feature f) ∧
          ∃ c ∈ candidates insertionOrders testX testY 2, (c.featureIndex : Int) = f ∧
            c.threshold = t ∧ F64.lt c.impurity one = true ∧
            ∀ d ∈ candidates insertionOrders testX testY 2,
              F64.lt d.impurity c.impurity = false)) :=
  ⟨by decide!, ⟨by decide, by decide, by decide⟩,
    findBestSplit_minimal_float insertionOrders testX testY 2 (by decide) (by decide)
      (by decide)⟩

/-- C20, the claim as stated fails on three equal rows `[2, 3]` with the labels `[1, 0, 1]`:
the candidates `(0, 2)` and `(1, 3)` send the same labels to the same sides, so their weighted
impurities are the same number, and computed under one order of the walks of `Gini` they are
the same `float64`; but in the run `tieOrders` the impurity computed for `(0, 2)` is
`0.4444444444444445` and the one computed for `(1, 3)` is `0.4444444444444444`, and
`findBestSplit` returns feature `1`, not the lowest feature index that attains the minimum. -/
theorem findBestSplit_tie_to_higher_feature :
    findBestSplit tieOrders tieX tieY = Except.ok (1, F64.num 3) ∧
    leftLabels tieX tieY 0 (F64.num 2) = leftLabels tieX tieY 1 (F64.num 3) ∧
    rightLabels tieX tieY 0 (F64.num 2) = rightLabels tieX tieY 1 (F64.num 3) ∧
    (∀ ordL ordR, splitImpurity ordL ordR tieX tieY 0 (F64.num 2) =
      splitImpurity ordL ordR tieX tieY 1 (F64.num 3)) ∧
    candidates tieOrders tieX tieY 2 =
      [⟨0, F64.num 2, F64.num (8006399337547549 / 18014398509481984)⟩,
        ⟨1, F64.num 3, F64.num (2001599834386887 / 4503599627370496)⟩] := by
  have h1 : leftLabels tieX tieY 0 (F64.num 2) = leftLabels tieX tieY 1 (F64.num 3) := by
    decide!
  have h2 : rightLabels tieX tieY 0 (F64.num 2) = rightLabels tieX tieY 1 (F64.num 3) := by
    decide!
  refine ⟨by decide!, h1, h2, ?_, by decide!⟩
  intro ordL ordR
  unfold splitImpurity
  rw [h1, h2]

/-- Witness of the amended C20 on the data of `TestSaveLoadModel`. -/
theorem findBestSplit_lowest_feature_float_witness :
    findBestSplit insertionOrders testX testY = Except.ok (0, F64.num 3) ∧
    (testX ≠ [] ∧ (∀ row ∈ testX, row.length = 2) ∧ testY.length = testX.length) ∧
    ∃ f t, findBestSplit insertionOrders testX testY = Except.ok (f, t) ∧
      (∀ c ∈ candidates insertionOrders testX testY 2, ∃ j,
        candidateImpurity (insertionOrders.counts c.featureIndex j false)
          (insertionOrders.counts c.featureIndex j true) testX testY c.featureIndex
            c.threshold = Except.ok c.impurity) ∧
      (f = -1 ∨
        ∃ c ∈ candidates insertionOrders testX testY 2, (c.featureIndex : Int) = f ∧
          c.threshold = t ∧
          ∀ d ∈ candidates insertionOrders testX testY 2, (d.featureIndex : Int) < f →
            F64.lt d.impurity c.impurity = false ∧
            F64.eq d.impurity c.impurity = false) :=
  ⟨by decide!, ⟨by decide, by decide, by decide⟩,
    findBestSplit_lowest_feature_float insertionOrders testX testY 2 (by decide) (by decide)
      (by decide)⟩

/-- Witness of the amended C15 on the data of `TestSaveLoadModel`, where the split `(0, 3)`
puts the first sample left and the second right. -/
theorem split_right_nonempty_witness :
    splitDataset testX testY 0 (F64.num 3) =
      Except.ok ⟨[[F64.num 1, F64.num 2]], [[F64.num 3, F64.num 4]], [zero], [one]⟩ ∧
    (testX ≠ [] ∧ (∀ row ∈ testX, row.length = 2) ∧ testY.length = testX.length) ∧
    ∃ f t, findBestSplit insertionOrders testX testY = Except.ok (f, t) ∧
      (f = -1 ∨
        ∃ s, splitDataset testX testY f t = Except.ok s ∧ s.rightX ≠ [] ∧
          s.leftX.length = s.leftY.length ∧ s.rightX.length = s.rightY.length ∧
          s.leftX.length + s.rightX.length = testX.length) :=
  ⟨by decide!, ⟨by decide, by decide, by decide⟩,
    split_right_nonempty insertionOrders testX testY 2 (by decide) (by decide) (by decide)⟩

/-! ## Prediction on the training data -/

theorem giniLoop_foldl (total : F64) (entries : List (F64 × F64)) (impurity : F64) :
    giniLoop total entries impurity =
      entries.foldl
        (fun acc e => F64.sub acc (F64.mul (F64.div e.2 total) (F64.div e.2 total)))
        impurity := by
  induction entries generalizing impurity with
  | nil => rfl
  | cons e entries ih =>
    obtain ⟨k, c⟩ := e
    simp only [giniLoop, List.foldl_cons]
    exact ih _

theorem increment_insertKey (g g1 : F64 → F64) (K : List F64) (a : F64)
    (hK : K.Pairwise (fun k1 k2 => F64.eq k1 k2 = false))
    (h1 : ∀ c ∈ K, F64.eq c a = true → g1 a = bumpFloat (g c))
    (h2 : ∀ c ∈ K, F64.eq c a = false → g1 c = g c)
    (h3 : (∀ c ∈ K, F64.eq c a = false) → g1 a = bumpFloat zero) :
    increment bumpFloat zero (K.map fun c => (c, g c)) a =
      (insertKey K a).map fun c => (c, g1 c) := by
  induction K with
  | nil =>
    simp only [List.map_nil, increment, insertKey, List.map_cons]
    rw [h3 (by simp)]
  | cons k K ih =>
    obtain ⟨hk1, hk2⟩ := List.pairwise_cons.mp hK
    cases hka : F64.eq k a with
    | true =>
      simp only [List.map_cons, increment, insertKey, hka, if_true]
      rw [h1 k (List.mem_cons_self _ _) hka]
      congr 1
      refine List.map_congr_left fun c hc => ?_
      have hca : F64.eq c a = false := by
        cases h : F64.eq c a with
        | false => rfl
        | true =>
          have := F64.eq_trans hka (F64.eq_symm h)
          rw [hk1 c hc] at this
          cases this
      rw [h2 c (List.mem_cons_of_mem _ hc) hca]
    | false =>
      simp only [List.map_cons, increment, insertKey, hka, Bool.false_eq_true, if_false]
      rw [h2 k (List.mem_cons_self _ _) hka]
      congr 1
      refine ih hk2 (fun c hc => h1 c (List.mem_cons_of_mem _ hc))
        (fun c hc => h2 c (List.mem_cons_of_mem _ hc)) ?_
      intro hall
      refine h3 ?_
      intro c hc
      rcases List.mem_cons.mp hc with hc | hc
      · rw [hc]
        exact hka
      · exact hall c hc

theorem classCount_snoc (c a : F64) (p : List F64) (hc : F64.eq c a = false) :
    classCount c (p ++ [a]) = classCount c p := by
  unfold classCount
  have ho : occ c (p ++ [a]) = occ c p := by
    have := occ_snoc p a c
    rw [F64.eq_comm, hc] at this
    simp only [Bool.false_eq_true, if_false, add_zero] at this
    omega
  rw [ho]

theorem isNaN_eq_false {c : F64} (h : c ≠ F64.nan) : F64.isNaN c = false := by
  cases c <;> first | rfl | exact absurd rfl h

theorem classCount_snoc_self (c a : F64) (p : List F64) (hc : F64.eq c a = true) :
    classCount a (p ++ [a]) = bumpFloat (classCount c p) := by
  have hcn : c ≠ F64.nan := F64.ne_nan_of_eq hc
  have han : a ≠ F64.nan := F64.ne_nan_of_eq (F64.eq_symm hc)
  have ho : occ a (p ++ [a]) = occ c p + 1 := by
    have := occ_snoc p a a
    rw [F64.eq_self han] at this
    simp only [if_true] at this
    rw [occ_congr hc p]
    omega
  unfold classCount
  rw [isNaN_eq_false hcn, isNaN_eq_false han, ho]
  rfl

/-- The map `labelCounts` after the first loop of `Gini`: one entry per class, in order of
first occurrence, that holds the count of the class. -/
theorem labelCounts_classes (y : List F64) :
    labelCounts y = (classes y).map (fun c => (c, classCount c y)) ∧
    (classes y).Pairwise (fun k1 k2 => F64.eq k1 k2 = false) ∧
    ∀ x ∈ y, x ≠ F64.nan → ∃ k ∈ classes y, F64.eq k x = true := by
  induction y using List.reverseRecOn with
  | nil => exact ⟨rfl, List.Pairwise.nil, by simp⟩
  | append_singleton p a ih =>
    obtain ⟨h1, h2, h3⟩ := ih
    have hl : labelCounts (p ++ [a]) = increment bumpFloat zero (labelCounts p) a := by
      simp [labelCounts, List.foldl_append]
    have hc : classes (p ++ [a]) = insertKey (classes p) a := by
      simp [classes, List.foldl_append]
    rw [hl, hc, h1]
    refine ⟨?_, insertKey_pairwise _ _ h2, ?_⟩
    · refine increment_insertKey _ _ _ _ h2
        (fun c _ hca => classCount_snoc_self c a p hca)
        (fun c _ hca => classCount_snoc c a p hca) ?_
      intro hnone
      have hocc : occ a p = 0 := by
        unfold occ
        rw [List.countP_eq_zero]
        intro x hx
        cases hxa : F64.eq x a with
        | false => simp
        | true =>
          exfalso
          obtain ⟨k, hkm, hkx⟩ := h3 x hx (F64.ne_nan_of_eq hxa)
          have := F64.eq_trans hkx hxa
          rw [hnone k hkm] at this
          cases this
      unfold classCount
      cases hnan : F64.isNaN a with
      | true =>
        rw [bumpFloat_zero]
        rfl
      | false =>
        have hne : a ≠ F64.nan := by
          rintro rfl
          cases hnan
        have ho : occ a (p ++ [a]) = 1 := by
          have := occ_snoc p a a
          rw [F64.eq_self hne, hocc] at this
          simp only [if_true] at this
          omega
        simp only [Bool.false_eq_true, if_false, ho]
        rfl
    · intro x hx hxn
      rcases List.mem_append.mp hx with hx | hx
      · obtain ⟨k, hkm, hkx⟩ := h3 x hx hxn
        obtain ⟨k1, hk1m, hk1e⟩ := insertKey_cover (classes p) a k hkm (F64.ne_nan_of_eq hkx)
        exact ⟨k1, hk1m, F64.eq_trans hk1e hkx⟩
      · rw [List.mem_singleton] at hx
        rw [hx] at hxn ⊢
        exact ⟨a, self_mem_insertKey _ _, F64.eq_self hxn⟩

/-- C3, the claim as stated fails on its own witness and has no single value to name. In
every order of the walk over the map, `Gini([1, 2, 1, 2, 3])` is computed as
`0.6399999999999999` (the `float64` below `0.64`), not as the `float64` `0.64`; and
`Gini([1, 0, 1])` is `0.4444444444444445` when the walk visits the classes in insertion order
and `0.4444444444444444` in the reverse order, so the result is not a function of the labels
alone. -/
theorem Gini_rounds_and_reorders :
    (∀ ord, Gini ord [F64.num 1, F64.num 2, F64.num 1, F64.num 2, F64.num 3] =
      F64.num (2882303761517117 / 4503599627370496)) ∧
    F64.num (2882303761517117 / 4503599627370496) ≠ F64.round (64 / 100) ∧
    Gini (insertionOrd _) [one, zero, one] =
      F64.num (8006399337547549 / 18014398509481984) ∧
    Gini (reverseOrd _) [one, zero, one] = F64.num (2001599834386887 / 4503599627370496) := by
  refine ⟨?_, by decide!, by decide!, by decide!⟩
  intro ord
  have hc : labelCounts [F64.num 1, F64.num 2, F64.num 1, F64.num 2, F64.num 3] =
      [(F64.num 1, F64.num 2), (F64.num 2, F64.num 2), (F64.num 3, F64.num 1)] := by decide!
  have hall : ∀ l ∈ List.permutations
      [(F64.num 1, F64.num 2), (F64.num 2, F64.num 2), (F64.num 3, F64.num 1)],
      giniLoop (F64.ofNat 5) l one = F64.num (2882303761517117 / 4503599627370496) := by
    decide!
  have hp := ord.visit_perm
    (labelCounts [F64.num 1, F64.num 2, F64.num 1, F64.num 2, F64.num 3])
  rw [hc] at hp
  have h5 : F64.eq (F64.ofNat 5) zero = false := by decide!
  unfold Gini
  simp only [List.length_cons, List.length_nil, h5, Bool.false_eq_true, if_false, hc]
  exact hall _ (List.mem_permutations.mpr hp)

/-- C3, amended: `Gini` is the `float64` evaluation of its reference definition in the order
of the map walk. For every label list `y` and every order `ord` of the walk, `Gini(y)` is `0`
when `y` is empty, and otherwise the value obtained from `1.0` by subtracting
`(count_c / len(y))^2` for one class `c` of `y` after the other in the order `ord`, every
operation rounded to `float64`; `count_c` is the number of labels `==` to `c`, a NaN label
being a class of its own. `Gini([1, 0, 1, 0])` is exactly `0.5` in every order. -/
theorem Gini_eq_reference_float (ord : RangeOrd (F64 × F64)) (y : List F64) :
    Gini ord y = giniRef ord y ∧ Gini ord [] = zero ∧
    Gini ord [one, zero, one, zero] = F64.num (1 / 2) := by
  refine ⟨?_, Gini_nil_f64 ord, ?_⟩
  · unfold Gini giniRef
    by_cases hy : y = []
    · subst hy
      rfl
    · have hpos : 0 < y.length := List.length_pos.mpr hy
      simp only [F64.ofNat_ne_zero y.length hpos, zero, Bool.false_eq_true, if_false, if_neg hy]
      rw [giniLoop_foldl, (labelCounts_classes y).1]
  · have hc : labelCounts [one, zero, one, zero] = [(one, F64.num 2), (zero, F64.num 2)] := by
      decide!
    have hall : ∀ l ∈ List.permutations [(one, F64.num 2), (zero, F64.num 2)],
        giniLoop (F64.ofNat 4) l one = F64.num (1 / 2) := by
      decide!
    have hp := ord.visit_perm (labelCounts [one, zero, one, zero])
    rw [hc] at hp
    have h4 : F64.eq (F64.ofNat 4) zero = false := by decide!
    unfold Gini
    simp only [List.length_cons, List.length_nil, h4, Bool.false_eq_true, if_false, hc]
    exact hall _ (List.mem_permutations.mpr hp)

end Cart64
